import Mathlib

/-!
# net_flex: the fixed-block memory pool and its buffer queue

A shallow embedding of `3rd/mempool/src/mempool.c` (with the constants of
`3rd/mempool/include/mempool.h`) and theorems about it.

Conventions of the embedding.

* `size_t` and `uint64_t` values are natural numbers; every `size_t` operation
  that can exceed the word is reduced modulo `2 ^ 64` where the C code computes it.
* A pointer is the natural number of its address and `NULL` is `0`.  The address
  computation `base + n` is plain addition: C defines it only inside the object
  and one past it, where no wrap-around occurs.  The offset `n` itself is a
  `size_t` value and wraps.
* A handle (`mempool_t *`, `mempool_queue_t *`) is modelled by the state of the
  object it points to, so the functions below are the bodies executed for a
  non-null handle; `queue->pool` is passed as an explicit argument.  The pool
  functions called through a handle that may be null are the `_handle` functions.
* The results of `MEMPOOL_MALLOC` / `MEMPOOL_MEMALIGN` are inputs of the
  creating functions.
* A result of `-1` or "no value" of a C `int` index is `none`.
* Locks are not modelled: every function body runs atomically.  The one exception
  is `dequeue_race`, which interleaves two calls at the granularity of lock regions.
-/

namespace Mempool

/-! ## Constants of `mempool.h` -/

/-- The value `MEMPOOL_ALIGNMENT`. -/
def MEMPOOL_ALIGNMENT : Nat := 64

/-- The value `MEMPOOL_MAX_BLOCKS`. -/
def MEMPOOL_MAX_BLOCKS : Nat := 256

/-- The value `BITMAP_WORDS` selected for `MEMPOOL_MAX_BLOCKS = 256`. -/
def BITMAP_WORDS : Nat := 4

/-- The value `LOG2_MEMPOOL_BITMAP_EACH_NUM`. -/
def LOG2_MEMPOOL_BITMAP_EACH_NUM : Nat := 6

/-- The value `MEMPOOL_BITMAP_EACH_NUM`, that is `sizeof(uint64_t) * 8`. -/
def MEMPOOL_BITMAP_EACH_NUM : Nat := 64

/-- The modulus of `size_t` and of `BITMAP_TYPE` (`uint64_t`). -/
def SIZE_MOD : Nat := 2 ^ 64

/-- The null pointer. -/
def NULL : Nat := 0

/-- The decrement `x--` of a `size_t` variable, which wraps around at `0`. -/
def size_dec (x : Nat) : Nat := if x = 0 then SIZE_MOD - 1 else x - 1

/-- Bitwise complement `~x` of a 64-bit word. -/
def not64 (x : Nat) : Nat := (SIZE_MOD - 1) ^^^ x

/-- The word `(BITMAP_TYPE)1 << bit_pos`. -/
def bit_mask (bit_pos : Nat) : Nat := 1 <<< bit_pos

/-! ## Bit-scan utilities -/

/-- The loop `for (i = ...; i < 64; i++) if (bitmap & (1 << i)) return i; return -1`,
with `n` iterations left. -/
def ffs_scan (bitmap : Nat) : Nat → Nat → Option Nat
  | 0, _ => none
  | n + 1, i => if bitmap &&& bit_mask i ≠ 0 then some i else ffs_scan bitmap n (i + 1)

/-- The function `find_first_set_bit`: index of the lowest set bit (what
`__builtin_ffsll(bitmap) - 1` and the generic loop both compute), `none` for `-1`. -/
def find_first_set_bit (bitmap : Nat) : Option Nat :=
  if bitmap = 0 then none else ffs_scan bitmap MEMPOOL_BITMAP_EACH_NUM 0

/-- The macro `POPCOUNT_LL`, that is `__builtin_popcountll`: the number of set bits
of a 64-bit word. -/
def POPCOUNT_LL (x : Nat) : Nat :=
  (List.range 64).countP (fun b => x.testBit b)

/-- The function `popcount_ll_generic`, the fallback behind `POPCOUNT_LL` when no
compiler builtin is available.  Each assignment to the `uint64_t` variable `x` wraps at
`2^64`; the returned sum is converted from `uint64_t` to `int` (32 bits, two's
complement). -/
def popcount_ll_generic (x : Nat) : Int :=
  let x1 := ((x &&& 0x5555555555555555) + ((x >>> 1) &&& 0x5555555555555555)) % SIZE_MOD
  let x2 := ((x1 &&& 0x3333333333333333) + ((x1 >>> 2) &&& 0x3333333333333333)) % SIZE_MOD
  let x3 := ((x2 &&& 0x0F0F0F0F0F0F0F0F) + ((x2 >>> 4) &&& 0x0F0F0F0F0F0F0F0F)) % SIZE_MOD
  let x4 := ((x3 &&& 0x00FF00FF00FF00FF) + ((x3 >>> 8) &&& 0x00FF00FF00FF00FF)) % SIZE_MOD
  let x5 := ((x4 &&& 0x0000FFFF0000FFFF) + ((x4 >>> 16) &&& 0x0000FFFF0000FFFF)) % SIZE_MOD
  let r := ((x5 &&& 0x00000000FFFFFFFF) + ((x5 >>> 32) &&& 0x00000000FFFFFFFF)) % SIZE_MOD
  if r % 2 ^ 32 < 2 ^ 31 then ((r % 2 ^ 32 : Nat) : Int) else ((r % 2 ^ 32 : Nat) : Int) - 2 ^ 32

/-! ## The pool -/

/-- The struct `mempool_t` (without its lock). -/
structure mempool_t where
  memory_area : Nat
  block_size_unaligned : Nat
  block_size : Nat
  block_count : Nat
  free_bitmap : List Nat
  hw_owned_bitmap : List Nat
deriving DecidableEq, Repr

/-- Array read `a[i]`. -/
def word (a : List Nat) (i : Nat) : Nat := a.getD i 0

/-- The function `mempool_create`.  `pool_mem` tells whether
`MEMPOOL_MALLOC(sizeof(mempool_t))` succeeded and `area` is the pointer returned by
`MEMPOOL_MEMALIGN(MEMPOOL_ALIGNMENT, aligned_size * num_blocks)`. -/
def mempool_create (data_size num_blocks : Nat) (pool_mem : Bool) (area : Nat) :
    Option mempool_t :=
  if data_size = 0 ∨ num_blocks = 0 ∨ num_blocks > MEMPOOL_MAX_BLOCKS then none
  else
    let aligned_size :=
      ((data_size + MEMPOOL_ALIGNMENT - 1) % SIZE_MOD) &&& not64 (MEMPOOL_ALIGNMENT - 1)
    if pool_mem = false then none
    else if area = NULL then none
    else
      let free0 := (List.range BITMAP_WORDS).map (fun _ => SIZE_MOD - 1)
      let hw0 := (List.range BITMAP_WORDS).map (fun _ => 0)
      let free1 :=
        if num_blocks % MEMPOOL_BITMAP_EACH_NUM ≠ 0 then
          let used_bits := num_blocks % MEMPOOL_BITMAP_EACH_NUM
          let last_word := (num_blocks - 1) / MEMPOOL_BITMAP_EACH_NUM
          free0.set last_word (word free0 last_word &&& (bit_mask used_bits - 1))
        else free0
      some { memory_area := area
             block_size_unaligned := data_size
             block_size := aligned_size
             block_count := num_blocks
             free_bitmap := free1
             hw_owned_bitmap := hw0 }

/-- The scan loop of `mempool_alloc` from word `i`, with `n` iterations left.
Returns the block pointer (`NULL` when the loop runs out) and the new pool state. -/
def alloc_scan (pool : mempool_t) (for_hw : Bool) : Nat → Nat → Nat × mempool_t
  | 0, _ => (NULL, pool)
  | n + 1, i =>
    let bitmap := word pool.free_bitmap i
    if bitmap = 0 then alloc_scan pool for_hw n (i + 1)
    else
      match find_first_set_bit bitmap with
      | none => alloc_scan pool for_hw n (i + 1)
      | some bit_pos =>
        let block_idx := i * MEMPOOL_BITMAP_EACH_NUM + bit_pos
        if block_idx ≥ pool.block_count then alloc_scan pool for_hw n (i + 1)
        else
          let free1 := pool.free_bitmap.set i (word pool.free_bitmap i &&& not64 (bit_mask bit_pos))
          let hw1 :=
            if for_hw then
              pool.hw_owned_bitmap.set i (word pool.hw_owned_bitmap i ||| bit_mask bit_pos)
            else pool.hw_owned_bitmap
          (pool.memory_area + (block_idx * pool.block_size) % SIZE_MOD,
            { pool with free_bitmap := free1, hw_owned_bitmap := hw1 })

/-- The function `mempool_alloc`: the returned pointer and the pool state afterwards. -/
def mempool_alloc (pool : mempool_t) (for_hw : Bool) : Nat × mempool_t :=
  alloc_scan pool for_hw BITMAP_WORDS 0

/-- The function `mempool_free`: the pool state afterwards. -/
def mempool_free (pool : mempool_t) (ptr : Nat) : mempool_t :=
  if ptr = NULL then pool
  else if ptr < pool.memory_area ∨
      ptr ≥ pool.memory_area + (pool.block_size * pool.block_count) % SIZE_MOD then pool
  else
    let offset := (ptr - pool.memory_area) % SIZE_MOD
    let block_idx := offset / pool.block_size
    if block_idx ≥ pool.block_count then pool
    else
      let word_idx := block_idx / MEMPOOL_BITMAP_EACH_NUM
      let bit_pos := block_idx % MEMPOOL_BITMAP_EACH_NUM
      if word pool.free_bitmap word_idx &&& bit_mask bit_pos ≠ 0 then pool
      else
        let hw1 :=
          if word pool.hw_owned_bitmap word_idx &&& bit_mask bit_pos ≠ 0 then
            pool.hw_owned_bitmap.set word_idx
              (word pool.hw_owned_bitmap word_idx &&& not64 (bit_mask bit_pos))
          else pool.hw_owned_bitmap
        { pool with
          hw_owned_bitmap := hw1
          free_bitmap :=
            pool.free_bitmap.set word_idx (word pool.free_bitmap word_idx ||| bit_mask bit_pos) }

/-- The function `mempool_available`: `count += POPCOUNT_LL(free_bitmap[i])` over the
`BITMAP_WORDS` words. -/
def mempool_available (pool : mempool_t) : Nat :=
  (List.range BITMAP_WORDS).foldl
    (fun count i => (count + POPCOUNT_LL (word pool.free_bitmap i)) % SIZE_MOD) 0

/-- The function `mempool_used`: `block_count - mempool_available(pool)` in `size_t`. -/
def mempool_used (pool : mempool_t) : Nat :=
  (pool.block_count + (SIZE_MOD - mempool_available pool % SIZE_MOD)) % SIZE_MOD

/-- The function `mempool_block_size`. -/
def mempool_block_size (pool : mempool_t) : Nat := pool.block_size

/-- The function `get_block_index`.  The difference `buffer - pool->memory_area` is
taken in `size_t` and the quotient is cast to `int` (32 bits); the result `-1`, like
every negative result of the cast, is `none`: the only caller rejects all of them. -/
def get_block_index (pool : mempool_t) (buffer : Nat) : Option Nat :=
  if buffer = NULL then none
  else
    let offset := (buffer + (SIZE_MOD - pool.memory_area % SIZE_MOD)) % SIZE_MOD
    if offset ≥ (pool.block_size * pool.block_count) % SIZE_MOD then none
    else
      let q := (offset / pool.block_size) % 2 ^ 32
      if q < 2 ^ 31 then some q else none

/-! ## The queue -/

/-- The struct `mempool_queue_t`, without its `pool` pointer (the pool is an argument of
every queue function) and without the `next` link, which no function reads or writes
after `mempool_queue_create` has set it to `NULL`. -/
structure mempool_queue_t where
  block_indices : List Nat
  data_lengths : List Nat
  capacity : Nat
  head : Nat
  tail : Nat
  count : Nat
  queue_bitmap : List Nat
deriving DecidableEq, Repr

/-- The function `mempool_queue_create`.  A `none` pool is the null handle; `queue_mem`
tells whether the allocation of the queue structure succeeded; `indices_mem` and
`lengths_mem` are the arrays returned by the two `MEMPOOL_MALLOC` calls with the
contents they happen to have (`none` when the call fails). -/
def mempool_queue_create (pool : Option mempool_t) (capacity : Nat) (queue_mem : Bool)
    (indices_mem lengths_mem : Option (List Nat)) : Option mempool_queue_t :=
  match pool with
  | none => none
  | some pool =>
    if capacity = 0 ∨ capacity > pool.block_count then none
    else if queue_mem = false then none
    else
      match indices_mem with
      | none => none
      | some block_indices =>
        match lengths_mem with
        | none => none
        | some data_lengths =>
          some { block_indices := block_indices
                 data_lengths := data_lengths
                 capacity := capacity
                 head := 0
                 tail := 0
                 count := 0
                 queue_bitmap := (List.range BITMAP_WORDS).map (fun _ => 0) }

/-- The function `validate_queue_and_buffer`: `none` for the result `-1`, otherwise the
index stored through `block_idx`. -/
def validate_queue_and_buffer (pool : mempool_t) (queue : mempool_queue_t) (buffer : Nat) :
    Option Nat :=
  if buffer = NULL ∨ queue.count ≥ queue.capacity then none
  else
    match get_block_index pool buffer with
    | none => none
    | some block_idx =>
      if block_idx ≥ pool.block_count then none
      else
        let word_idx := block_idx >>> LOG2_MEMPOOL_BITMAP_EACH_NUM
        let bit_pos := block_idx &&& (MEMPOOL_BITMAP_EACH_NUM - 1)
        if word queue.queue_bitmap word_idx &&& bit_mask bit_pos ≠ 0 then none
        else some block_idx

/-- The function `do_enqueue`. -/
def do_enqueue (queue : mempool_queue_t) (block_idx data_length : Nat) : mempool_queue_t :=
  let word_idx := block_idx >>> LOG2_MEMPOOL_BITMAP_EACH_NUM
  let bit_pos := block_idx &&& (MEMPOOL_BITMAP_EACH_NUM - 1)
  { queue with
    block_indices := queue.block_indices.set queue.tail (block_idx % 2 ^ 16)
    data_lengths := queue.data_lengths.set queue.tail data_length
    tail := (queue.tail + 1) % queue.capacity
    count := (queue.count + 1) % SIZE_MOD
    queue_bitmap :=
      queue.queue_bitmap.set word_idx (word queue.queue_bitmap word_idx ||| bit_mask bit_pos) }

/-- The function `do_dequeue`: the returned pointer, the length it stores through a
non-null `data_length`, and the queue afterwards. -/
def do_dequeue (pool : mempool_t) (queue : mempool_queue_t) : Nat × Nat × mempool_queue_t :=
  let block_idx := word queue.block_indices queue.head
  let data_length := word queue.data_lengths queue.head
  let word_idx := block_idx >>> LOG2_MEMPOOL_BITMAP_EACH_NUM
  let bit_pos := block_idx &&& (MEMPOOL_BITMAP_EACH_NUM - 1)
  (pool.memory_area + (block_idx * pool.block_size) % SIZE_MOD, data_length,
    { queue with
      head := (queue.head + 1) % queue.capacity
      count := size_dec queue.count
      queue_bitmap :=
        queue.queue_bitmap.set word_idx
          (word queue.queue_bitmap word_idx &&& not64 (bit_mask bit_pos)) })

/-- The function `mempool_queue_enqueue_with_length`: the returned code (`0` or `-1`)
and the queue afterwards. -/
def mempool_queue_enqueue_with_length (pool : mempool_t) (queue : mempool_queue_t)
    (buffer data_length : Nat) : Int × mempool_queue_t :=
  match validate_queue_and_buffer pool queue buffer with
  | none => (-1, queue)
  | some block_idx => (0, do_enqueue queue block_idx data_length)

/-- The function `mempool_queue_enqueue`. -/
def mempool_queue_enqueue (pool : mempool_t) (queue : mempool_queue_t) (buffer : Nat) :
    Int × mempool_queue_t :=
  mempool_queue_enqueue_with_length pool queue buffer 0

/-- The function `mempool_queue_dequeue_with_length`: the returned pointer, the value
stored through `data_length`, and the queue afterwards. -/
def mempool_queue_dequeue_with_length (pool : mempool_t) (queue : mempool_queue_t) :
    Nat × Nat × mempool_queue_t :=
  if queue.count = 0 then (NULL, 0, queue) else do_dequeue pool queue

/-- The function `mempool_queue_dequeue`: the returned pointer and the queue afterwards. -/
def mempool_queue_dequeue (pool : mempool_t) (queue : mempool_queue_t) :
    Nat × mempool_queue_t :=
  ((mempool_queue_dequeue_with_length pool queue).1,
    (mempool_queue_dequeue_with_length pool queue).2.2)

/-- The function `mempool_queue_peek`. -/
def mempool_queue_peek (pool : mempool_t) (queue : mempool_queue_t) : Nat :=
  if queue.count = 0 then NULL
  else pool.memory_area + (word queue.block_indices queue.head * pool.block_size) % SIZE_MOD

/-- The loop of `mempool_queue_dequeue_batch_with_length`, with `n` iterations left:
the `(buffers[i], data_lengths[i])` written, in order, and the queue afterwards. -/
def dequeue_loop (pool : mempool_t) : Nat → mempool_queue_t → List (Nat × Nat) × mempool_queue_t
  | 0, queue => ([], queue)
  | n + 1, queue =>
    (((do_dequeue pool queue).1, (do_dequeue pool queue).2.1) ::
        (dequeue_loop pool n (do_dequeue pool queue).2.2).1,
      (dequeue_loop pool n (do_dequeue pool queue).2.2).2)

/-- The function `mempool_queue_dequeue_batch_with_length`: the returned count, the
entries written to the output arrays, and the queue afterwards.  `buffers` is the
pointer to the output array. -/
def mempool_queue_dequeue_batch_with_length (pool : mempool_t) (queue : mempool_queue_t)
    (buffers max_count : Nat) : Nat × List (Nat × Nat) × mempool_queue_t :=
  if buffers = NULL ∨ max_count = 0 then (0, [], queue)
  else
    let actual_count := if queue.count < max_count then queue.count else max_count
    (actual_count, dequeue_loop pool actual_count queue)

/-- The function `mempool_queue_count`. -/
def mempool_queue_count (queue : mempool_queue_t) : Nat := queue.count

/-- The function `mempool_queue_is_empty`. -/
def mempool_queue_is_empty (queue : mempool_queue_t) : Bool := decide (queue.count = 0)

/-- The function `mempool_queue_is_full`. -/
def mempool_queue_is_full (queue : mempool_queue_t) : Bool :=
  decide (queue.count ≥ queue.capacity)

/-! ## Vocabulary of the properties -/

/-- Bit `i` of a bitmap array: bit `i % 64` of word `i / 64`. -/
def get_bit (a : List Nat) (i : Nat) : Bool := (word a (i / 64)).testBit (i % 64)

/-- The array after `a[i / 64] &= ~(1 << (i % 64))`. -/
def clear_bit (a : List Nat) (i : Nat) : List Nat :=
  a.set (i / 64) (word a (i / 64) &&& not64 (bit_mask (i % 64)))

/-- The array after `a[i / 64] |= 1 << (i % 64)`. -/
def set_bit (a : List Nat) (i : Nat) : List Nat :=
  a.set (i / 64) (word a (i / 64) ||| bit_mask (i % 64))

/-- Address of block `idx`: `pool->memory_area + idx * pool->block_size`. -/
def block_ptr (pool : mempool_t) (idx : Nat) : Nat :=
  pool.memory_area + (idx * pool.block_size) % SIZE_MOD

/-- Pool state after block `idx` has been handed out. -/
def alloc_result (pool : mempool_t) (for_hw : Bool) (idx : Nat) : mempool_t :=
  { pool with
    free_bitmap := clear_bit pool.free_bitmap idx
    hw_owned_bitmap := if for_hw then set_bit pool.hw_owned_bitmap idx else pool.hw_owned_bitmap }

/-- The block index that `mempool_free` resolves `ptr` to, `none` when one of its
range checks returns early. -/
def free_index (pool : mempool_t) (ptr : Nat) : Option Nat :=
  if ptr = NULL then none
  else if ptr < pool.memory_area ∨
      ptr ≥ pool.memory_area + (pool.block_size * pool.block_count) % SIZE_MOD then none
  else if ((ptr - pool.memory_area) % SIZE_MOD) / pool.block_size ≥ pool.block_count then none
  else some (((ptr - pool.memory_area) % SIZE_MOD) / pool.block_size)

/-- Pool state after block `idx` has been given back. -/
def free_result (pool : mempool_t) (idx : Nat) : mempool_t :=
  { pool with
    hw_owned_bitmap :=
      if get_bit pool.hw_owned_bitmap idx then clear_bit pool.hw_owned_bitmap idx
      else pool.hw_owned_bitmap
    free_bitmap := set_bit pool.free_bitmap idx }

/-- Shape of a pool state: both bitmaps are `BITMAP_WORDS` words, the block count is
within `1 .. MEMPOOL_MAX_BLOCKS` and the arena pointer is not null. -/
def pool_wf (pool : mempool_t) : Prop :=
  pool.free_bitmap.length = 4 ∧ pool.hw_owned_bitmap.length = 4 ∧
    0 < pool.block_count ∧ pool.block_count ≤ 256 ∧ pool.memory_area ≠ NULL

/-- Pool states reachable from `mempool_create` through `mempool_alloc` and
`mempool_free`, for a `size_t` argument `data_size` and a 64-bit arena address. -/
inductive Reachable : mempool_t → Prop
  | create (data_size num_blocks : Nat) (pool_mem : Bool) (area : Nat) (pool : mempool_t) :
      data_size < SIZE_MOD → area < SIZE_MOD →
      mempool_create data_size num_blocks pool_mem area = some pool → Reachable pool
  | alloc (pool : mempool_t) (for_hw : Bool) :
      Reachable pool → Reachable (mempool_alloc pool for_hw).2
  | free (pool : mempool_t) (ptr : Nat) :
      Reachable pool → Reachable (mempool_free pool ptr)

/-- Number of blocks of the pool whose free bit is set. -/
def free_count (pool : mempool_t) : Nat :=
  (List.range pool.block_count).countP (fun i => get_bit pool.free_bitmap i)

/-- A run of `mempool_alloc` calls, one per element of `fs` (the `for_hw` argument of
each call), with no `mempool_free` in between: the returned pointers in call order and
the final pool state. -/
def alloc_seq (pool : mempool_t) : List Bool → List Nat × mempool_t
  | [] => ([], pool)
  | f :: fs =>
    ((mempool_alloc pool f).1 :: (alloc_seq (mempool_alloc pool f).2 fs).1,
      (alloc_seq (mempool_alloc pool f).2 fs).2)

/-- The live entries of a queue, oldest first: the `count` pairs
`(block_indices[k], data_lengths[k])` at the ring positions starting at `head`. -/
def q_entries (queue : mempool_queue_t) : List (Nat × Nat) :=
  (List.range queue.count).map (fun k =>
    (word queue.block_indices ((queue.head + k) % queue.capacity),
      word queue.data_lengths ((queue.head + k) % queue.capacity)))

/-- A pool together with a queue on it. -/
structure System where
  pool : mempool_t
  queue : mempool_queue_t

/-- States of a pool and a queue created on it, reachable through the pool and queue
operations.  The arrays handed to `mempool_queue_create` have `capacity` elements. -/
inductive SysReachable : System → Prop
  | create (pool : mempool_t) (capacity : Nat) (indices_mem lengths_mem : List Nat)
      (queue : mempool_queue_t) :
      Reachable pool → indices_mem.length = capacity → lengths_mem.length = capacity →
      mempool_queue_create (some pool) capacity true (some indices_mem) (some lengths_mem)
        = some queue →
      SysReachable ⟨pool, queue⟩
  | alloc (s : System) (for_hw : Bool) :
      SysReachable s → SysReachable ⟨(mempool_alloc s.pool for_hw).2, s.queue⟩
  | free (s : System) (ptr : Nat) :
      SysReachable s → SysReachable ⟨mempool_free s.pool ptr, s.queue⟩
  | enqueue (s : System) (buffer data_length : Nat) :
      SysReachable s →
      SysReachable ⟨s.pool, (mempool_queue_enqueue_with_length s.pool s.queue buffer data_length).2⟩
  | dequeue (s : System) :
      SysReachable s →
      SysReachable ⟨s.pool, (mempool_queue_dequeue_with_length s.pool s.queue).2.2⟩
  | dequeue_batch (s : System) (buffers max_count : Nat) :
      SysReachable s →
      SysReachable ⟨s.pool,
        (mempool_queue_dequeue_batch_with_length s.pool s.queue buffers max_count).2.2⟩

/-- Shape of a queue on a pool: the ring arrays have `capacity` elements, the cursors
are inside the ring with `tail` at `count` positions after `head`, the membership
bitmap marks exactly the block indices of the live entries, none of them twice, and
every live index is one that `get_block_index` can return. -/
def queue_wf (pool : mempool_t) (queue : mempool_queue_t) : Prop :=
  queue.block_indices.length = queue.capacity ∧ queue.data_lengths.length = queue.capacity ∧
  0 < queue.capacity ∧ queue.capacity ≤ pool.block_count ∧
  queue.head < queue.capacity ∧ queue.count ≤ queue.capacity ∧
  queue.tail = (queue.head + queue.count) % queue.capacity ∧
  queue.queue_bitmap.length = 4 ∧
  (∀ i, get_bit queue.queue_bitmap i = true ↔ i ∈ (q_entries queue).map Prod.fst) ∧
  ((q_entries queue).map Prod.fst).Nodup ∧
  (∀ i ∈ (q_entries queue).map Prod.fst, i < pool.block_count) ∧
  (∀ i ∈ (q_entries queue).map Prod.fst,
    i * pool.block_size < (pool.block_size * pool.block_count) % SIZE_MOD)

/-- The pool that `mempool_create(64, 2)` builds on an arena at address `4096`. -/
def demo_pool : mempool_t :=
  { memory_area := 4096
    block_size_unaligned := 64
    block_size := 64
    block_count := 2
    free_bitmap := [3, 2 ^ 64 - 1, 2 ^ 64 - 1, 2 ^ 64 - 1]
    hw_owned_bitmap := [0, 0, 0, 0] }

/-- The queue that `mempool_queue_create(demo_pool, 2)` builds on zeroed arrays. -/
def demo_queue : mempool_queue_t :=
  { block_indices := [0, 0]
    data_lengths := [0, 0]
    capacity := 2
    head := 0
    tail := 0
    count := 0
    queue_bitmap := [0, 0, 0, 0] }

/-- The state after `demo_pool` has handed out block 0 and that block has been enqueued
on `demo_queue` with length 5. -/
def demo_live : System :=
  ⟨(mempool_alloc demo_pool false).2,
    (mempool_queue_enqueue_with_length (mempool_alloc demo_pool false).2 demo_queue 4096 5).2⟩

/-- A call on a queue: `mempool_queue_enqueue_with_length(queue, buffer, data_length)` or
`mempool_queue_dequeue_with_length(queue, &len)`. -/
inductive queue_op where
  | enqueue (buffer data_length : Nat)
  | dequeue
deriving DecidableEq, Repr

/-- A run of queue calls on one pool: the `(pointer, length)` pairs of the enqueues that
returned `0`, in call order, the `(pointer, length)` pairs returned by the dequeues
that did not return `NULL`, in call order, and the queue afterwards. -/
def run_queue_ops (pool : mempool_t) :
    mempool_queue_t → List queue_op → List (Nat × Nat) × List (Nat × Nat) × mempool_queue_t
  | queue, [] => ([], [], queue)
  | queue, queue_op.enqueue buffer data_length :: ops =>
    let r := mempool_queue_enqueue_with_length pool queue buffer data_length
    let rest := run_queue_ops pool r.2 ops
    (if r.1 = 0 then (buffer, data_length) :: rest.1 else rest.1, rest.2.1, rest.2.2)
  | queue, queue_op.dequeue :: ops =>
    let r := mempool_queue_dequeue_with_length pool queue
    let rest := run_queue_ops pool r.2.2 ops
    (rest.1, if r.1 = NULL then rest.2.1 else (r.1, r.2.1) :: rest.2.1, rest.2.2)

/-- The live entries of a queue as `(pointer, length)` pairs, oldest first. -/
def q_ptrs (pool : mempool_t) (queue : mempool_queue_t) : List (Nat × Nat) :=
  (q_entries queue).map (fun e => (block_ptr pool e.1, e.2))

/-- The arena size `block_size * block_count` of the pool does not wrap around in
`size_t`, and blocks are not empty. -/
def no_overflow (pool : mempool_t) : Prop :=
  0 < pool.block_size ∧ pool.block_size * pool.block_count < SIZE_MOD

/-- The arena of the pool lies inside the 64-bit address space: what a successful
`MEMPOOL_MEMALIGN(MEMPOOL_ALIGNMENT, block_size * block_count)` guarantees for the
size it was asked for, the `size_t` product. -/
def arena_ok (pool : mempool_t) : Prop :=
  pool.memory_area + (pool.block_size * pool.block_count) % SIZE_MOD ≤ SIZE_MOD

instance (pool : mempool_t) : Decidable (arena_ok pool) := by
  unfold arena_ok
  exact inferInstance

/-- The queue that `mempool_queue_create(demo_pool, 1)` builds on zeroed arrays. -/
def demo_queue1 : mempool_queue_t :=
  { block_indices := [0]
    data_lengths := [0]
    capacity := 1
    head := 0
    tail := 0
    count := 0
    queue_bitmap := [0, 0, 0, 0] }

/-- The state after `demo_pool` has handed out both blocks and block 0 has been
enqueued on `demo_queue1` with length 5: the queue is full. -/
def demo_full : System :=
  ⟨(mempool_alloc (mempool_alloc demo_pool false).2 false).2,
    (mempool_queue_enqueue_with_length (mempool_alloc (mempool_alloc demo_pool false).2 false).2
      demo_queue1 4096 5).2⟩

/-- Histories of a pool and a queue on it: `SysTrace s e d` says that state `s` is
reached by a run in which `e` enqueue calls returned `0` and `d` entries were handed
back by dequeue calls (one per non-null `mempool_queue_dequeue_with_length`, and the
returned count of every batch call). -/
inductive SysTrace : System → Nat → Nat → Prop
  | create (pool : mempool_t) (capacity : Nat) (indices_mem lengths_mem : List Nat)
      (queue : mempool_queue_t) :
      Reachable pool → indices_mem.length = capacity → lengths_mem.length = capacity →
      mempool_queue_create (some pool) capacity true (some indices_mem) (some lengths_mem)
        = some queue →
      SysTrace ⟨pool, queue⟩ 0 0
  | alloc (s : System) (e d : Nat) (for_hw : Bool) :
      SysTrace s e d → SysTrace ⟨(mempool_alloc s.pool for_hw).2, s.queue⟩ e d
  | free (s : System) (e d : Nat) (ptr : Nat) :
      SysTrace s e d → SysTrace ⟨mempool_free s.pool ptr, s.queue⟩ e d
  | enqueue (s : System) (e d : Nat) (buffer data_length : Nat) :
      SysTrace s e d →
      SysTrace
        ⟨s.pool, (mempool_queue_enqueue_with_length s.pool s.queue buffer data_length).2⟩
        (if (mempool_queue_enqueue_with_length s.pool s.queue buffer data_length).1 = 0
          then e + 1 else e)
        d
  | dequeue (s : System) (e d : Nat) :
      SysTrace s e d →
      SysTrace ⟨s.pool, (mempool_queue_dequeue_with_length s.pool s.queue).2.2⟩ e
        (if (mempool_queue_dequeue_with_length s.pool s.queue).1 = NULL then d else d + 1)
  | dequeue_batch (s : System) (e d : Nat) (buffers max_count : Nat) :
      SysTrace s e d →
      SysTrace
        ⟨s.pool, (mempool_queue_dequeue_batch_with_length s.pool s.queue buffers max_count).2.2⟩
        e
        (d + (mempool_queue_dequeue_batch_with_length s.pool s.queue buffers max_count).1)

/-! ## Null handles -/

/-- How a call ends: `MEMPOOL_ASSERT` failed and `abort()` was called, or the function
returned a value. -/
inductive Outcome (α : Type) where
  | aborted
  | returned (value : α)
deriving DecidableEq, Repr

/-- The function `mempool_alloc` called through a handle that may be null (`none`):
`MEMPOOL_ASSERT(pool != NULL)` comes first. -/
def mempool_alloc_handle (pool : Option mempool_t) (for_hw : Bool) :
    Outcome (Nat × mempool_t) :=
  match pool with
  | none => Outcome.aborted
  | some pool => Outcome.returned (mempool_alloc pool for_hw)

/-- The function `mempool_free` called through a handle that may be null:
`if (!pool || !ptr) return;`.  The value is the pool behind the handle afterwards. -/
def mempool_free_handle (pool : Option mempool_t) (ptr : Nat) : Outcome (Option mempool_t) :=
  match pool with
  | none => Outcome.returned none
  | some pool => Outcome.returned (some (mempool_free pool ptr))

/-- The function `mempool_available` called through a handle that may be null:
`if (!pool) return 0;`. -/
def mempool_available_handle (pool : Option mempool_t) : Outcome Nat :=
  match pool with
  | none => Outcome.returned 0
  | some pool => Outcome.returned (mempool_available pool)

/-- The function `mempool_used` called through a handle that may be null:
`if (!pool) return 0;`. -/
def mempool_used_handle (pool : Option mempool_t) : Outcome Nat :=
  match pool with
  | none => Outcome.returned 0
  | some pool => Outcome.returned (mempool_used pool)

/-- The function `mempool_block_size` called through a handle that may be null:
`if (!pool) return 0;`. -/
def mempool_block_size_handle (pool : Option mempool_t) : Outcome Nat :=
  match pool with
  | none => Outcome.returned 0
  | some pool => Outcome.returned (mempool_block_size pool)

/-! ## Vocabulary of the later properties -/

/-- Number of set bits among the 256 positions of a bitmap array. -/
def bitmap_count (a : List Nat) : Nat := (List.range 256).countP (fun i => get_bit a i)

/-- What the specification compares the batch dequeue with: `n` successive calls of
`mempool_queue_dequeue_with_length`, with the `(pointer, length)` pairs they return, in
call order, and the queue afterwards. -/
def dequeue_repeat (pool : mempool_t) :
    Nat → mempool_queue_t → List (Nat × Nat) × mempool_queue_t
  | 0, queue => ([], queue)
  | n + 1, queue =>
    (((mempool_queue_dequeue_with_length pool queue).1,
        (mempool_queue_dequeue_with_length pool queue).2.1) ::
        (dequeue_repeat pool n (mempool_queue_dequeue_with_length pool queue).2.2).1,
      (dequeue_repeat pool n (mempool_queue_dequeue_with_length pool queue).2.2).2)

/-! ## Lock regions of `mempool_queue_dequeue_with_length` -/

/-- The part of `mempool_queue_dequeue_with_length` that runs before `MEMPOOL_LOCK`: the
test `queue->count == 0`.  `true` means that the function returns `NULL` without taking
the lock.  The part between `MEMPOOL_LOCK` and `MEMPOOL_UNLOCK` is `do_dequeue`. -/
def dequeue_unlocked_check (queue : mempool_queue_t) : Bool := decide (queue.count = 0)

/-- Two threads `A` and `B` inside `mempool_queue_dequeue_with_length` on the same queue,
scheduled so that both run the test of `queue->count` before either takes the lock;
then `A` runs its locked region, then `B`.  The value is what `A` returns, what `B`
returns, and the queue afterwards. -/
def dequeue_race (pool : mempool_t) (queue : mempool_queue_t) :
    (Nat × Nat) × (Nat × Nat) × mempool_queue_t :=
  let a_early := dequeue_unlocked_check queue
  let b_early := dequeue_unlocked_check queue
  let ra := if a_early then (NULL, 0, queue) else do_dequeue pool queue
  let rb := if b_early then (NULL, 0, ra.2.2) else do_dequeue pool ra.2.2
  ((ra.1, ra.2.1), (rb.1, rb.2.1), rb.2.2)

/-! ## Division by zero made visible -/

/-- The function `mempool_free` with the division `offset / pool->block_size` made
fallible: `none` when the divisor is `0` at the point where the division is evaluated. -/
def mempool_free_checked (pool : mempool_t) (ptr : Nat) : Option mempool_t :=
  if ptr = NULL then some pool
  else if ptr < pool.memory_area ∨
      ptr ≥ pool.memory_area + (pool.block_size * pool.block_count) % SIZE_MOD then some pool
  else
    let offset := (ptr - pool.memory_area) % SIZE_MOD
    if pool.block_size = 0 then none
    else
      let block_idx := offset / pool.block_size
      if block_idx ≥ pool.block_count then some pool
      else
        let word_idx := block_idx / MEMPOOL_BITMAP_EACH_NUM
        let bit_pos := block_idx % MEMPOOL_BITMAP_EACH_NUM
        if word pool.free_bitmap word_idx &&& bit_mask bit_pos ≠ 0 then some pool
        else
          let hw1 :=
            if word pool.hw_owned_bitmap word_idx &&& bit_mask bit_pos ≠ 0 then
              pool.hw_owned_bitmap.set word_idx
                (word pool.hw_owned_bitmap word_idx &&& not64 (bit_mask bit_pos))
            else pool.hw_owned_bitmap
          some { pool with
            hw_owned_bitmap := hw1
            free_bitmap :=
              pool.free_bitmap.set word_idx
                (word pool.free_bitmap word_idx ||| bit_mask bit_pos) }

/-- The function `get_block_index` with the division `offset / pool->block_size` made
fallible: `none` when the divisor is `0` at the point where the division is evaluated,
otherwise `some` of the result as `get_block_index` gives it. -/
def get_block_index_checked (pool : mempool_t) (buffer : Nat) : Option (Option Nat) :=
  if buffer = NULL then some none
  else
    let offset := (buffer + (SIZE_MOD - pool.memory_area % SIZE_MOD)) % SIZE_MOD
    if offset ≥ (pool.block_size * pool.block_count) % SIZE_MOD then some none
    else if pool.block_size = 0 then none
    else
      let q := (offset / pool.block_size) % 2 ^ 32
      if q < 2 ^ 31 then some (some q) else some none

/-! ## Queue calls as steps of the whole state -/

/-- One queue call on a pool and a queue on it.  `do_enqueue` and `do_dequeue` write
fields of the queue only and `mempool_queue_peek` writes nothing, so each call leaves
the pool component as it was. -/
inductive QueueStep : System → System → Prop
  | enqueue (s : System) (buffer data_length : Nat) :
      QueueStep s
        ⟨s.pool, (mempool_queue_enqueue_with_length s.pool s.queue buffer data_length).2⟩
  | dequeue (s : System) :
      QueueStep s ⟨s.pool, (mempool_queue_dequeue_with_length s.pool s.queue).2.2⟩
  | dequeue_batch (s : System) (buffers max_count : Nat) :
      QueueStep s
        ⟨s.pool,
          (mempool_queue_dequeue_batch_with_length s.pool s.queue buffers max_count).2.2⟩
  | peek (s : System) : QueueStep s s

/-! ## Vocabulary of the population count -/

/-- Number of set bits among the low `w` bits of `x`. -/
def bit_count (w x : Nat) : Nat := (List.range w).countP (fun b => x.testBit b)

/-- The number whose `n` fields of `w` bits each hold the number of set bits of the
corresponding `w`-bit field of `x`, lowest field first. -/
def field_counts (w : Nat) : Nat → Nat → Nat
  | 0, _ => 0
  | n + 1, x => bit_count w x + 2 ^ w * field_counts w n (x / 2 ^ w)

/-- The mask with the low `w` bits of each of `n` fields of `2 * w` bits set. -/
def swar_mask (w : Nat) : Nat → Nat
  | 0 => 0
  | n + 1 => (2 ^ w - 1) + 2 ^ (2 * w) * swar_mask w n

/-- One line of `popcount_ll_generic`: `(y & mask) + ((y >> w) & mask)`. -/
def swar_step (w n y : Nat) : Nat :=
  (y &&& swar_mask w n) + ((y >>> w) &&& swar_mask w n)

/-- The fresh demo pool together with the empty demo queue on it. -/
def demo_sys : System := ⟨demo_pool, demo_queue⟩

/-! ## Bit-level facts -/

theorem bit_mask_eq (b : Nat) : bit_mask b = 2 ^ b := by
  simp [bit_mask, Nat.one_shiftLeft]

theorem and_bit_mask_ne_zero (w b : Nat) : w &&& bit_mask b ≠ 0 ↔ w.testBit b = true := by
  rw [bit_mask_eq]
  constructor
  · intro h
    obtain ⟨i, hi⟩ := Nat.ne_zero_implies_bit_true h
    rw [Nat.testBit_and, Nat.testBit_two_pow] at hi
    simp only [Bool.and_eq_true, decide_eq_true_eq] at hi
    rw [hi.2]; exact hi.1
  · intro h h0
    have : (w &&& 2 ^ b).testBit b = true := by
      rw [Nat.testBit_and, h, Nat.testBit_two_pow_self]; rfl
    rw [h0] at this
    simp at this

theorem testBit_and_not64 (w b j : Nat) (hb : b < 64) :
    (w &&& not64 (bit_mask b)).testBit j = (w.testBit j && decide (j < 64) && decide (j ≠ b)) := by
  rw [bit_mask_eq, not64, SIZE_MOD, Nat.testBit_and, Nat.testBit_xor, Nat.testBit_two_pow_sub_one,
    Nat.testBit_two_pow]
  by_cases h1 : j < 64 <;> by_cases h2 : b = j
  · subst h2; simp [h1]
  · have h3 : j ≠ b := fun h => h2 h.symm
    simp [h1, h2, h3]
  · omega
  · simp [h1, h2]

theorem testBit_or_bit_mask (w b j : Nat) :
    (w ||| bit_mask b).testBit j = (w.testBit j || decide (j = b)) := by
  rw [bit_mask_eq, Nat.testBit_or, Nat.testBit_two_pow]
  by_cases h2 : b = j
  · subst h2; simp
  · have h3 : j ≠ b := fun h => h2 h.symm
    simp [h2, h3]

theorem word_set (a : List Nat) (i k v : Nat) :
    word (a.set i v) k = if i = k ∧ i < a.length then v else word a k := by
  unfold word
  by_cases h : i = k
  · subst h
    by_cases hl : i < a.length
    · simp [hl, List.getD_eq_getElem?_getD]
    · have h1 : a.length ≤ i := by omega
      have h2 : (a.set i v).length ≤ i := by simpa using h1
      simp [hl, List.getD_eq_getElem?_getD, List.getElem?_eq_none h1, List.getElem?_eq_none h2]
  · simp [h, List.getD_eq_getElem?_getD, List.getElem?_set_ne h]

/-! ## The bitmaps as sets of block indices -/

theorem length_clear_bit (a : List Nat) (i : Nat) : (clear_bit a i).length = a.length := by
  simp [clear_bit]

theorem length_set_bit (a : List Nat) (i : Nat) : (set_bit a i).length = a.length := by
  simp [set_bit]

theorem get_bit_clear_bit (a : List Nat) (i j : Nat) (hi : i / 64 < a.length) :
    get_bit (clear_bit a i) j = (get_bit a j && decide (j ≠ i)) := by
  unfold get_bit clear_bit
  rw [word_set]
  by_cases h : i / 64 = j / 64
  · rw [if_pos ⟨h, hi⟩, testBit_and_not64 _ _ _ (Nat.mod_lt _ (by decide)), h]
    have h64 : j % 64 < 64 := Nat.mod_lt _ (by decide)
    by_cases hji : j = i
    · subst hji; simp
    · have : j % 64 ≠ i % 64 := by omega
      simp [h64, this, hji]
  · rw [if_neg (fun hh => h hh.1)]
    have : j ≠ i := by rintro rfl; exact h rfl
    simp [this]

theorem get_bit_set_bit (a : List Nat) (i j : Nat) (hi : i / 64 < a.length) :
    get_bit (set_bit a i) j = (get_bit a j || decide (j = i)) := by
  unfold get_bit set_bit
  rw [word_set]
  by_cases h : i / 64 = j / 64
  · rw [if_pos ⟨h, hi⟩, testBit_or_bit_mask, h]
    by_cases hji : j = i
    · subst hji; simp
    · have : j % 64 ≠ i % 64 := by omega
      simp [this, hji]
  · rw [if_neg (fun hh => h hh.1)]
    have : j ≠ i := by rintro rfl; exact h rfl
    simp [this]

/-! ## The bit scan -/

theorem ffs_scan_some (w : Nat) : ∀ (n i b : Nat), ffs_scan w n i = some b →
    i ≤ b ∧ b < i + n ∧ w.testBit b = true ∧ ∀ j, i ≤ j → j < b → w.testBit j = false := by
  intro n
  induction n with
  | zero => intro i b h; simp [ffs_scan] at h
  | succ n ih =>
    intro i b h
    unfold ffs_scan at h
    by_cases hb : w &&& bit_mask i ≠ 0
    · rw [if_pos hb] at h
      have hib : i = b := by simpa using h
      subst hib
      exact ⟨le_refl _, by omega, (and_bit_mask_ne_zero w i).1 hb, fun j h1 h2 => by omega⟩
    · rw [if_neg hb] at h
      obtain ⟨h1, h2, h3, h4⟩ := ih (i + 1) b h
      refine ⟨by omega, by omega, h3, fun j hj1 hj2 => ?_⟩
      by_cases hji : j = i
      · subst hji
        by_contra hc
        exact hb ((and_bit_mask_ne_zero w j).2 (by simpa using hc))
      · exact h4 j (by omega) hj2

theorem ffs_scan_none (w : Nat) : ∀ (n i : Nat), ffs_scan w n i = none →
    ∀ j, i ≤ j → j < i + n → w.testBit j = false := by
  intro n
  induction n with
  | zero => intro i _ j h1 h2; omega
  | succ n ih =>
    intro i h j h1 h2
    unfold ffs_scan at h
    by_cases hb : w &&& bit_mask i ≠ 0
    · rw [if_pos hb] at h; simp at h
    · rw [if_neg hb] at h
      by_cases hji : j = i
      · subst hji
        by_contra hc
        exact hb ((and_bit_mask_ne_zero w j).2 (by simpa using hc))
      · exact ih (i + 1) h j (by omega) (by omega)

theorem find_first_set_bit_some (w b : Nat) (h : find_first_set_bit w = some b) :
    b < 64 ∧ w.testBit b = true ∧ ∀ j, j < b → w.testBit j = false := by
  unfold find_first_set_bit at h
  by_cases h0 : w = 0
  · simp [h0] at h
  · rw [if_neg h0] at h
    obtain ⟨_, h2, h3, h4⟩ := ffs_scan_some w _ _ _ h
    exact ⟨by simpa [MEMPOOL_BITMAP_EACH_NUM] using h2, h3, fun j hj => h4 j (Nat.zero_le _) hj⟩

theorem find_first_set_bit_none (w : Nat) (h : find_first_set_bit w = none) :
    ∀ j, j < 64 → w.testBit j = false := by
  unfold find_first_set_bit at h
  by_cases h0 : w = 0
  · intro j _; simp [h0]
  · rw [if_neg h0] at h
    intro j hj
    exact ffs_scan_none w _ _ h j (Nat.zero_le _) (by simpa [MEMPOOL_BITMAP_EACH_NUM] using hj)

/-! ## What `mempool_alloc` does -/

theorem alloc_scan_cases (pool : mempool_t) (for_hw : Bool) : ∀ (n i : Nat),
    (alloc_scan pool for_hw n i = (NULL, pool) ∧
      ∀ j, i * 64 ≤ j → j < (i + n) * 64 → j < pool.block_count →
        get_bit pool.free_bitmap j = false) ∨
    (∃ idx, i * 64 ≤ idx ∧ idx < (i + n) * 64 ∧ idx < pool.block_count ∧
      get_bit pool.free_bitmap idx = true ∧
      (∀ j, i * 64 ≤ j → j < idx → get_bit pool.free_bitmap j = false) ∧
      alloc_scan pool for_hw n i = (block_ptr pool idx, alloc_result pool for_hw idx)) := by
  intro n
  induction n with
  | zero =>
    intro i
    left
    exact ⟨rfl, fun j h1 h2 _ => by omega⟩
  | succ n ih =>
    intro i
    -- the bits of word `i` below a bound are clear: continue with word `i + 1`
    have next : (∀ j, i * 64 ≤ j → j < (i + 1) * 64 → j < pool.block_count →
          get_bit pool.free_bitmap j = false) →
        alloc_scan pool for_hw (n + 1) i = alloc_scan pool for_hw n (i + 1) →
        (alloc_scan pool for_hw (n + 1) i = (NULL, pool) ∧
          ∀ j, i * 64 ≤ j → j < (i + (n + 1)) * 64 → j < pool.block_count →
            get_bit pool.free_bitmap j = false) ∨
        (∃ idx, i * 64 ≤ idx ∧ idx < (i + (n + 1)) * 64 ∧ idx < pool.block_count ∧
          get_bit pool.free_bitmap idx = true ∧
          (∀ j, i * 64 ≤ j → j < idx → get_bit pool.free_bitmap j = false) ∧
          alloc_scan pool for_hw (n + 1) i =
            (block_ptr pool idx, alloc_result pool for_hw idx)) := by
      intro hclear heq
      rcases ih (i + 1) with ⟨h1, h2⟩ | ⟨idx, h1, h2, h3, h4, h5, h6⟩
      · left
        refine ⟨by rw [heq, h1], fun j hj1 hj2 hj3 => ?_⟩
        by_cases hj : j < (i + 1) * 64
        · exact hclear j hj1 hj hj3
        · exact h2 j (by omega) (by omega) hj3
      · right
        refine ⟨idx, by omega, by omega, h3, h4, fun j hj1 hj2 => ?_, by rw [heq, h6]⟩
        by_cases hj : j < (i + 1) * 64
        · exact hclear j hj1 hj (by omega)
        · exact h5 j (by omega) hj2
    have inword : ∀ j, i * 64 ≤ j → j < (i + 1) * 64 → j / 64 = i ∧ j % 64 < 64 :=
      fun j h1 h2 => ⟨by omega, by omega⟩
    by_cases h0 : word pool.free_bitmap i = 0
    · apply next
      · intro j hj1 hj2 _
        unfold get_bit
        rw [(inword j hj1 hj2).1, h0]; simp
      · conv => lhs; unfold alloc_scan
        simp [h0]
    · cases hf : find_first_set_bit (word pool.free_bitmap i) with
      | none =>
        apply next
        · intro j hj1 hj2 _
          unfold get_bit
          rw [(inword j hj1 hj2).1]
          exact find_first_set_bit_none _ hf _ (inword j hj1 hj2).2
        · conv => lhs; unfold alloc_scan
          simp [h0, hf]
      | some b =>
        obtain ⟨hb1, hb2, hb3⟩ := find_first_set_bit_some _ _ hf
        by_cases hge : i * MEMPOOL_BITMAP_EACH_NUM + b ≥ pool.block_count
        · apply next
          · intro j hj1 hj2 hj3
            unfold get_bit
            rw [(inword j hj1 hj2).1]
            apply hb3
            simp only [MEMPOOL_BITMAP_EACH_NUM] at hge
            omega
          · conv => lhs; unfold alloc_scan
            simp [h0, hf, hge]
        · right
          have hdiv : (i * 64 + b) / 64 = i := by omega
          have hmod : (i * 64 + b) % 64 = b := by omega
          simp only [MEMPOOL_BITMAP_EACH_NUM] at hge
          refine ⟨i * 64 + b, by omega, by omega, by omega, ?_, fun j hj1 hj2 => ?_, ?_⟩
          · unfold get_bit; rw [hdiv, hmod]; exact hb2
          · unfold get_bit
            rw [(inword j hj1 (by omega)).1]
            apply hb3; omega
          · conv => lhs; unfold alloc_scan
            simp only [h0, hf, MEMPOOL_BITMAP_EACH_NUM, if_false]
            rw [if_neg hge]
            simp only [block_ptr, alloc_result, clear_bit, set_bit, hdiv, hmod]

theorem mempool_alloc_cases (pool : mempool_t) (for_hw : Bool) :
    (mempool_alloc pool for_hw = (NULL, pool) ∧
      ∀ j, j < 256 → j < pool.block_count → get_bit pool.free_bitmap j = false) ∨
    (∃ idx, idx < 256 ∧ idx < pool.block_count ∧
      get_bit pool.free_bitmap idx = true ∧
      (∀ j, j < idx → get_bit pool.free_bitmap j = false) ∧
      mempool_alloc pool for_hw = (block_ptr pool idx, alloc_result pool for_hw idx)) := by
  rcases alloc_scan_cases pool for_hw BITMAP_WORDS 0 with ⟨h1, h2⟩ | ⟨idx, _, h2, h3, h4, h5, h6⟩
  · left
    exact ⟨h1, fun j hj1 hj2 => h2 j (by omega) (by simpa [BITMAP_WORDS] using hj1) hj2⟩
  · right
    exact ⟨idx, by simpa [BITMAP_WORDS] using h2, h3, h4, fun j hj => h5 j (by omega) hj, h6⟩

/-! ## What `mempool_free` does -/

theorem mempool_free_eq (pool : mempool_t) (ptr : Nat) :
    mempool_free pool ptr =
      match free_index pool ptr with
      | none => pool
      | some idx => if get_bit pool.free_bitmap idx then pool else free_result pool idx := by
  unfold mempool_free free_index
  by_cases h1 : ptr = NULL
  · simp [h1]
  by_cases h2 : ptr < pool.memory_area ∨
      ptr ≥ pool.memory_area + (pool.block_size * pool.block_count) % SIZE_MOD
  · simp [h1, h2]
  by_cases h3 : ((ptr - pool.memory_area) % SIZE_MOD) / pool.block_size ≥ pool.block_count
  · simp [h1, h2, h3]
  simp only [h1, h2, h3, if_false]
  by_cases h4 : get_bit pool.free_bitmap (((ptr - pool.memory_area) % SIZE_MOD) / pool.block_size)
      = true
  · have h4b := h4
    unfold get_bit at h4b
    rw [← and_bit_mask_ne_zero] at h4b
    simp only [MEMPOOL_BITMAP_EACH_NUM]
    rw [if_pos h4b, if_pos h4]
  · have h4b := h4
    unfold get_bit at h4b
    rw [← and_bit_mask_ne_zero] at h4b
    simp only [MEMPOOL_BITMAP_EACH_NUM]
    rw [if_neg h4b, if_neg h4]
    unfold free_result
    congr 1
    by_cases h5 : get_bit pool.hw_owned_bitmap
        (((ptr - pool.memory_area) % SIZE_MOD) / pool.block_size) = true
    · have h5b := h5
      unfold get_bit at h5b
      rw [← and_bit_mask_ne_zero] at h5b
      rw [if_pos h5b, if_pos h5]; rfl
    · have h5b := h5
      unfold get_bit at h5b
      rw [← and_bit_mask_ne_zero] at h5b
      rw [if_neg h5b, if_neg h5]

/-! ## Pool states -/

theorem mempool_create_some (data_size num_blocks : Nat) (pool_mem : Bool) (area : Nat)
    (pool : mempool_t) (h : mempool_create data_size num_blocks pool_mem area = some pool) :
    data_size ≠ 0 ∧ 0 < num_blocks ∧ num_blocks ≤ 256 ∧ pool_mem = true ∧ area ≠ NULL ∧
    pool.memory_area = area ∧ pool.block_size_unaligned = data_size ∧
    pool.block_size = ((data_size + 63) % SIZE_MOD) &&& not64 63 ∧
    pool.block_count = num_blocks ∧
    pool.hw_owned_bitmap = [0, 0, 0, 0] ∧
    pool.free_bitmap =
      if num_blocks % 64 ≠ 0 then
        [SIZE_MOD - 1, SIZE_MOD - 1, SIZE_MOD - 1, SIZE_MOD - 1].set ((num_blocks - 1) / 64)
          ((SIZE_MOD - 1) &&& (bit_mask (num_blocks % 64) - 1))
      else [SIZE_MOD - 1, SIZE_MOD - 1, SIZE_MOD - 1, SIZE_MOD - 1] := by
  unfold mempool_create at h
  by_cases h1 : data_size = 0 ∨ num_blocks = 0 ∨ num_blocks > MEMPOOL_MAX_BLOCKS
  · simp [h1] at h
  rw [if_neg h1] at h
  simp only [MEMPOOL_MAX_BLOCKS] at h1
  by_cases h2 : pool_mem = false
  · simp [h2] at h
  by_cases h3 : area = NULL
  · simp [h3] at h
  rw [if_neg h2, if_neg h3] at h
  simp only [Option.some.injEq] at h
  have hw : ∀ k, k < 4 → word [SIZE_MOD - 1, SIZE_MOD - 1, SIZE_MOD - 1, SIZE_MOD - 1] k
      = SIZE_MOD - 1 := by
    intro k hk
    interval_cases k <;> rfl
  have hr : List.range BITMAP_WORDS = [0, 1, 2, 3] := by decide
  subst h
  refine ⟨by omega, by omega, by omega, by simpa using h2, h3, rfl, rfl, ?_, rfl, ?_, ?_⟩
  · simp [MEMPOOL_ALIGNMENT]
  · simp [hr]
  · simp only [hr, MEMPOOL_BITMAP_EACH_NUM, List.map]
    by_cases h4 : num_blocks % 64 ≠ 0
    · rw [if_pos h4, if_pos h4, hw _ (by omega)]
    · rw [if_neg h4, if_neg h4]

theorem pool_wf_create (data_size num_blocks : Nat) (pool_mem : Bool) (area : Nat)
    (pool : mempool_t) (h : mempool_create data_size num_blocks pool_mem area = some pool) :
    pool_wf pool := by
  obtain ⟨_, h2, h3, _, h5, h6, _, _, h9, h10, h11⟩ := mempool_create_some _ _ _ _ _ h
  refine ⟨?_, by rw [h10]; rfl, by omega, by omega, by rw [h6]; exact h5⟩
  rw [h11]
  split <;> simp

theorem pool_wf_alloc (pool : mempool_t) (for_hw : Bool) (h : pool_wf pool) :
    pool_wf (mempool_alloc pool for_hw).2 := by
  rcases mempool_alloc_cases pool for_hw with ⟨h1, _⟩ | ⟨idx, _, _, _, _, h1⟩
  · rw [h1]; exact h
  · rw [h1]
    obtain ⟨w1, w2, w3, w4, w5⟩ := h
    refine ⟨by simpa [alloc_result, length_clear_bit] using w1, ?_, w3, w4, w5⟩
    cases for_hw <;> simpa [alloc_result, length_set_bit] using w2

theorem pool_wf_free_result (pool : mempool_t) (idx : Nat) (h : pool_wf pool) :
    pool_wf (free_result pool idx) := by
  obtain ⟨w1, w2, w3, w4, w5⟩ := h
  refine ⟨by simpa [free_result, length_set_bit] using w1, ?_, w3, w4, w5⟩
  unfold free_result
  dsimp only
  split
  · rw [length_clear_bit]; exact w2
  · exact w2

theorem pool_wf_free (pool : mempool_t) (ptr : Nat) (h : pool_wf pool) :
    pool_wf (mempool_free pool ptr) := by
  rw [mempool_free_eq]
  cases free_index pool ptr with
  | none => exact h
  | some idx =>
    dsimp only
    split
    · exact h
    · exact pool_wf_free_result pool idx h

theorem Reachable.wf {pool : mempool_t} (h : Reachable pool) : pool_wf pool := by
  induction h with
  | create ds n pm area pool _ _ hc => exact pool_wf_create ds n pm area pool hc
  | alloc pool fh _ ih => exact pool_wf_alloc pool fh ih
  | free pool ptr _ ih => exact pool_wf_free pool ptr ih

theorem free_index_lt (pool : mempool_t) (ptr idx : Nat) (h : free_index pool ptr = some idx) :
    idx < pool.block_count := by
  unfold free_index at h
  split at h
  · simp at h
  · split at h
    · simp at h
    · split at h
      · simp at h
      · simp only [Option.some.injEq] at h
        omega

theorem free_index_free_result (pool : mempool_t) (idx ptr : Nat) :
    free_index (free_result pool idx) ptr = free_index pool ptr := rfl

/-- Freeing twice is freeing once, for every pool state of the right shape. -/
theorem mempool_free_idem (pool : mempool_t) (ptr : Nat) (h : pool_wf pool) :
    mempool_free (mempool_free pool ptr) ptr = mempool_free pool ptr := by
  rw [mempool_free_eq pool ptr]
  cases hfi : free_index pool ptr with
  | none =>
    dsimp only
    rw [mempool_free_eq, hfi]
  | some idx =>
    dsimp only
    by_cases hb : get_bit pool.free_bitmap idx = true
    · rw [if_pos hb, mempool_free_eq, hfi]
      dsimp only
      rw [if_pos hb]
    · rw [if_neg hb, mempool_free_eq, free_index_free_result, hfi]
      dsimp only
      have hlt := free_index_lt pool ptr idx hfi
      have : get_bit (free_result pool idx).free_bitmap idx = true := by
        unfold free_result
        dsimp only
        rw [get_bit_set_bit _ _ _ (by rw [h.1]; have := h.2.2.2.1; omega)]
        simp
      rw [if_pos this]

/-! ## Counting free blocks -/

theorem countP_range_congr (p q : Nat → Bool) (n : Nat) (h : ∀ j, j < n → q j = p j) :
    (List.range n).countP q = (List.range n).countP p := by
  apply List.countP_congr
  intro j hj
  rw [h j (List.mem_range.1 hj)]

theorem countP_range_remove (p q : Nat → Bool) (idx : Nat) (hp : p idx = true)
    (hq : ∀ j, q j = (p j && decide (j ≠ idx))) :
    ∀ n, idx < n → (List.range n).countP q + 1 = (List.range n).countP p := by
  intro n
  induction n with
  | zero => intro h; omega
  | succ n ih =>
    intro h
    rw [List.range_succ, List.countP_append, List.countP_append]
    by_cases hn : idx = n
    · subst hn
      have h1 : (List.range idx).countP q = (List.range idx).countP p := by
        apply countP_range_congr
        intro j hj
        rw [hq j]
        have : j ≠ idx := by omega
        simp [this]
      have h2 : q idx = false := by rw [hq idx]; simp
      simp [h1, h2, hp, List.countP_cons, List.countP_nil]
    · have h1 := ih (by omega)
      have h2 : q n = p n := by
        rw [hq n]
        have : n ≠ idx := fun hh => hn hh.symm
        simp [this]
      simp only [List.countP_cons, List.countP_nil, h2]
      omega

theorem countP_range_pos (p : Nat → Bool) (n : Nat) (h : 0 < (List.range n).countP p) :
    ∃ j, j < n ∧ p j = true := by
  obtain ⟨j, hj1, hj2⟩ := List.countP_pos_iff.1 h
  exact ⟨j, List.mem_range.1 hj1, hj2⟩

theorem free_count_alloc_result (pool : mempool_t) (for_hw : Bool) (idx : Nat)
    (h : pool_wf pool) (hidx : idx < pool.block_count)
    (hb : get_bit pool.free_bitmap idx = true) :
    free_count (alloc_result pool for_hw idx) + 1 = free_count pool := by
  unfold free_count
  have hlen : idx / 64 < pool.free_bitmap.length := by
    rw [h.1]; have := h.2.2.2.1; omega
  exact countP_range_remove _ _ idx hb
    (fun j => by simp only [alloc_result]; exact get_bit_clear_bit _ _ _ hlen) _ hidx

/-- A pool with a free block hands one out; a pool without one returns `NULL`. -/
theorem mempool_alloc_count (pool : mempool_t) (for_hw : Bool) (h : pool_wf pool) :
    (free_count pool = 0 ∧ mempool_alloc pool for_hw = (NULL, pool)) ∨
    (0 < free_count pool ∧ (mempool_alloc pool for_hw).1 ≠ NULL ∧
      free_count (mempool_alloc pool for_hw).2 + 1 = free_count pool) := by
  rcases mempool_alloc_cases pool for_hw with ⟨h1, h2⟩ | ⟨idx, _, h2, h3, _, h5⟩
  · left
    refine ⟨?_, h1⟩
    unfold free_count
    rw [List.countP_eq_zero]
    intro j hj
    have hj := List.mem_range.1 hj
    rw [h2 j (by have := h.2.2.2.1; omega) hj]
    simp
  · right
    have hc := free_count_alloc_result pool for_hw idx h h2 h3
    refine ⟨by omega, ?_, ?_⟩
    · rw [h5]
      have := h.2.2.2.2
      simp only [block_ptr, NULL] at this ⊢
      omega
    · rw [h5]; exact hc

theorem create_get_bit (data_size num_blocks : Nat) (pool_mem : Bool) (area : Nat)
    (pool : mempool_t) (h : mempool_create data_size num_blocks pool_mem area = some pool)
    (j : Nat) (hj : j < num_blocks) : get_bit pool.free_bitmap j = true := by
  obtain ⟨_, _, h3, _, _, _, _, _, _, _, h11⟩ := mempool_create_some _ _ _ _ _ h
  have hw : ∀ k, k < 4 → word [SIZE_MOD - 1, SIZE_MOD - 1, SIZE_MOD - 1, SIZE_MOD - 1] k
      = 2 ^ 64 - 1 := by
    intro k hk
    interval_cases k <;> rfl
  unfold get_bit
  rw [h11]
  by_cases h4 : num_blocks % 64 ≠ 0
  · rw [if_pos h4, word_set]
    by_cases h5 : (num_blocks - 1) / 64 = j / 64
    · rw [if_pos ⟨h5, by simp; omega⟩, bit_mask_eq, SIZE_MOD, Nat.testBit_and,
        Nat.testBit_two_pow_sub_one, Nat.testBit_two_pow_sub_one]
      have h6 : j % 64 < 64 := by omega
      have h7 : j % 64 < num_blocks % 64 := by omega
      simp [h6, h7]
    · rw [if_neg (fun hh => h5 hh.1), hw _ (by omega), Nat.testBit_two_pow_sub_one]
      simp; omega
  · rw [if_neg h4, hw _ (by omega), Nat.testBit_two_pow_sub_one]
    simp; omega

theorem free_count_create (data_size num_blocks : Nat) (pool_mem : Bool) (area : Nat)
    (pool : mempool_t) (h : mempool_create data_size num_blocks pool_mem area = some pool) :
    free_count pool = num_blocks := by
  obtain ⟨_, _, _, _, _, _, _, _, h9, _, _⟩ := mempool_create_some _ _ _ _ _ h
  unfold free_count
  rw [h9]
  have : (List.range num_blocks).countP (fun i => get_bit pool.free_bitmap i)
      = (List.range num_blocks).length := by
    rw [List.countP_eq_length]
    intro j hj
    exact create_get_bit _ _ _ _ _ h j (List.mem_range.1 hj)
  rw [this, List.length_range]

theorem alloc_seq_exhaust : ∀ (fs : List Bool) (pool : mempool_t), pool_wf pool →
    fs.length = free_count pool →
    (∀ p ∈ (alloc_seq pool fs).1, p ≠ NULL) ∧ pool_wf (alloc_seq pool fs).2 ∧
      free_count (alloc_seq pool fs).2 = 0 := by
  intro fs
  induction fs with
  | nil =>
    intro pool hwf hlen
    refine ⟨by simp [alloc_seq], hwf, by simpa [alloc_seq] using hlen.symm⟩
  | cons f fs ih =>
    intro pool hwf hlen
    simp only [List.length_cons] at hlen
    rcases mempool_alloc_count pool f hwf with ⟨h0, _⟩ | ⟨_, h2, h3⟩
    · omega
    · obtain ⟨i1, i2, i3⟩ := ih (mempool_alloc pool f).2 (pool_wf_alloc pool f hwf) (by omega)
      refine ⟨?_, i2, i3⟩
      intro p hp
      simp only [alloc_seq, List.mem_cons] at hp
      rcases hp with rfl | hp
      · exact h2
      · exact i1 p hp

/-! ## Queue operations in terms of the bitmap view -/

theorem shift_and_eq (idx : Nat) :
    idx >>> LOG2_MEMPOOL_BITMAP_EACH_NUM = idx / 64 ∧
    idx &&& (MEMPOOL_BITMAP_EACH_NUM - 1) = idx % 64 := by
  constructor
  · simp [LOG2_MEMPOOL_BITMAP_EACH_NUM, Nat.shiftRight_eq_div_pow]
  · have : MEMPOOL_BITMAP_EACH_NUM - 1 = 2 ^ 6 - 1 := by decide
    rw [this, Nat.and_pow_two_sub_one_eq_mod]

theorem validate_eq (pool : mempool_t) (queue : mempool_queue_t) (buffer : Nat) :
    validate_queue_and_buffer pool queue buffer =
      if buffer = NULL ∨ queue.count ≥ queue.capacity then none
      else
        match get_block_index pool buffer with
        | none => none
        | some block_idx =>
          if block_idx ≥ pool.block_count then none
          else if get_bit queue.queue_bitmap block_idx = true then none
          else some block_idx := by
  unfold validate_queue_and_buffer
  split
  · rfl
  · cases get_block_index pool buffer with
    | none => rfl
    | some idx =>
      dsimp only
      split
      · rfl
      · rw [(shift_and_eq idx).1, (shift_and_eq idx).2]
        by_cases hb : get_bit queue.queue_bitmap idx = true
        · rw [if_pos hb, if_pos ((and_bit_mask_ne_zero _ _).2 hb)]
        · rw [if_neg hb, if_neg (fun h => hb ((and_bit_mask_ne_zero _ _).1 h))]

theorem do_enqueue_eq (queue : mempool_queue_t) (block_idx data_length : Nat) :
    do_enqueue queue block_idx data_length =
      { queue with
        block_indices := queue.block_indices.set queue.tail (block_idx % 2 ^ 16)
        data_lengths := queue.data_lengths.set queue.tail data_length
        tail := (queue.tail + 1) % queue.capacity
        count := (queue.count + 1) % SIZE_MOD
        queue_bitmap := set_bit queue.queue_bitmap block_idx } := by
  unfold do_enqueue set_bit
  dsimp only
  rw [(shift_and_eq block_idx).1, (shift_and_eq block_idx).2]

theorem do_dequeue_eq (pool : mempool_t) (queue : mempool_queue_t) :
    do_dequeue pool queue =
      (block_ptr pool (word queue.block_indices queue.head),
        word queue.data_lengths queue.head,
        { queue with
          head := (queue.head + 1) % queue.capacity
          count := size_dec queue.count
          queue_bitmap := clear_bit queue.queue_bitmap (word queue.block_indices queue.head) }) := by
  unfold do_dequeue clear_bit block_ptr
  dsimp only
  rw [(shift_and_eq _).1, (shift_and_eq _).2]

theorem mod_of_lt_two_mul (a c : Nat) (h : a < 2 * c) :
    a % c = if a < c then a else a - c := by
  by_cases h1 : a < c
  · rw [if_pos h1, Nat.mod_eq_of_lt h1]
  · rw [if_neg h1, Nat.mod_eq_sub_mod (by omega), Nat.mod_eq_of_lt (by omega)]

theorem ring_pos_ne (head cap k n : Nat) (hh : head < cap) (hk : k < n) (hn : n < cap) :
    (head + n) % cap ≠ (head + k) % cap := by
  rw [mod_of_lt_two_mul _ _ (by omega : head + n < 2 * cap),
    mod_of_lt_two_mul _ _ (by omega : head + k < 2 * cap)]
  split <;> split <;> omega

theorem ring_pos_lt (head cap k : Nat) (hc : 0 < cap) : (head + k) % cap < cap :=
  Nat.mod_lt _ hc

/-! ## The live entries of the ring -/

theorem q_entries_do_enqueue (queue : mempool_queue_t) (block_idx data_length : Nat)
    (h1 : queue.block_indices.length = queue.capacity)
    (h2 : queue.data_lengths.length = queue.capacity)
    (hh : queue.head < queue.capacity) (hc : queue.count < queue.capacity)
    (ht : queue.tail = (queue.head + queue.count) % queue.capacity)
    (hcap : queue.capacity < SIZE_MOD) (hidx : block_idx < 2 ^ 16) :
    q_entries (do_enqueue queue block_idx data_length) =
      q_entries queue ++ [(block_idx, data_length)] := by
  have hcnt : (queue.count + 1) % SIZE_MOD = queue.count + 1 :=
    Nat.mod_eq_of_lt (by omega)
  have htl : queue.tail < queue.capacity := by
    rw [ht]; exact Nat.mod_lt _ (by omega)
  rw [do_enqueue_eq]
  unfold q_entries
  simp only [hcnt, List.range_succ, List.map_append, List.map_cons, List.map_nil]
  congr 1
  · apply List.map_congr_left
    intro k hk
    have hk := List.mem_range.1 hk
    have hne : queue.tail ≠ (queue.head + k) % queue.capacity := by
      rw [ht]; exact ring_pos_ne _ _ _ _ hh hk hc
    rw [word_set, word_set, if_neg (fun h => hne h.1), if_neg (fun h => hne h.1)]
  · rw [← ht, word_set, word_set, if_pos ⟨rfl, by rw [h1]; exact htl⟩,
      if_pos ⟨rfl, by rw [h2]; exact htl⟩, Nat.mod_eq_of_lt hidx]

theorem q_entries_do_dequeue (pool : mempool_t) (queue : mempool_queue_t)
    (hh : queue.head < queue.capacity) (hc : 0 < queue.count) :
    q_entries queue =
      (word queue.block_indices queue.head, word queue.data_lengths queue.head) ::
        q_entries (do_dequeue pool queue).2.2 := by
  have hcount : size_dec queue.count = queue.count - 1 := by
    unfold size_dec
    rw [if_neg (by omega)]
  rw [do_dequeue_eq]
  unfold q_entries
  simp only [hcount]
  obtain ⟨n, hn⟩ : ∃ n, queue.count = n + 1 := ⟨queue.count - 1, by omega⟩
  rw [hn, List.range_succ_eq_map]
  simp only [List.map_cons, List.map_map, Nat.add_zero, Nat.add_sub_cancel]
  rw [Nat.mod_eq_of_lt hh]
  refine congrArg _ ?_
  apply List.map_congr_left
  intro k _
  have e : (queue.head + 1) % queue.capacity + k ≡ queue.head + (k + 1) [MOD queue.capacity] := by
    have : queue.head + (k + 1) = (queue.head + 1) + k := by omega
    rw [this]
    exact Nat.ModEq.add_right k (Nat.mod_modEq _ _)
  simp only [Function.comp, Nat.succ_eq_add_one]
  rw [show (queue.head + (k + 1)) % queue.capacity
      = ((queue.head + 1) % queue.capacity + k) % queue.capacity from e.symm]

/-! ## Resolving a pointer -/

theorem get_block_index_some (pool : mempool_t) (buffer idx : Nat)
    (hcount : pool.block_count ≤ 256) (h : get_block_index pool buffer = some idx) :
    buffer ≠ NULL ∧
    (buffer + (SIZE_MOD - pool.memory_area % SIZE_MOD)) % SIZE_MOD
      < (pool.block_size * pool.block_count) % SIZE_MOD ∧
    idx = ((buffer + (SIZE_MOD - pool.memory_area % SIZE_MOD)) % SIZE_MOD) / pool.block_size ∧
    idx < pool.block_count ∧
    idx * pool.block_size < (pool.block_size * pool.block_count) % SIZE_MOD := by
  unfold get_block_index at h
  by_cases h1 : buffer = NULL
  · rw [if_pos h1] at h; simp at h
  rw [if_neg h1] at h
  dsimp only at h
  by_cases h2 : (buffer + (SIZE_MOD - pool.memory_area % SIZE_MOD)) % SIZE_MOD
      ≥ (pool.block_size * pool.block_count) % SIZE_MOD
  · rw [if_pos h2] at h; simp at h
  rw [if_neg h2] at h
  have hlt : (buffer + (SIZE_MOD - pool.memory_area % SIZE_MOD)) % SIZE_MOD
      < pool.block_size * pool.block_count :=
    lt_of_lt_of_le (Nat.lt_of_not_ge h2) (Nat.mod_le _ _)
  have hq : (buffer + (SIZE_MOD - pool.memory_area % SIZE_MOD)) % SIZE_MOD / pool.block_size
      < pool.block_count := Nat.div_lt_of_lt_mul hlt
  have hmod : ((buffer + (SIZE_MOD - pool.memory_area % SIZE_MOD)) % SIZE_MOD / pool.block_size)
      % 2 ^ 32 = (buffer + (SIZE_MOD - pool.memory_area % SIZE_MOD)) % SIZE_MOD
        / pool.block_size := Nat.mod_eq_of_lt (by omega)
  rw [hmod] at h
  split at h
  · simp only [Option.some.injEq] at h
    refine ⟨h1, by omega, h.symm, by omega, ?_⟩
    rw [← h]
    exact lt_of_le_of_lt (Nat.div_mul_le_self _ _) (by omega)
  · simp at h

/-! ## The queue invariant -/

theorem validate_some (pool : mempool_t) (queue : mempool_queue_t) (buffer idx : Nat)
    (h : validate_queue_and_buffer pool queue buffer = some idx) :
    buffer ≠ NULL ∧ queue.count < queue.capacity ∧ get_block_index pool buffer = some idx ∧
      idx < pool.block_count ∧ get_bit queue.queue_bitmap idx = false := by
  rw [validate_eq] at h
  split at h
  · simp at h
  · rename_i h1
    cases hg : get_block_index pool buffer with
    | none => rw [hg] at h; simp at h
    | some j =>
      rw [hg] at h
      dsimp only at h
      split at h
      · simp at h
      · split at h
        · simp at h
        · rename_i h2 h3
          simp only [Option.some.injEq] at h
          subst h
          refine ⟨fun hb => h1 (Or.inl hb), by omega, rfl, by omega, by simpa using h3⟩

theorem queue_wf_do_enqueue (pool : mempool_t) (queue : mempool_queue_t)
    (idx data_length : Nat) (hp : pool_wf pool) (hq : queue_wf pool queue)
    (hc : queue.count < queue.capacity) (hidx : idx < pool.block_count)
    (hgeo : idx * pool.block_size < (pool.block_size * pool.block_count) % SIZE_MOD)
    (hb : get_bit queue.queue_bitmap idx = false) :
    queue_wf pool (do_enqueue queue idx data_length) := by
  obtain ⟨q1, q2, q3, q4, q5, q6, q7, q8, q9, q10, q11, q12⟩ := hq
  have hcount := hp.2.2.2.1
  have hcap : queue.capacity < SIZE_MOD := by
    have : (256 : Nat) < SIZE_MOD := by norm_num [SIZE_MOD]
    omega
  have he := q_entries_do_enqueue queue idx data_length q1 q2 q5 hc q7 hcap (by omega)
  have hnot : idx ∉ (q_entries queue).map Prod.fst := by
    intro hmem
    rw [← q9 idx, hb] at hmem
    exact Bool.false_ne_true hmem
  unfold queue_wf
  rw [he]
  rw [do_enqueue_eq]
  have hcnt : (queue.count + 1) % SIZE_MOD = queue.count + 1 := Nat.mod_eq_of_lt (by omega)
  simp only [hcnt, List.length_set, length_set_bit, List.map_append, List.map_cons, List.map_nil]
  refine ⟨q1, q2, q3, q4, q5, by omega, ?_, q8, ?_, ?_, ?_, ?_⟩
  · rw [q7, Nat.mod_add_mod, Nat.add_assoc]
  · intro i
    rw [get_bit_set_bit _ _ _ (by rw [q8]; omega), List.mem_append, ← q9 i]
    simp
  · rw [List.nodup_append]
    refine ⟨q10, List.nodup_singleton _, ?_⟩
    intro a ha hb2
    rw [List.mem_singleton] at hb2
    subst hb2
    exact hnot ha
  · intro i hi
    rw [List.mem_append, List.mem_singleton] at hi
    rcases hi with hi | hi
    · exact q11 i hi
    · rw [hi]; exact hidx
  · intro i hi
    rw [List.mem_append, List.mem_singleton] at hi
    rcases hi with hi | hi
    · exact q12 i hi
    · rw [hi]; exact hgeo

theorem queue_wf_enqueue (pool : mempool_t) (queue : mempool_queue_t)
    (buffer data_length : Nat) (hp : pool_wf pool) (hq : queue_wf pool queue) :
    queue_wf pool (mempool_queue_enqueue_with_length pool queue buffer data_length).2 := by
  unfold mempool_queue_enqueue_with_length
  cases hv : validate_queue_and_buffer pool queue buffer with
  | none => exact hq
  | some idx =>
    obtain ⟨_, h2, h3, h4, h5⟩ := validate_some _ _ _ _ hv
    exact queue_wf_do_enqueue pool queue idx data_length hp hq h2 h4
      (get_block_index_some pool buffer idx hp.2.2.2.1 h3).2.2.2.2 h5

theorem queue_wf_do_dequeue (pool : mempool_t) (queue : mempool_queue_t)
    (hp : pool_wf pool) (hq : queue_wf pool queue) (hc : 0 < queue.count) :
    queue_wf pool (do_dequeue pool queue).2.2 := by
  obtain ⟨q1, q2, q3, q4, q5, q6, q7, q8, q9, q10, q11, q12⟩ := hq
  have hcount := hp.2.2.2.1
  have he := q_entries_do_dequeue pool queue q5 hc
  rw [he] at q9 q10 q11 q12
  simp only [List.map_cons, List.mem_cons, List.nodup_cons] at q9 q10 q11 q12
  have hidx : word queue.block_indices queue.head < pool.block_count :=
    q11 _ (Or.inl rfl)
  have hcnt : size_dec queue.count = queue.count - 1 := by
    unfold size_dec
    rw [if_neg (by omega)]
  unfold queue_wf
  generalize hE : q_entries (do_dequeue pool queue).2.2 = E at q9 q10 q11 q12 ⊢
  rw [do_dequeue_eq]
  simp only [hcnt, length_clear_bit]
  refine ⟨q1, q2, q3, q4, Nat.mod_lt _ q3, by omega, ?_, q8, ?_, q10.2, ?_,
    fun i hi => q12 i (Or.inr hi)⟩
  · rw [q7, Nat.mod_add_mod]
    congr 1
    omega
  · intro i
    rw [get_bit_clear_bit _ _ _ (by rw [q8]; omega)]
    have := q9 i
    by_cases hi : i = word queue.block_indices queue.head
    · subst hi
      simp only [ne_eq, not_true_eq_false, decide_False, Bool.and_false]
      constructor
      · intro h; exact absurd h Bool.false_ne_true
      · intro h; exact absurd h q10.1
    · simp only [ne_eq, hi, not_false_eq_true, decide_True, Bool.and_true]
      rw [this]
      constructor
      · rintro (h | h)
        · exact absurd h hi
        · exact h
      · intro h; exact Or.inr h
  · intro i hi
    exact q11 i (Or.inr hi)

theorem queue_wf_dequeue (pool : mempool_t) (queue : mempool_queue_t)
    (hp : pool_wf pool) (hq : queue_wf pool queue) :
    queue_wf pool (mempool_queue_dequeue_with_length pool queue).2.2 := by
  unfold mempool_queue_dequeue_with_length
  by_cases h : queue.count = 0
  · rw [if_pos h]; exact hq
  · rw [if_neg h]; exact queue_wf_do_dequeue pool queue hp hq (by omega)

theorem count_do_dequeue (pool : mempool_t) (queue : mempool_queue_t) (hc : 0 < queue.count) :
    (do_dequeue pool queue).2.2.count = queue.count - 1 := by
  rw [do_dequeue_eq]
  simp only [size_dec]
  rw [if_neg (by omega)]

theorem queue_wf_dequeue_loop (pool : mempool_t) (hp : pool_wf pool) :
    ∀ (n : Nat) (queue : mempool_queue_t), queue_wf pool queue → n ≤ queue.count →
      queue_wf pool (dequeue_loop pool n queue).2 := by
  intro n
  induction n with
  | zero => intro queue hq _; exact hq
  | succ n ih =>
    intro queue hq hn
    simp only [dequeue_loop]
    apply ih
    · exact queue_wf_do_dequeue pool queue hp hq (by omega)
    · rw [count_do_dequeue pool queue (by omega)]; omega

theorem queue_wf_dequeue_batch (pool : mempool_t) (queue : mempool_queue_t)
    (buffers max_count : Nat) (hp : pool_wf pool) (hq : queue_wf pool queue) :
    queue_wf pool
      (mempool_queue_dequeue_batch_with_length pool queue buffers max_count).2.2 := by
  unfold mempool_queue_dequeue_batch_with_length
  split
  · exact hq
  · dsimp only
    apply queue_wf_dequeue_loop pool hp _ _ hq
    split <;> omega

theorem queue_create_some (pool : mempool_t) (capacity : Nat) (queue_mem : Bool)
    (indices_mem lengths_mem : Option (List Nat)) (queue : mempool_queue_t)
    (h : mempool_queue_create (some pool) capacity queue_mem indices_mem lengths_mem
      = some queue) :
    0 < capacity ∧ capacity ≤ pool.block_count ∧ queue_mem = true ∧
      indices_mem = some queue.block_indices ∧ lengths_mem = some queue.data_lengths ∧
      queue.capacity = capacity ∧ queue.head = 0 ∧ queue.tail = 0 ∧ queue.count = 0 ∧
      queue.queue_bitmap = [0, 0, 0, 0] := by
  unfold mempool_queue_create at h
  dsimp only at h
  by_cases h1 : capacity = 0 ∨ capacity > pool.block_count
  · rw [if_pos h1] at h; simp at h
  rw [if_neg h1] at h
  by_cases h2 : queue_mem = false
  · rw [if_pos h2] at h; simp at h
  rw [if_neg h2] at h
  cases indices_mem with
  | none => simp at h
  | some bi =>
    cases lengths_mem with
    | none => simp at h
    | some dl =>
      simp only [Option.some.injEq] at h
      subst h
      have hr : List.map (fun _ => 0) (List.range BITMAP_WORDS) = [0, 0, 0, 0] := by decide
      refine ⟨by omega, by omega, by simpa using h2, rfl, rfl, rfl, rfl, rfl, rfl, hr⟩

theorem get_bit_zeros (i : Nat) : get_bit [0, 0, 0, 0] i = false := by
  unfold get_bit word
  by_cases h : i / 64 < 4
  · have : i / 64 = 0 ∨ i / 64 = 1 ∨ i / 64 = 2 ∨ i / 64 = 3 := by omega
    rcases this with h | h | h | h <;> rw [h] <;> simp
  · rw [List.getD_eq_getElem?_getD, List.getElem?_eq_none (by simpa using h)]
    simp

theorem queue_wf_create (pool : mempool_t) (capacity : Nat) (indices_mem lengths_mem : List Nat)
    (queue : mempool_queue_t) (h1 : indices_mem.length = capacity)
    (h2 : lengths_mem.length = capacity)
    (h : mempool_queue_create (some pool) capacity true (some indices_mem) (some lengths_mem)
      = some queue) :
    queue_wf pool queue := by
  obtain ⟨c1, c2, _, c4, c5, c6, c7, c8, c9, c10⟩ := queue_create_some _ _ _ _ _ _ h
  simp only [Option.some.injEq] at c4 c5
  have he : q_entries queue = [] := by
    unfold q_entries
    rw [c9]; rfl
  unfold queue_wf
  rw [he, c6, c7, c8, c9, c10, ← c4, ← c5]
  refine ⟨h1, h2, c1, c2, c1, Nat.zero_le _, ?_, rfl, ?_, List.nodup_nil, ?_, ?_⟩
  · simp
  · intro i
    rw [get_bit_zeros]
    simp
  · intro i hi
    simp at hi
  · intro i hi
    simp at hi

theorem block_count_alloc (pool : mempool_t) (for_hw : Bool) :
    (mempool_alloc pool for_hw).2.block_count = pool.block_count ∧
    (mempool_alloc pool for_hw).2.block_size = pool.block_size ∧
    (mempool_alloc pool for_hw).2.memory_area = pool.memory_area := by
  rcases mempool_alloc_cases pool for_hw with ⟨h1, _⟩ | ⟨idx, _, _, _, _, h1⟩
  · rw [h1]; exact ⟨rfl, rfl, rfl⟩
  · rw [h1]; exact ⟨rfl, rfl, rfl⟩

theorem block_count_free (pool : mempool_t) (ptr : Nat) :
    (mempool_free pool ptr).block_count = pool.block_count ∧
    (mempool_free pool ptr).block_size = pool.block_size ∧
    (mempool_free pool ptr).memory_area = pool.memory_area := by
  rw [mempool_free_eq]
  cases free_index pool ptr with
  | none => exact ⟨rfl, rfl, rfl⟩
  | some idx =>
    dsimp only
    split
    · exact ⟨rfl, rfl, rfl⟩
    · exact ⟨rfl, rfl, rfl⟩

theorem queue_wf_of_block_count (pool pool1 : mempool_t) (queue : mempool_queue_t)
    (h : pool1.block_count = pool.block_count ∧ pool1.block_size = pool.block_size ∧
      pool1.memory_area = pool.memory_area)
    (hq : queue_wf pool queue) : queue_wf pool1 queue := by
  unfold queue_wf at hq ⊢
  rw [h.1, h.2.1]
  exact hq

theorem SysReachable.inv {s : System} (h : SysReachable s) :
    Reachable s.pool ∧ queue_wf s.pool s.queue := by
  induction h with
  | create pool capacity im lm queue hr h1 h2 hc =>
    exact ⟨hr, queue_wf_create pool capacity im lm queue h1 h2 hc⟩
  | alloc s fh _ ih =>
    exact ⟨Reachable.alloc _ _ ih.1,
      queue_wf_of_block_count _ _ _ (block_count_alloc s.pool fh) ih.2⟩
  | free s ptr _ ih =>
    exact ⟨Reachable.free _ _ ih.1,
      queue_wf_of_block_count _ _ _ (block_count_free s.pool ptr) ih.2⟩
  | enqueue s buffer len _ ih =>
    exact ⟨ih.1, queue_wf_enqueue _ _ _ _ ih.1.wf ih.2⟩
  | dequeue s _ ih =>
    exact ⟨ih.1, queue_wf_dequeue _ _ ih.1.wf ih.2⟩
  | dequeue_batch s buffers max_count _ ih =>
    exact ⟨ih.1, queue_wf_dequeue_batch _ _ _ _ ih.1.wf ih.2⟩

/-! ## Index to pointer and back -/

theorem geo_facts (pool : mempool_t) (i : Nat)
    (hgeo : i * pool.block_size < (pool.block_size * pool.block_count) % SIZE_MOD) :
    0 < pool.block_size ∧ i < pool.block_count ∧ i * pool.block_size < SIZE_MOD ∧
      i * pool.block_size / pool.block_size = i := by
  have hM : 0 < SIZE_MOD := by norm_num [SIZE_MOD]
  have h1 : 0 < pool.block_size := by
    rcases Nat.eq_zero_or_pos pool.block_size with h | h
    · rw [h] at hgeo; simp at hgeo
    · exact h
  have h2 : i * pool.block_size < pool.block_size * pool.block_count :=
    lt_of_lt_of_le hgeo (Nat.mod_le _ _)
  refine ⟨h1, ?_, lt_trans hgeo (Nat.mod_lt _ hM), Nat.mul_div_cancel _ h1⟩
  rw [Nat.mul_comm pool.block_size] at h2
  exact Nat.lt_of_mul_lt_mul_right h2

theorem get_block_index_block_ptr (pool : mempool_t) (i : Nat)
    (hm : pool.memory_area ≠ NULL) (hm2 : pool.memory_area < SIZE_MOD)
    (hcount : pool.block_count ≤ 256)
    (hgeo : i * pool.block_size < (pool.block_size * pool.block_count) % SIZE_MOD) :
    get_block_index pool (block_ptr pool i) = some i := by
  obtain ⟨g1, g2, g3, g4⟩ := geo_facts pool i hgeo
  have hp : block_ptr pool i = pool.memory_area + i * pool.block_size := by
    unfold block_ptr; rw [Nat.mod_eq_of_lt g3]
  have hoff : (block_ptr pool i + (SIZE_MOD - pool.memory_area % SIZE_MOD)) % SIZE_MOD
      = i * pool.block_size := by
    rw [hp, Nat.mod_eq_of_lt hm2]
    have : pool.memory_area + i * pool.block_size + (SIZE_MOD - pool.memory_area)
        = i * pool.block_size + SIZE_MOD := by omega
    rw [this, Nat.add_mod_right, Nat.mod_eq_of_lt g3]
  unfold get_block_index
  have hn : block_ptr pool i ≠ NULL := by
    rw [hp]; simp only [NULL] at hm ⊢; omega
  rw [if_neg hn]
  dsimp only
  rw [hoff, if_neg (by omega), g4, Nat.mod_eq_of_lt (by omega), if_pos (by omega)]

theorem free_index_block_ptr (pool : mempool_t) (i : Nat)
    (hm : pool.memory_area ≠ NULL)
    (hgeo : i * pool.block_size < (pool.block_size * pool.block_count) % SIZE_MOD) :
    free_index pool (block_ptr pool i) = some i := by
  obtain ⟨g1, g2, g3, g4⟩ := geo_facts pool i hgeo
  have hp : block_ptr pool i = pool.memory_area + i * pool.block_size := by
    unfold block_ptr; rw [Nat.mod_eq_of_lt g3]
  have hoff : (block_ptr pool i - pool.memory_area) % SIZE_MOD = i * pool.block_size := by
    rw [hp, Nat.add_sub_cancel_left, Nat.mod_eq_of_lt g3]
  unfold free_index
  have hn : block_ptr pool i ≠ NULL := by
    rw [hp]; simp only [NULL] at hm ⊢; omega
  rw [if_neg hn, hoff, g4, if_neg (by rw [hp]; omega), if_neg (by omega)]

theorem Reachable.area_lt {pool : mempool_t} (h : Reachable pool) :
    pool.memory_area < SIZE_MOD := by
  induction h with
  | create ds n pm area pool _ ha hc =>
    rw [(mempool_create_some _ _ _ _ _ hc).2.2.2.2.2.1]; exact ha
  | alloc pool fh _ ih => rw [(block_count_alloc pool fh).2.2]; exact ih
  | free pool ptr _ ih => rw [(block_count_free pool ptr).2.2]; exact ih

/-! ## A concrete pool and queue -/

theorem demo_pool_reachable : Reachable demo_pool :=
  Reachable.create 64 2 true 4096 demo_pool (by decide) (by decide) (by decide)

theorem demo_sys_reachable : SysReachable ⟨demo_pool, demo_queue⟩ :=
  SysReachable.create demo_pool 2 [0, 0] [0, 0] demo_queue demo_pool_reachable rfl rfl
    (by decide)

theorem demo_live_reachable : SysReachable demo_live :=
  SysReachable.enqueue ⟨(mempool_alloc demo_pool false).2, demo_queue⟩ 4096 5
    (SysReachable.alloc ⟨demo_pool, demo_queue⟩ false demo_sys_reachable)

/-! ## First in, first out -/

theorem block_ptr_ne_null (pool : mempool_t) (i : Nat) (hm : pool.memory_area ≠ NULL) :
    block_ptr pool i ≠ NULL := by
  simp only [block_ptr, NULL] at hm ⊢
  omega

/-- Each call appends to or removes from the front of the live entries: the pairs
waiting in the queue followed by the accepted enqueues are the returned dequeues
followed by the pairs still waiting, provided every enqueued pointer is the address of
a block that `get_block_index` accepts. -/
theorem run_queue_ops_fifo (pool : mempool_t) (hp : pool_wf pool)
    (ha : pool.memory_area < SIZE_MOD) :
    ∀ (ops : List queue_op) (queue : mempool_queue_t), queue_wf pool queue →
      (∀ b l, queue_op.enqueue b l ∈ ops → ∃ i, b = block_ptr pool i ∧
        i * pool.block_size < (pool.block_size * pool.block_count) % SIZE_MOD) →
      q_ptrs pool queue ++ (run_queue_ops pool queue ops).1 =
        (run_queue_ops pool queue ops).2.1 ++ q_ptrs pool (run_queue_ops pool queue ops).2.2 := by
  intro ops
  induction ops with
  | nil => intro queue _ _; simp [run_queue_ops]
  | cons op ops ih =>
    intro queue hq hops
    have hops' : ∀ b l, queue_op.enqueue b l ∈ ops → ∃ i, b = block_ptr pool i ∧
        i * pool.block_size < (pool.block_size * pool.block_count) % SIZE_MOD :=
      fun b l hm => hops b l (List.mem_cons_of_mem _ hm)
    cases op with
    | enqueue buffer len =>
      obtain ⟨i, hb, hgeo⟩ := hops buffer len (List.mem_cons_self _ _)
      have hres : get_block_index pool buffer = some i := by
        rw [hb]
        exact get_block_index_block_ptr pool i hp.2.2.2.2 ha hp.2.2.2.1 hgeo
      have hwf := queue_wf_enqueue pool queue buffer len hp hq
      have hih := ih _ hwf hops'
      simp only [run_queue_ops]
      cases hv : validate_queue_and_buffer pool queue buffer with
      | none =>
        have he : mempool_queue_enqueue_with_length pool queue buffer len = (-1, queue) := by
          unfold mempool_queue_enqueue_with_length; rw [hv]
        rw [he] at hih ⊢
        simpa using hih
      | some idx =>
        have he : mempool_queue_enqueue_with_length pool queue buffer len
            = (0, do_enqueue queue idx len) := by
          unfold mempool_queue_enqueue_with_length; rw [hv]
        obtain ⟨_, v2, v3, v4, _⟩ := validate_some _ _ _ _ hv
        have hidx : idx = i := by
          rw [hres] at v3
          exact (Option.some.inj v3).symm
        obtain ⟨q1, q2, _, _, q5, _, q7, _, _, _, _, _⟩ := hq
        have hcap : queue.capacity < SIZE_MOD := by
          have h256 : (256 : Nat) < SIZE_MOD := by norm_num [SIZE_MOD]
          have := hp.2.2.2.1
          omega
        have hent := q_entries_do_enqueue queue idx len q1 q2 q5 v2 q7 hcap
          (by have := hp.2.2.2.1; omega)
        rw [he] at hih ⊢
        simp only [if_true]
        have hptrs : q_ptrs pool (do_enqueue queue idx len)
            = q_ptrs pool queue ++ [(buffer, len)] := by
          unfold q_ptrs
          rw [hent, List.map_append, List.map_cons, List.map_nil, hidx, ← hb]
        rw [hptrs, List.append_assoc] at hih
        exact hih
    | dequeue =>
      have hwf := queue_wf_dequeue pool queue hp hq
      have hih := ih _ hwf hops'
      simp only [run_queue_ops]
      by_cases hc : queue.count = 0
      · have he : mempool_queue_dequeue_with_length pool queue = (NULL, 0, queue) := by
          unfold mempool_queue_dequeue_with_length; rw [if_pos hc]
        rw [he] at hih ⊢
        simpa using hih
      · have he : mempool_queue_dequeue_with_length pool queue = do_dequeue pool queue := by
          unfold mempool_queue_dequeue_with_length; rw [if_neg hc]
        have hent := q_entries_do_dequeue pool queue hq.2.2.2.2.1 (by omega)
        have hptrs : q_ptrs pool queue
            = ((do_dequeue pool queue).1, (do_dequeue pool queue).2.1)
                :: q_ptrs pool (do_dequeue pool queue).2.2 := by
          unfold q_ptrs
          rw [hent, List.map_cons]
          rw [do_dequeue_eq]
        have hne : (do_dequeue pool queue).1 ≠ NULL := by
          rw [do_dequeue_eq]
          exact block_ptr_ne_null pool _ hp.2.2.2.2
        rw [he] at hih ⊢
        rw [if_neg hne, hptrs, List.cons_append, List.cons_append, hih]

/-! ## Pools whose arena size does not wrap around -/

theorem no_overflow_geo (pool : mempool_t) (h : no_overflow pool) (i : Nat)
    (hi : i < pool.block_count) :
    i * pool.block_size < (pool.block_size * pool.block_count) % SIZE_MOD := by
  rw [Nat.mod_eq_of_lt h.2, Nat.mul_comm pool.block_size]
  exact Nat.mul_lt_mul_of_pos_right hi h.1

/-- Without wrap-around, index to pointer to index is the identity, for
`get_block_index` and for the index computation of `mempool_free`. -/
theorem round_trip_no_overflow (pool : mempool_t) (hr : Reachable pool)
    (h : no_overflow pool) (i : Nat) (hi : i < pool.block_count) :
    get_block_index pool (block_ptr pool i) = some i ∧
    free_index pool (block_ptr pool i) = some i :=
  ⟨get_block_index_block_ptr pool i hr.wf.2.2.2.2 hr.area_lt hr.wf.2.2.2.1
      (no_overflow_geo pool h i hi),
    free_index_block_ptr pool i hr.wf.2.2.2.2 (no_overflow_geo pool h i hi)⟩

/-- Without wrap-around, the byte ranges of two different blocks are disjoint: the
block with the lower index ends where or before the other one starts. -/
theorem blocks_disjoint_no_overflow (pool : mempool_t) (h : no_overflow pool) (i j : Nat)
    (hij : i < j) (hj : j < pool.block_count) :
    block_ptr pool i + pool.block_size ≤ block_ptr pool j := by
  have hM : ∀ k, k < pool.block_count → (k * pool.block_size) % SIZE_MOD = k * pool.block_size := by
    intro k hk
    exact Nat.mod_eq_of_lt (lt_trans
      (by rw [Nat.mul_comm pool.block_size]; exact Nat.mul_lt_mul_of_pos_right hk h.1) h.2)
  unfold block_ptr
  rw [hM i (by omega), hM j hj]
  have : (i + 1) * pool.block_size ≤ j * pool.block_size := Nat.mul_le_mul_right _ (by omega)
  rw [Nat.add_mul, Nat.one_mul] at this
  omega

/-- Without wrap-around, on a queue that starts empty, the dequeues return the accepted
enqueues of block pointers in the same order: the accepted enqueues are the returned
dequeues followed by the entries still waiting. -/
theorem fifo_no_overflow (pool : mempool_t) (queue : mempool_queue_t) (ops : List queue_op)
    (hr : Reachable pool) (h : no_overflow pool) (hq : queue_wf pool queue)
    (hempty : queue.count = 0)
    (hops : ∀ b l, queue_op.enqueue b l ∈ ops → ∃ i, i < pool.block_count ∧ b = block_ptr pool i) :
    (run_queue_ops pool queue ops).1 =
      (run_queue_ops pool queue ops).2.1 ++ q_ptrs pool (run_queue_ops pool queue ops).2.2 := by
  have hfifo := run_queue_ops_fifo pool hr.wf hr.area_lt ops queue hq
    (fun b l hm => by
      obtain ⟨i, hi, hb⟩ := hops b l hm
      exact ⟨i, hb, no_overflow_geo pool h i hi⟩)
  have he : q_ptrs pool queue = [] := by
    unfold q_ptrs q_entries
    rw [hempty]; rfl
  rw [he, List.nil_append] at hfifo
  exact hfifo

/-! ## What `mempool_available` counts -/

theorem popcount_le (x : Nat) : POPCOUNT_LL x ≤ 64 := by
  unfold POPCOUNT_LL
  have := List.countP_le_length (fun b => x.testBit b) (l := List.range 64)
  simpa using this

theorem popcount_word (a : List Nat) (k : Nat) :
    POPCOUNT_LL (word a k) = (List.range 64).countP (fun b => get_bit a (64 * k + b)) := by
  unfold POPCOUNT_LL
  apply countP_range_congr
  intro j hj
  unfold get_bit
  have h1 : (64 * k + j) / 64 = k := by omega
  have h2 : (64 * k + j) % 64 = j := by omega
  rw [h1, h2]

theorem countP_range_256 (p : Nat → Bool) :
    (List.range 256).countP p =
      (List.range 64).countP (fun b => p (64 * 0 + b)) +
      (List.range 64).countP (fun b => p (64 * 1 + b)) +
      (List.range 64).countP (fun b => p (64 * 2 + b)) +
      (List.range 64).countP (fun b => p (64 * 3 + b)) := by
  have e : (256 : Nat) = 64 + (64 + (64 + 64)) := rfl
  rw [e, List.range_add, List.range_add 64 (64 + 64), List.range_add 64 64]
  simp only [List.countP_append, List.countP_map, List.map_append, List.map_map]
  have c0 : (List.range 64).countP p = (List.range 64).countP (fun b => p (64 * 0 + b)) := by
    apply countP_range_congr; intro j _; simp
  have c1 : (List.range 64).countP (p ∘ fun x => 64 + x)
      = (List.range 64).countP (fun b => p (64 * 1 + b)) := by
    apply countP_range_congr; intro j _; simp
  have c2 : (List.range 64).countP (p ∘ (fun x => 64 + x) ∘ fun x => 64 + x)
      = (List.range 64).countP (fun b => p (64 * 2 + b)) := by
    apply countP_range_congr; intro j _
    simp only [Function.comp]
    congr 1; omega
  have c3 : (List.range 64).countP (p ∘ (fun x => 64 + x) ∘ (fun x => 64 + x) ∘ fun x => 64 + x)
      = (List.range 64).countP (fun b => p (64 * 3 + b)) := by
    apply countP_range_congr; intro j _
    simp only [Function.comp]
    congr 1; omega
  rw [c0, c1, c2, c3]
  omega

/-- The value of `mempool_available` is the number of set bits among all 256 positions
of `free_bitmap`, whatever the block count of the pool. -/
theorem mempool_available_eq (pool : mempool_t) :
    mempool_available pool = (List.range 256).countP (fun i => get_bit pool.free_bitmap i) := by
  have hr : List.range BITMAP_WORDS = [0, 1, 2, 3] := by decide
  have h0 := popcount_le (word pool.free_bitmap 0)
  have h1 := popcount_le (word pool.free_bitmap 1)
  have h2 := popcount_le (word pool.free_bitmap 2)
  have h3 := popcount_le (word pool.free_bitmap 3)
  have hM : (256 : Nat) < SIZE_MOD := by norm_num [SIZE_MOD]
  unfold mempool_available
  rw [hr]
  simp only [List.foldl_cons, List.foldl_nil, Nat.zero_add]
  rw [Nat.mod_eq_of_lt (by omega : POPCOUNT_LL (word pool.free_bitmap 0) < SIZE_MOD),
    Nat.mod_eq_of_lt (by omega : POPCOUNT_LL (word pool.free_bitmap 0)
      + POPCOUNT_LL (word pool.free_bitmap 1) < SIZE_MOD),
    Nat.mod_eq_of_lt (by omega : POPCOUNT_LL (word pool.free_bitmap 0)
      + POPCOUNT_LL (word pool.free_bitmap 1) + POPCOUNT_LL (word pool.free_bitmap 2) < SIZE_MOD),
    Nat.mod_eq_of_lt (by omega : POPCOUNT_LL (word pool.free_bitmap 0)
      + POPCOUNT_LL (word pool.free_bitmap 1) + POPCOUNT_LL (word pool.free_bitmap 2)
      + POPCOUNT_LL (word pool.free_bitmap 3) < SIZE_MOD),
    countP_range_256, popcount_word, popcount_word, popcount_word, popcount_word]

theorem countP_range_all (p : Nat → Bool) (n : Nat) (h : ∀ j, j < n → p j = true) :
    (List.range n).countP p = n := by
  have : (List.range n).countP p = (List.range n).length := by
    rw [List.countP_eq_length]
    intro j hj
    exact h j (List.mem_range.1 hj)
  rw [this, List.length_range]

theorem countP_range_none (p : Nat → Bool) (n : Nat) (h : ∀ j, j < n → p j = false) :
    (List.range n).countP p = 0 := by
  rw [List.countP_eq_zero]
  intro j hj
  rw [h j (List.mem_range.1 hj)]
  simp

theorem countP_range_split (p : Nat → Bool) (a n : Nat) (h : a ≤ n) :
    (List.range n).countP p =
      (List.range a).countP p + (List.range (n - a)).countP (fun j => p (a + j)) := by
  have e : n = a + (n - a) := by omega
  conv => lhs; rw [e, List.range_add, List.countP_append, List.countP_map]
  rfl

theorem countP_below_or_above (p : Nat → Bool) (a k n : Nat) (h1 : a ≤ k) (h2 : k ≤ n)
    (hlow : ∀ j, j < a → p j = true) (hmid : ∀ j, a ≤ j → j < k → p j = false)
    (hhigh : ∀ j, k ≤ j → j < n → p j = true) :
    (List.range n).countP p = a + (n - k) := by
  rw [countP_range_split p k n h2, countP_range_split p a k h1,
    countP_range_all p a hlow,
    countP_range_none _ (k - a) (fun j hj => hmid (a + j) (by omega) (by omega)),
    countP_range_all _ (n - k) (fun j hj => hhigh (k + j) (by omega) (by omega))]
  omega

theorem create_get_bit_all (data_size num_blocks : Nat) (pool_mem : Bool) (area : Nat)
    (pool : mempool_t) (h : mempool_create data_size num_blocks pool_mem area = some pool)
    (j : Nat) (hj : j < 256) :
    get_bit pool.free_bitmap j
      = (decide (j < num_blocks) || decide (64 * ((num_blocks - 1) / 64 + 1) ≤ j)) := by
  obtain ⟨_, h2, h3, _, _, _, _, _, _, _, h11⟩ := mempool_create_some _ _ _ _ _ h
  have hw : ∀ k, k < 4 → word [SIZE_MOD - 1, SIZE_MOD - 1, SIZE_MOD - 1, SIZE_MOD - 1] k
      = 2 ^ 64 - 1 := by
    intro k hk
    interval_cases k <;> rfl
  have h64 : j % 64 < 64 := Nat.mod_lt _ (by decide)
  unfold get_bit
  rw [h11]
  by_cases h4 : num_blocks % 64 ≠ 0
  · rw [if_pos h4, word_set]
    by_cases h5 : (num_blocks - 1) / 64 = j / 64
    · rw [if_pos ⟨h5, by simp; omega⟩, bit_mask_eq, SIZE_MOD, Nat.testBit_and,
        Nat.testBit_two_pow_sub_one, Nat.testBit_two_pow_sub_one]
      have h8 : ¬ 64 * ((num_blocks - 1) / 64 + 1) ≤ j := by omega
      by_cases h7 : j % 64 < num_blocks % 64
      · have h9 : j < num_blocks := by omega
        simp [h64, h7, h8, h9]
      · have h9 : ¬ j < num_blocks := by omega
        simp [h64, h7, h8, h9]
    · rw [if_neg (fun hh => h5 hh.1), hw _ (by omega), Nat.testBit_two_pow_sub_one]
      by_cases h9 : j < num_blocks
      · simp [h64, h9]
      · have h8 : 64 * ((num_blocks - 1) / 64 + 1) ≤ j := by omega
        simp [h64, h8]
  · rw [if_neg h4, hw _ (by omega), Nat.testBit_two_pow_sub_one]
    by_cases h9 : j < num_blocks
    · simp [h64, h9]
    · have h8 : 64 * ((num_blocks - 1) / 64 + 1) ≤ j := by omega
      simp [h64, h8]

/-- What `mempool_available` returns for a fresh pool of `N` blocks: the `N` blocks and
the 64 positions of every bitmap word above the word of block `N - 1`. -/
theorem available_create (data_size num_blocks : Nat) (pool_mem : Bool) (area : Nat)
    (pool : mempool_t) (h : mempool_create data_size num_blocks pool_mem area = some pool) :
    mempool_available pool = num_blocks + (256 - 64 * ((num_blocks - 1) / 64 + 1)) := by
  obtain ⟨_, h2, h3, _⟩ := mempool_create_some _ _ _ _ _ h
  rw [mempool_available_eq]
  apply countP_below_or_above _ num_blocks (64 * ((num_blocks - 1) / 64 + 1)) 256
    (by omega) (by omega)
  · intro j hj
    rw [create_get_bit_all _ _ _ _ _ h j (by omega)]
    simp [hj]
  · intro j hj1 hj2
    rw [create_get_bit_all _ _ _ _ _ h j (by omega)]
    have : ¬ j < num_blocks := by omega
    have : ¬ 64 * ((num_blocks - 1) / 64 + 1) ≤ j := by omega
    simp [*]
  · intro j hj1 hj2
    rw [create_get_bit_all _ _ _ _ _ h j hj2]
    simp [hj1]

/-- A successful `mempool_alloc` lowers `mempool_available` by exactly one. -/
theorem available_alloc (pool : mempool_t) (for_hw : Bool) (h : pool_wf pool)
    (hs : (mempool_alloc pool for_hw).1 ≠ NULL) :
    mempool_available (mempool_alloc pool for_hw).2 + 1 = mempool_available pool := by
  rcases mempool_alloc_cases pool for_hw with ⟨h1, _⟩ | ⟨idx, h1, h2, h3, _, h5⟩
  · rw [h1] at hs; exact absurd rfl hs
  · rw [h5, mempool_available_eq, mempool_available_eq]
    have hlen : idx / 64 < pool.free_bitmap.length := by rw [h.1]; omega
    exact countP_range_remove _ _ idx h3
      (fun j => by simp only [alloc_result]; exact get_bit_clear_bit _ _ _ hlen) _ h1

/-! ## The effect of `mempool_free` on an allocated block -/

/-- When `mempool_free` resolves its pointer to block `i` and that block is allocated,
it sets free bit `i`, clears hw-owned bit `i`, keeps every other bit of both bitmaps,
and `mempool_available` grows by one. -/
theorem free_effect (pool : mempool_t) (p i : Nat) (h : pool_wf pool)
    (hi : free_index pool p = some i) (hb : get_bit pool.free_bitmap i = false) :
    (∀ j, get_bit (mempool_free pool p).free_bitmap j
      = (get_bit pool.free_bitmap j || decide (j = i))) ∧
    (∀ j, get_bit (mempool_free pool p).hw_owned_bitmap j
      = (get_bit pool.hw_owned_bitmap j && decide (j ≠ i))) ∧
    mempool_available (mempool_free pool p) = mempool_available pool + 1 := by
  have hlt := free_index_lt pool p i hi
  have hcount := h.2.2.2.1
  have hl1 : i / 64 < pool.free_bitmap.length := by rw [h.1]; omega
  have hl2 : i / 64 < pool.hw_owned_bitmap.length := by rw [h.2.1]; omega
  have hfree : mempool_free pool p = free_result pool i := by
    rw [mempool_free_eq, hi]
    dsimp only
    rw [if_neg (by rw [hb]; exact Bool.false_ne_true)]
  have hf : ∀ j, get_bit (free_result pool i).free_bitmap j
      = (get_bit pool.free_bitmap j || decide (j = i)) := by
    intro j
    simp only [free_result]
    exact get_bit_set_bit _ _ _ hl1
  rw [hfree]
  refine ⟨hf, ?_, ?_⟩
  · intro j
    simp only [free_result]
    by_cases hh : get_bit pool.hw_owned_bitmap i = true
    · rw [if_pos hh]
      exact get_bit_clear_bit _ _ _ hl2
    · rw [if_neg hh]
      by_cases hji : j = i
      · subst hji
        simp only [ne_eq, not_true_eq_false, decide_False, Bool.and_false]
        simpa using hh
      · simp [hji]
  · rw [mempool_available_eq, mempool_available_eq]
    symm
    apply countP_range_remove (fun j => get_bit (free_result pool i).free_bitmap j)
      (fun j => get_bit pool.free_bitmap j) i
    · rw [hf]; simp
    · intro j
      rw [hf]
      by_cases hji : j = i
      · subst hji; simp [hb]
      · simp [hji]
    · omega

/-- Without wrap-around of the arena size, freeing the address of an allocated block
`i` acts on block `i`. -/
theorem free_block_no_overflow (pool : mempool_t) (i : Nat) (hr : Reachable pool)
    (hn : no_overflow pool) (hi : i < pool.block_count)
    (hb : get_bit pool.free_bitmap i = false) :
    (∀ j, get_bit (mempool_free pool (block_ptr pool i)).free_bitmap j
      = (get_bit pool.free_bitmap j || decide (j = i))) ∧
    (∀ j, get_bit (mempool_free pool (block_ptr pool i)).hw_owned_bitmap j
      = (get_bit pool.hw_owned_bitmap j && decide (j ≠ i))) ∧
    mempool_available (mempool_free pool (block_ptr pool i)) = mempool_available pool + 1 :=
  free_effect pool (block_ptr pool i) i hr.wf (round_trip_no_overflow pool hr hn i hi).2 hb

/-! ## Which pointers `get_block_index` accepts -/

/-- For a pool whose arena lies in the address space, `get_block_index` accepts exactly
the non-null addresses inside `[memory_area, memory_area + block_size * block_count)`
(the product taken in `size_t`) and returns the quotient of the offset. -/
theorem get_block_index_eq (pool : mempool_t) (p : Nat) (hr : Reachable pool)
    (ha : arena_ok pool) (hp : p < SIZE_MOD) :
    get_block_index pool p =
      if p ≠ NULL ∧ pool.memory_area ≤ p ∧
          p < pool.memory_area + (pool.block_size * pool.block_count) % SIZE_MOD
      then some ((p - pool.memory_area) / pool.block_size) else none := by
  have hm := hr.area_lt
  have hcount := hr.wf.2.2.2.1
  unfold arena_ok at ha
  unfold get_block_index
  by_cases h0 : p = NULL
  · rw [if_pos h0, if_neg (fun h => h.1 h0)]
  rw [if_neg h0]
  dsimp only
  rw [Nat.mod_eq_of_lt hm]
  by_cases h1 : pool.memory_area ≤ p
  · have hoff : (p + (SIZE_MOD - pool.memory_area)) % SIZE_MOD = p - pool.memory_area := by
      have : p + (SIZE_MOD - pool.memory_area) = (p - pool.memory_area) + SIZE_MOD := by omega
      rw [this, Nat.add_mod_right, Nat.mod_eq_of_lt (by omega)]
    rw [hoff]
    by_cases h2 : p < pool.memory_area + (pool.block_size * pool.block_count) % SIZE_MOD
    · have h3 : ¬ p - pool.memory_area ≥ (pool.block_size * pool.block_count) % SIZE_MOD := by
        omega
      have hlt : p - pool.memory_area < pool.block_size * pool.block_count :=
        lt_of_lt_of_le (Nat.lt_of_not_ge h3) (Nat.mod_le _ _)
      have hq : (p - pool.memory_area) / pool.block_size < pool.block_count :=
        Nat.div_lt_of_lt_mul hlt
      have h4 : (p - pool.memory_area) / pool.block_size % 2 ^ 32
          = (p - pool.memory_area) / pool.block_size := Nat.mod_eq_of_lt (by omega)
      have h5 : (p - pool.memory_area) / pool.block_size < 2 ^ 31 := by omega
      have h6 : p ≠ NULL ∧ pool.memory_area ≤ p ∧
          p < pool.memory_area + (pool.block_size * pool.block_count) % SIZE_MOD :=
        ⟨h0, h1, h2⟩
      rw [if_neg h3, h4, if_pos h5, if_pos h6]
    · have h3 : p - pool.memory_area ≥ (pool.block_size * pool.block_count) % SIZE_MOD := by
        omega
      rw [if_pos h3, if_neg (fun h => h2 h.2.2)]
  · have hoff : (p + (SIZE_MOD - pool.memory_area)) % SIZE_MOD
        = p + (SIZE_MOD - pool.memory_area) := Nat.mod_eq_of_lt (by omega)
    have h3 : p + (SIZE_MOD - pool.memory_area)
        ≥ (pool.block_size * pool.block_count) % SIZE_MOD := by omega
    rw [hoff, if_pos h3, if_neg (fun h => h1 h.2.1)]

/-! ## Batch dequeue -/

theorem dequeue_loop_count (pool : mempool_t) :
    ∀ (n : Nat) (queue : mempool_queue_t), n ≤ queue.count →
      (dequeue_loop pool n queue).2.count = queue.count - n ∧
      (dequeue_loop pool n queue).1.length = n := by
  intro n
  induction n with
  | zero => intro queue _; exact ⟨rfl, rfl⟩
  | succ n ih =>
    intro queue hn
    have hc := count_do_dequeue pool queue (by omega)
    obtain ⟨i1, i2⟩ := ih (do_dequeue pool queue).2.2 (by rw [hc]; omega)
    simp only [dequeue_loop, List.length_cons]
    rw [i1, i2, hc]
    exact ⟨by omega, rfl⟩

theorem dequeue_batch_count (pool : mempool_t) (queue : mempool_queue_t)
    (buffers max_count : Nat) :
    (mempool_queue_dequeue_batch_with_length pool queue buffers max_count).2.2.count
      + (mempool_queue_dequeue_batch_with_length pool queue buffers max_count).1
      = queue.count := by
  unfold mempool_queue_dequeue_batch_with_length
  split
  · rfl
  · dsimp only
    split
    · rw [(dequeue_loop_count pool queue.count queue (le_refl _)).1]; omega
    · rw [(dequeue_loop_count pool max_count queue (by omega)).1]; omega

/-! ## Histories -/

theorem SysTrace.reachable {s : System} {e d : Nat} (h : SysTrace s e d) : SysReachable s := by
  induction h with
  | create pool capacity im lm queue hr h1 h2 hc =>
    exact SysReachable.create pool capacity im lm queue hr h1 h2 hc
  | alloc s e d fh _ ih => exact SysReachable.alloc s fh ih
  | free s e d ptr _ ih => exact SysReachable.free s ptr ih
  | enqueue s e d buffer len _ ih => exact SysReachable.enqueue s buffer len ih
  | dequeue s e d _ ih => exact SysReachable.dequeue s ih
  | dequeue_batch s e d buffers max_count _ ih =>
    exact SysReachable.dequeue_batch s buffers max_count ih

theorem SysReachable.trace {s : System} (h : SysReachable s) : ∃ e d, SysTrace s e d := by
  induction h with
  | create pool capacity im lm queue hr h1 h2 hc =>
    exact ⟨0, 0, SysTrace.create pool capacity im lm queue hr h1 h2 hc⟩
  | alloc s fh _ ih =>
    obtain ⟨e, d, ht⟩ := ih
    exact ⟨e, d, SysTrace.alloc s e d fh ht⟩
  | free s ptr _ ih =>
    obtain ⟨e, d, ht⟩ := ih
    exact ⟨e, d, SysTrace.free s e d ptr ht⟩
  | enqueue s buffer len _ ih =>
    obtain ⟨e, d, ht⟩ := ih
    exact ⟨_, d, SysTrace.enqueue s e d buffer len ht⟩
  | dequeue s _ ih =>
    obtain ⟨e, d, ht⟩ := ih
    exact ⟨e, _, SysTrace.dequeue s e d ht⟩
  | dequeue_batch s buffers max_count _ ih =>
    obtain ⟨e, d, ht⟩ := ih
    exact ⟨e, _, SysTrace.dequeue_batch s e d buffers max_count ht⟩

/-- The `count` field is the number of accepted enqueues minus the number of entries
handed back. -/
theorem SysTrace.count_eq {s : System} {e d : Nat} (h : SysTrace s e d) :
    s.queue.count + d = e := by
  induction h with
  | create pool capacity im lm queue hr h1 h2 hc =>
    rw [(queue_create_some _ _ _ _ _ _ hc).2.2.2.2.2.2.2.2.1]
  | alloc s e d fh _ ih => exact ih
  | free s e d ptr _ ih => exact ih
  | enqueue s e d buffer len ht ih =>
    obtain ⟨hr, hq⟩ := ht.reachable.inv
    dsimp only at ih ⊢
    unfold mempool_queue_enqueue_with_length
    cases hv : validate_queue_and_buffer s.pool s.queue buffer with
    | none =>
      dsimp only
      rw [if_neg (by decide)]
      exact ih
    | some idx =>
      dsimp only
      rw [if_pos rfl, do_enqueue_eq]
      dsimp only
      have hlt := (validate_some _ _ _ _ hv).2.1
      have hcap : s.queue.capacity ≤ 256 := le_trans hq.2.2.2.1 hr.wf.2.2.2.1
      have h256 : (256 : Nat) < SIZE_MOD := by norm_num [SIZE_MOD]
      rw [Nat.mod_eq_of_lt (by omega)]
      omega
  | dequeue s e d ht ih =>
    obtain ⟨hr, _⟩ := ht.reachable.inv
    dsimp only at ih ⊢
    unfold mempool_queue_dequeue_with_length
    by_cases hc : s.queue.count = 0
    · rw [if_pos hc]
      dsimp only
      rw [if_pos rfl]
      exact ih
    · rw [if_neg hc]
      have hne : (do_dequeue s.pool s.queue).1 ≠ NULL := by
        rw [do_dequeue_eq]
        exact block_ptr_ne_null s.pool _ hr.wf.2.2.2.2
      rw [if_neg hne, count_do_dequeue s.pool s.queue (by omega)]
      omega
  | dequeue_batch s e d buffers max_count _ ih =>
    dsimp only at ih ⊢
    have := dequeue_batch_count s.pool s.queue buffers max_count
    omega

/-! ## More concrete states -/

theorem demo_pool_arena_ok : arena_ok demo_pool := by decide

theorem demo_full_reachable : SysReachable demo_full :=
  SysReachable.enqueue ⟨(mempool_alloc (mempool_alloc demo_pool false).2 false).2, demo_queue1⟩
    4096 5
    (SysReachable.alloc ⟨(mempool_alloc demo_pool false).2, demo_queue1⟩ false
      (SysReachable.alloc ⟨demo_pool, demo_queue1⟩ false
        (SysReachable.create demo_pool 1 [0] [0] demo_queue1 demo_pool_reachable rfl rfl
          (by decide))))

theorem demo_live_trace : SysTrace demo_live 1 0 :=
  SysTrace.enqueue ⟨(mempool_alloc demo_pool false).2, demo_queue⟩ 0 0 4096 5
    (SysTrace.alloc ⟨demo_pool, demo_queue⟩ 0 0 false
      (SysTrace.create demo_pool 2 [0, 0] [0, 0] demo_queue demo_pool_reachable rfl rfl
        (by decide)))

/-! ## Bit-level effect of handing out and giving back a block -/

theorem get_bit_out_of_range (a : List Nat) (j : Nat) (ha : a.length ≤ 4) (hj : 256 ≤ j) :
    get_bit a j = false := by
  unfold get_bit word
  have : a.length ≤ j / 64 := by omega
  rw [List.getD_eq_getElem?_getD, List.getElem?_eq_none this]
  simp

theorem alloc_result_bits (pool : mempool_t) (for_hw : Bool) (idx j : Nat)
    (h : pool_wf pool) (hidx : idx < pool.block_count) :
    get_bit (alloc_result pool for_hw idx).free_bitmap j
      = (get_bit pool.free_bitmap j && decide (j ≠ idx)) ∧
    get_bit (alloc_result pool for_hw idx).hw_owned_bitmap j
      = (get_bit pool.hw_owned_bitmap j || (for_hw && decide (j = idx))) := by
  have hc := h.2.2.2.1
  have l1 : idx / 64 < pool.free_bitmap.length := by rw [h.1]; omega
  have l2 : idx / 64 < pool.hw_owned_bitmap.length := by rw [h.2.1]; omega
  constructor
  · simp only [alloc_result]
    exact get_bit_clear_bit _ _ _ l1
  · cases for_hw
    · simp [alloc_result]
    · simp only [alloc_result, if_true, Bool.true_and]
      exact get_bit_set_bit _ _ _ l2

theorem free_result_bits (pool : mempool_t) (idx j : Nat)
    (h : pool_wf pool) (hidx : idx < pool.block_count) :
    get_bit (free_result pool idx).free_bitmap j
      = (get_bit pool.free_bitmap j || decide (j = idx)) ∧
    get_bit (free_result pool idx).hw_owned_bitmap j
      = (get_bit pool.hw_owned_bitmap j && decide (j ≠ idx)) := by
  have hc := h.2.2.2.1
  have l1 : idx / 64 < pool.free_bitmap.length := by rw [h.1]; omega
  have l2 : idx / 64 < pool.hw_owned_bitmap.length := by rw [h.2.1]; omega
  constructor
  · simp only [free_result]
    exact get_bit_set_bit _ _ _ l1
  · simp only [free_result]
    by_cases hb : get_bit pool.hw_owned_bitmap idx = true
    · rw [if_pos hb]
      exact get_bit_clear_bit _ _ _ l2
    · rw [if_neg hb]
      by_cases hji : j = idx
      · subst hji
        simp at hb
        simp [hb]
      · simp [hji]

/-- No block of a reachable pool has both its free bit and its hw-owned bit set. -/
theorem Reachable.exclusive {pool : mempool_t} (h : Reachable pool) :
    ∀ i, ¬ (get_bit pool.free_bitmap i = true ∧ get_bit pool.hw_owned_bitmap i = true) := by
  induction h with
  | create data_size num_blocks pool_mem area pool _ _ hc =>
    intro i hi
    obtain ⟨_, _, _, _, _, _, _, _, _, h10, _⟩ := mempool_create_some _ _ _ _ _ hc
    rw [h10, get_bit_zeros] at hi
    exact Bool.false_ne_true hi.2
  | alloc pool for_hw hr ih =>
    intro i hi
    rcases mempool_alloc_cases pool for_hw with ⟨h1, _⟩ | ⟨idx, _, h2, _, _, h5⟩
    · rw [h1] at hi; exact ih i hi
    · rw [h5] at hi
      obtain ⟨b1, b2⟩ := alloc_result_bits pool for_hw idx i hr.wf h2
      rw [b1, b2] at hi
      obtain ⟨hi1, hi2⟩ := hi
      simp only [Bool.and_eq_true, decide_eq_true_eq] at hi1
      have hne : decide (i = idx) = false := by simp [hi1.2]
      rw [hne, Bool.and_false, Bool.or_false] at hi2
      exact ih i ⟨hi1.1, hi2⟩
  | free pool ptr hr ih =>
    intro i hi
    rw [mempool_free_eq] at hi
    cases hf : free_index pool ptr with
    | none => rw [hf] at hi; exact ih i hi
    | some idx =>
      rw [hf] at hi
      dsimp only at hi
      by_cases hb : get_bit pool.free_bitmap idx = true
      · rw [if_pos hb] at hi; exact ih i hi
      · rw [if_neg hb] at hi
        obtain ⟨b1, b2⟩ := free_result_bits pool idx i hr.wf (free_index_lt pool ptr idx hf)
        rw [b1, b2] at hi
        obtain ⟨hi1, hi2⟩ := hi
        simp only [Bool.and_eq_true, decide_eq_true_eq] at hi2
        have hne : decide (i = idx) = false := by simp [hi2.2]
        rw [hne, Bool.or_false] at hi1
        exact ih i ⟨hi1, hi2.1⟩

/-! ## Allocation order -/

theorem alloc_seq_from : ∀ (fs : List Bool) (pool : mempool_t) (k : Nat), pool_wf pool →
    (∀ j, j < pool.block_count → get_bit pool.free_bitmap j = decide (k ≤ j)) →
    k + fs.length ≤ pool.block_count →
    (alloc_seq pool fs).1 = (List.range fs.length).map (fun t => block_ptr pool (k + t)) := by
  intro fs
  induction fs with
  | nil => intro pool k _ _ _; rfl
  | cons f fs ih =>
    intro pool k hw hbits hlen
    simp only [List.length_cons] at hlen
    have hk : k < pool.block_count := by omega
    have hc := hw.2.2.2.1
    have hbk : get_bit pool.free_bitmap k = true := by rw [hbits k hk]; simp
    rcases mempool_alloc_cases pool f with ⟨_, h2⟩ | ⟨idx, _, h2, h3, h4, h5⟩
    · rw [h2 k (by omega) hk] at hbk
      exact absurd hbk Bool.false_ne_true
    · have hidx : idx = k := by
        have h6 : k ≤ idx := by
          have := hbits idx h2
          rw [h3] at this
          simpa using this.symm
        rcases Nat.lt_or_ge k idx with hlt | hge
        · rw [h4 k hlt] at hbk
          exact absurd hbk Bool.false_ne_true
        · omega
      subst hidx
      have hw2 : pool_wf (mempool_alloc pool f).2 := pool_wf_alloc pool f hw
      have hrec := ih (mempool_alloc pool f).2 (idx + 1) hw2
      rw [h5] at hrec hw2
      have hbits2 : ∀ j, j < (alloc_result pool f idx).block_count →
          get_bit (alloc_result pool f idx).free_bitmap j = decide (idx + 1 ≤ j) := by
        intro j hj
        have hj2 : j < pool.block_count := hj
        rw [(alloc_result_bits pool f idx j hw h2).1, hbits j hj2]
        by_cases c1 : idx ≤ j <;> by_cases c2 : j = idx <;> simp [c1, c2] <;> omega
      have hrec2 := hrec hbits2 (by show idx + 1 + fs.length ≤ pool.block_count; omega)
      simp only [alloc_seq, List.length_cons]
      rw [h5, hrec2, List.range_succ_eq_map, List.map_cons, List.map_map]
      refine congrArg₂ _ rfl ?_
      apply List.map_congr_left
      intro t _
      simp only [Function.comp, block_ptr, alloc_result]
      rw [show idx + 1 + t = idx + (t + 1) by omega]

/-- A fresh pool hands out its blocks in ascending index order. -/
theorem fresh_alloc_order (data_size num_blocks : Nat) (pool_mem : Bool) (area : Nat)
    (pool : mempool_t) (h : mempool_create data_size num_blocks pool_mem area = some pool)
    (fs : List Bool) (hfs : fs.length ≤ num_blocks) :
    (alloc_seq pool fs).1 = (List.range fs.length).map (fun t => block_ptr pool t) := by
  have hn := (mempool_create_some _ _ _ _ _ h).2.2.2.2.2.2.2.2.1
  have := alloc_seq_from fs pool 0 (pool_wf_create _ _ _ _ _ h)
    (fun j hj => by
      rw [create_get_bit _ _ _ _ _ h j (by omega)]
      simp)
    (by omega)
  simpa using this

/-- Without wrap-around, every block lies inside the arena. -/
theorem block_in_arena_no_overflow (pool : mempool_t) (h : no_overflow pool) (i : Nat)
    (hi : i < pool.block_count) :
    (i * pool.block_size) % SIZE_MOD ≤ pool.block_size * (pool.block_count - 1) ∧
    block_ptr pool i + pool.block_size
      ≤ pool.memory_area + (pool.block_size * pool.block_count) % SIZE_MOD := by
  have h1 : (i + 1) * pool.block_size ≤ pool.block_count * pool.block_size :=
    Nat.mul_le_mul_right _ (by omega)
  have h2 : i * pool.block_size ≤ (pool.block_count - 1) * pool.block_size :=
    Nat.mul_le_mul_right _ (by omega)
  rw [Nat.add_mul, Nat.one_mul] at h1
  rw [Nat.mul_comm pool.block_count] at h1
  rw [Nat.mul_comm (pool.block_count - 1)] at h2
  have h3 : i * pool.block_size < SIZE_MOD := by
    have := h.2
    have := h.1
    omega
  unfold block_ptr
  rw [Nat.mod_eq_of_lt h3, Nat.mod_eq_of_lt h.2]
  exact ⟨h2, by omega⟩

/-! ## Counting membership bits -/

theorem countP_mem_nodup : ∀ (L : List Nat) (n : Nat), L.Nodup → (∀ i ∈ L, i < n) →
    (List.range n).countP (fun i => decide (i ∈ L)) = L.length := by
  intro L
  induction L with
  | nil =>
    intro n _ _
    simp
  | cons a L ih =>
    intro n hnd hlt
    have ha : a ∉ L := (List.nodup_cons.1 hnd).1
    have h1 := ih n (List.nodup_cons.1 hnd).2 (fun i hi => hlt i (List.mem_cons_of_mem _ hi))
    have h2 := countP_range_remove (fun i => decide (i ∈ a :: L)) (fun i => decide (i ∈ L)) a
      (by simp)
      (fun j => by
        by_cases hj : j = a
        · subst hj; simp [ha]
        · simp [hj])
      n (hlt a (List.mem_cons_self _ _))
    rw [List.length_cons, ← h1, ← h2]

theorem length_q_entries (queue : mempool_queue_t) : (q_entries queue).length = queue.count := by
  simp [q_entries]

/-- The number of set membership bits of a queue is its `count`. -/
theorem bitmap_count_queue (pool : mempool_t) (queue : mempool_queue_t)
    (hp : pool_wf pool) (hq : queue_wf pool queue) :
    bitmap_count queue.queue_bitmap = queue.count := by
  obtain ⟨_, _, _, _, _, _, _, _, q9, q10, q11, _⟩ := hq
  unfold bitmap_count
  have hc := hp.2.2.2.1
  rw [countP_range_congr (fun i => decide (i ∈ (q_entries queue).map Prod.fst)) _ 256
    (fun j _ => by
      by_cases hj : j ∈ (q_entries queue).map Prod.fst
      · rw [(q9 j).2 hj]; simp [hj]
      · have : get_bit queue.queue_bitmap j = false := by
          rcases hb : get_bit queue.queue_bitmap j with _ | _
          · rfl
          · exact absurd ((q9 j).1 hb) hj
        rw [this]; simp [hj])]
  rw [countP_mem_nodup _ 256 q10 (fun i hi => by have := q11 i hi; omega)]
  rw [List.length_map, length_q_entries]

/-! ## One call at a time against the batch loop -/

theorem dequeue_split (pool : mempool_t) (queue : mempool_queue_t) :
    mempool_queue_dequeue_with_length pool queue =
      if dequeue_unlocked_check queue = true then (NULL, 0, queue)
      else do_dequeue pool queue := by
  unfold mempool_queue_dequeue_with_length dequeue_unlocked_check
  by_cases h : queue.count = 0
  · simp [h]
  · simp [h]

theorem dequeue_loop_eq_repeat (pool : mempool_t) : ∀ (n : Nat) (queue : mempool_queue_t),
    n ≤ queue.count → dequeue_loop pool n queue = dequeue_repeat pool n queue := by
  intro n
  induction n with
  | zero => intro queue _; rfl
  | succ n ih =>
    intro queue hn
    have hd : mempool_queue_dequeue_with_length pool queue = do_dequeue pool queue := by
      unfold mempool_queue_dequeue_with_length
      rw [if_neg (by omega)]
    have hc := count_do_dequeue pool queue (by omega)
    simp only [dequeue_loop, dequeue_repeat]
    rw [hd, ih (do_dequeue pool queue).2.2 (by omega)]

/-- A block that has just been dequeued is accepted by the next enqueue. -/
theorem reenqueue_after_dequeue (pool : mempool_t) (queue : mempool_queue_t)
    (data_length : Nat) (hr : Reachable pool) (hq : queue_wf pool queue)
    (hc : 0 < queue.count) :
    mempool_queue_enqueue_with_length pool
        (mempool_queue_dequeue_with_length pool queue).2.2
        (mempool_queue_dequeue_with_length pool queue).1 data_length
      = (0, do_enqueue (mempool_queue_dequeue_with_length pool queue).2.2
          (word queue.block_indices queue.head) data_length) := by
  have hp := hr.wf
  have hd : mempool_queue_dequeue_with_length pool queue = do_dequeue pool queue := by
    unfold mempool_queue_dequeue_with_length
    rw [if_neg (by omega)]
  rw [hd]
  have hq2 := queue_wf_do_dequeue pool queue hp hq hc
  have hcnt := count_do_dequeue pool queue hc
  obtain ⟨_, _, _, _, q5, q6, _, _, _, q10, _, q12⟩ := hq
  have he := q_entries_do_dequeue pool queue q5 hc
  have hptr : (do_dequeue pool queue).1 = block_ptr pool (word queue.block_indices queue.head) := by
    rw [do_dequeue_eq]
  have hcap : (do_dequeue pool queue).2.2.capacity = queue.capacity := by
    rw [do_dequeue_eq]
  have hmem : word queue.block_indices queue.head ∈ (q_entries queue).map Prod.fst := by
    rw [he]; simp
  have hgeo := q12 _ hmem
  have hnot : word queue.block_indices queue.head ∉
      (q_entries (do_dequeue pool queue).2.2).map Prod.fst := by
    rw [he, List.map_cons, List.nodup_cons] at q10
    exact q10.1
  have hbit : get_bit (do_dequeue pool queue).2.2.queue_bitmap
      (word queue.block_indices queue.head) = false := by
    rcases hb : get_bit (do_dequeue pool queue).2.2.queue_bitmap
      (word queue.block_indices queue.head) with _ | _
    · rfl
    · exact absurd ((hq2.2.2.2.2.2.2.2.2.1 _).1 hb) hnot
  have hv : validate_queue_and_buffer pool (do_dequeue pool queue).2.2 (do_dequeue pool queue).1
      = some (word queue.block_indices queue.head) := by
    rw [validate_eq, hptr,
      get_block_index_block_ptr pool _ hp.2.2.2.2 hr.area_lt hp.2.2.2.1 hgeo]
    have hn := block_ptr_ne_null pool (word queue.block_indices queue.head) hp.2.2.2.2
    rw [if_neg (by
      rintro (h | h)
      · exact hn h
      · rw [hcnt, hcap] at h; omega)]
    dsimp only
    rw [if_neg (by have := (geo_facts pool _ hgeo).2.1; omega), hbit]
    simp
  unfold mempool_queue_enqueue_with_length
  rw [hv]

/-! ## The population count by parallel field sums -/

theorem and_split (k a b : Nat) :
    a &&& b = (a % 2 ^ k &&& b % 2 ^ k) + 2 ^ k * ((a / 2 ^ k) &&& (b / 2 ^ k)) := by
  have hlt : a % 2 ^ k &&& b % 2 ^ k < 2 ^ k :=
    lt_of_le_of_lt Nat.and_le_left (Nat.mod_lt _ (Nat.two_pow_pos k))
  apply Nat.eq_of_testBit_eq
  intro j
  rw [Nat.add_comm, Nat.testBit_mul_pow_two_add _ hlt, Nat.testBit_and]
  by_cases hj : j < k
  · rw [if_pos hj, Nat.testBit_and, Nat.testBit_mod_two_pow, Nat.testBit_mod_two_pow]
    simp [hj]
  · rw [if_neg hj, Nat.testBit_and, ← Nat.shiftRight_eq_div_pow, ← Nat.shiftRight_eq_div_pow,
      Nat.testBit_shiftRight, Nat.testBit_shiftRight]
    rw [show k + (j - k) = j by omega]

theorem swar_step_succ (w n a b y : Nat) (ha : a < 2 ^ w) (hb : b < 2 ^ w) :
    swar_step w (n + 1) (a + 2 ^ w * (b + 2 ^ w * y))
      = (a + b) + 2 ^ (2 * w) * swar_step w n y := by
  have hW : 0 < 2 ^ w := Nat.two_pow_pos w
  have h2 : 2 ^ (2 * w) = 2 ^ w * 2 ^ w := by rw [two_mul, pow_add]
  have hW2 : 0 < 2 ^ (2 * w) := Nat.two_pow_pos _
  -- the mask
  have hm1 : swar_mask w (n + 1) % 2 ^ (2 * w) = 2 ^ w - 1 := by
    simp only [swar_mask]
    rw [Nat.add_mul_mod_self_left]
    apply Nat.mod_eq_of_lt
    rw [h2]
    have : 2 ^ w ≤ 2 ^ w * 2 ^ w := Nat.le_mul_of_pos_left _ hW
    omega
  have hm2 : swar_mask w (n + 1) / 2 ^ (2 * w) = swar_mask w n := by
    simp only [swar_mask]
    rw [Nat.add_mul_div_left _ _ hW2, Nat.div_eq_of_lt, Nat.zero_add]
    rw [h2]
    have : 2 ^ w ≤ 2 ^ w * 2 ^ w := Nat.le_mul_of_pos_left _ hW
    omega
  -- the word
  have hab : a + 2 ^ w * b < 2 ^ (2 * w) := by
    rw [h2]
    have : 2 ^ w * (b + 1) ≤ 2 ^ w * 2 ^ w := Nat.mul_le_mul_left _ hb
    rw [Nat.mul_add, Nat.mul_one] at this
    omega
  have hy : a + 2 ^ w * (b + 2 ^ w * y) = (a + 2 ^ w * b) + 2 ^ (2 * w) * y := by
    rw [h2, Nat.mul_add, Nat.mul_assoc, Nat.add_assoc]
  have hy1 : (a + 2 ^ w * (b + 2 ^ w * y)) % 2 ^ (2 * w) = a + 2 ^ w * b := by
    rw [hy, Nat.add_mul_mod_self_left, Nat.mod_eq_of_lt hab]
  have hy2 : (a + 2 ^ w * (b + 2 ^ w * y)) / 2 ^ (2 * w) = y := by
    rw [hy, Nat.add_mul_div_left _ _ hW2, Nat.div_eq_of_lt hab, Nat.zero_add]
  have hs : (a + 2 ^ w * (b + 2 ^ w * y)) >>> w = b + 2 ^ w * y := by
    rw [Nat.shiftRight_eq_div_pow, Nat.add_mul_div_left _ _ hW, Nat.div_eq_of_lt ha,
      Nat.zero_add]
  have hbm : (b + 2 ^ w * y) % 2 ^ (2 * w) = b + 2 ^ w * (y % 2 ^ w) := by
    have e : b + 2 ^ w * y = (b + 2 ^ w * (y % 2 ^ w)) + 2 ^ (2 * w) * (y / 2 ^ w) := by
      rw [h2, Nat.mul_assoc, Nat.add_assoc, ← Nat.mul_add, Nat.mod_add_div]
    have hlt : b + 2 ^ w * (y % 2 ^ w) < 2 ^ (2 * w) := by
      rw [h2]
      have h3 : y % 2 ^ w < 2 ^ w := Nat.mod_lt _ hW
      have : 2 ^ w * (y % 2 ^ w + 1) ≤ 2 ^ w * 2 ^ w := Nat.mul_le_mul_left _ h3
      rw [Nat.mul_add, Nat.mul_one] at this
      omega
    rw [e, Nat.add_mul_mod_self_left, Nat.mod_eq_of_lt hlt]
  have hbd : (b + 2 ^ w * y) / 2 ^ (2 * w) = y >>> w := by
    rw [h2, ← Nat.div_div_eq_div_mul, Nat.add_mul_div_left _ _ hW, Nat.div_eq_of_lt hb,
      Nat.zero_add, Nat.shiftRight_eq_div_pow]
  have e1 : (a + 2 ^ w * (b + 2 ^ w * y)) &&& swar_mask w (n + 1)
      = a + 2 ^ (2 * w) * (y &&& swar_mask w n) := by
    rw [and_split (2 * w), hy1, hy2, hm1, hm2, Nat.and_pow_two_sub_one_eq_mod,
      Nat.add_mul_mod_self_left, Nat.mod_eq_of_lt ha]
  have e2 : (b + 2 ^ w * y) &&& swar_mask w (n + 1)
      = b + 2 ^ (2 * w) * ((y >>> w) &&& swar_mask w n) := by
    rw [and_split (2 * w), hbm, hbd, hm1, hm2, Nat.and_pow_two_sub_one_eq_mod,
      Nat.add_mul_mod_self_left, Nat.mod_eq_of_lt hb]
  show ((a + 2 ^ w * (b + 2 ^ w * y)) &&& swar_mask w (n + 1))
      + (((a + 2 ^ w * (b + 2 ^ w * y)) >>> w) &&& swar_mask w (n + 1)) = _
  rw [hs, e1, e2]
  unfold swar_step
  rw [Nat.mul_add]
  omega

theorem bit_count_le (w x : Nat) : bit_count w x ≤ w := by
  unfold bit_count
  exact le_trans (List.countP_le_length _) (by simp)

theorem bit_count_lt (w x : Nat) : bit_count w x < 2 ^ w :=
  lt_of_le_of_lt (bit_count_le w x) (Nat.lt_two_pow w)

theorem bit_count_double (w x : Nat) :
    bit_count (2 * w) x = bit_count w x + bit_count w (x / 2 ^ w) := by
  unfold bit_count
  rw [two_mul, List.range_add, List.countP_append, List.countP_map]
  refine congrArg _ ?_
  apply List.countP_congr
  intro j _
  simp only [Function.comp]
  rw [← Nat.shiftRight_eq_div_pow, Nat.testBit_shiftRight]

theorem field_counts_step (w : Nat) : ∀ (n x : Nat),
    swar_step w n (field_counts w (2 * n) x) = field_counts (2 * w) n x := by
  intro n
  induction n with
  | zero =>
    intro x
    simp [swar_step, swar_mask, field_counts]
  | succ n ih =>
    intro x
    have e : 2 * (n + 1) = 2 * n + 1 + 1 := by omega
    rw [e]
    simp only [field_counts]
    rw [swar_step_succ w n _ _ _ (bit_count_lt w x) (bit_count_lt w _), ih,
      Nat.div_div_eq_div_mul, bit_count_double, two_mul, pow_add]

theorem field_counts_one : ∀ (n x : Nat), field_counts 1 n x = x % 2 ^ n := by
  intro n
  induction n with
  | zero => intro x; simp [field_counts, Nat.mod_one]
  | succ n ih =>
    intro x
    have hr : List.range 1 = [0] := rfl
    have hb : bit_count 1 x = x % 2 := by
      simp only [bit_count, hr, List.countP_cons, List.countP_nil, Nat.testBit_zero]
      rcases Nat.mod_two_eq_zero_or_one x with h | h <;> simp [h]
    simp only [field_counts]
    rw [ih, hb, pow_one, pow_succ, Nat.mul_comm (2 ^ n) 2, Nat.mod_mul]

theorem swar_masks :
    swar_mask 1 32 = 0x5555555555555555 ∧ swar_mask 2 16 = 0x3333333333333333 ∧
    swar_mask 4 8 = 0x0F0F0F0F0F0F0F0F ∧ swar_mask 8 4 = 0x00FF00FF00FF00FF ∧
    swar_mask 16 2 = 0x0000FFFF0000FFFF ∧ swar_mask 32 1 = 0x00000000FFFFFFFF := by
  decide

theorem swar_step_lt (w n y : Nat) (h : swar_mask w n < 2 ^ 63) :
    swar_step w n y < SIZE_MOD := by
  unfold swar_step
  have h1 : y &&& swar_mask w n ≤ swar_mask w n := Nat.and_le_right
  have h2 : (y >>> w) &&& swar_mask w n ≤ swar_mask w n := Nat.and_le_right
  have : (2 : Nat) ^ 63 + 2 ^ 63 = SIZE_MOD := by norm_num [SIZE_MOD]
  omega

/-- The generic population count is the number of set bits of a 64-bit word. -/
theorem popcount_ll_generic_eq (x : Nat) (hx : x < SIZE_MOD) :
    popcount_ll_generic x = ((bit_count 64 x : Nat) : Int) := by
  obtain ⟨m1, m2, m3, m4, m5, m6⟩ := swar_masks
  have s1 := field_counts_step 1 32 x
  have s2 := field_counts_step 2 16 x
  have s3 := field_counts_step 4 8 x
  have s4 := field_counts_step 8 4 x
  have s5 := field_counts_step 16 2 x
  have s6 := field_counts_step 32 1 x
  norm_num only at s1 s2 s3 s4 s5 s6
  have h0 : field_counts 1 64 x = x := by
    rw [field_counts_one]; exact Nat.mod_eq_of_lt hx
  rw [h0] at s1
  have l1 := swar_step_lt 1 32 x (by rw [m1]; norm_num)
  have l2 := swar_step_lt 2 16 (field_counts 2 32 x) (by rw [m2]; norm_num)
  have l3 := swar_step_lt 4 8 (field_counts 4 16 x) (by rw [m3]; norm_num)
  have l4 := swar_step_lt 8 4 (field_counts 8 8 x) (by rw [m4]; norm_num)
  have l5 := swar_step_lt 16 2 (field_counts 16 4 x) (by rw [m5]; norm_num)
  have l6 := swar_step_lt 32 1 (field_counts 32 2 x) (by rw [m6]; norm_num)
  have hlast : field_counts 64 1 x = bit_count 64 x := by
    simp [field_counts]
  have hle := bit_count_le 64 x
  unfold swar_step at s1 s2 s3 s4 s5 s6 l1 l2 l3 l4 l5 l6
  rw [m1] at s1 l1
  rw [m2] at s2 l2
  rw [m3] at s3 l3
  rw [m4] at s4 l4
  rw [m5] at s5 l5
  rw [m6] at s6 l6
  unfold popcount_ll_generic
  dsimp only
  rw [Nat.mod_eq_of_lt l1, s1, Nat.mod_eq_of_lt l2, s2, Nat.mod_eq_of_lt l3, s3,
    Nat.mod_eq_of_lt l4, s4, Nat.mod_eq_of_lt l5, s5, Nat.mod_eq_of_lt l6, s6, hlast]
  have h32 : bit_count 64 x % 2 ^ 32 = bit_count 64 x := Nat.mod_eq_of_lt (by omega)
  rw [h32, if_pos (by omega)]

/-! ## No division by zero -/

theorem mempool_free_checked_eq (pool : mempool_t) (ptr : Nat) :
    mempool_free_checked pool ptr = some (mempool_free pool ptr) := by
  unfold mempool_free_checked mempool_free
  by_cases h1 : ptr = NULL
  · rw [if_pos h1, if_pos h1]
  rw [if_neg h1, if_neg h1]
  by_cases h2 : ptr < pool.memory_area ∨
      ptr ≥ pool.memory_area + (pool.block_size * pool.block_count) % SIZE_MOD
  · rw [if_pos h2, if_pos h2]
  rw [if_neg h2, if_neg h2]
  have hbs : pool.block_size ≠ 0 := by
    intro h0
    apply h2
    rw [h0, Nat.zero_mul, Nat.zero_mod]
    omega
  dsimp only
  rw [if_neg hbs]
  split
  · rfl
  · split
    · rfl
    · rfl

theorem get_block_index_checked_eq (pool : mempool_t) (buffer : Nat) :
    get_block_index_checked pool buffer = some (get_block_index pool buffer) := by
  unfold get_block_index_checked get_block_index
  by_cases h1 : buffer = NULL
  · rw [if_pos h1, if_pos h1]
  rw [if_neg h1, if_neg h1]
  dsimp only
  by_cases h2 : (buffer + (SIZE_MOD - pool.memory_area % SIZE_MOD)) % SIZE_MOD
      ≥ (pool.block_size * pool.block_count) % SIZE_MOD
  · rw [if_pos h2, if_pos h2]
  rw [if_neg h2, if_neg h2]
  have hbs : pool.block_size ≠ 0 := by
    intro h0
    apply h2
    rw [h0, Nat.zero_mul, Nat.zero_mod]
    exact Nat.zero_le _
  rw [if_neg hbs]
  split
  · rfl
  · rfl

/-! ## The hw-owned bitmap has no influence -/

theorem alloc_hw_independent (p1 p2 : mempool_t) (f1 f2 : Bool)
    (hf : p2.free_bitmap = p1.free_bitmap) (hc : p2.block_count = p1.block_count)
    (hm : p2.memory_area = p1.memory_area) (hs : p2.block_size = p1.block_size) :
    (mempool_alloc p2 f2).1 = (mempool_alloc p1 f1).1 ∧
    (mempool_alloc p2 f2).2.free_bitmap = (mempool_alloc p1 f1).2.free_bitmap := by
  rcases mempool_alloc_cases p1 f1 with ⟨a1, a2⟩ | ⟨i1, a1, a2, a3, a4, a5⟩ <;>
    rcases mempool_alloc_cases p2 f2 with ⟨b1, b2⟩ | ⟨i2, b1, b2, b3, b4, b5⟩
  · rw [a1, b1]; exact ⟨rfl, hf⟩
  · rw [hc] at b2
    rw [hf] at b3
    rw [a2 i2 b1 b2] at b3
    exact absurd b3 Bool.false_ne_true
  · rw [hf, hc] at b2
    rw [b2 i1 a1 a2] at a3
    exact absurd a3 Bool.false_ne_true
  · rw [hf] at b3 b4
    have e : i2 = i1 := by
      rcases Nat.lt_trichotomy i2 i1 with h | h | h
      · rw [a4 i2 h] at b3; exact absurd b3 Bool.false_ne_true
      · exact h
      · rw [b4 i1 h] at a3; exact absurd a3 Bool.false_ne_true
    subst e
    rw [a5, b5]
    simp only [block_ptr, alloc_result, hf, hm, hs]
    exact ⟨trivial, trivial⟩

theorem free_hw_independent (p1 p2 : mempool_t) (ptr : Nat)
    (hf : p2.free_bitmap = p1.free_bitmap) (hc : p2.block_count = p1.block_count)
    (hm : p2.memory_area = p1.memory_area) (hs : p2.block_size = p1.block_size) :
    (mempool_free p2 ptr).free_bitmap = (mempool_free p1 ptr).free_bitmap := by
  have hi : free_index p2 ptr = free_index p1 ptr := by
    unfold free_index
    rw [hc, hm, hs]
  rw [mempool_free_eq, mempool_free_eq, hi]
  cases free_index p1 ptr with
  | none => exact hf
  | some idx =>
    dsimp only
    rw [hf]
    split
    · exact hf
    · simp only [free_result, hf]

theorem available_hw_independent (p1 p2 : mempool_t)
    (hf : p2.free_bitmap = p1.free_bitmap) (hc : p2.block_count = p1.block_count) :
    mempool_available p2 = mempool_available p1 ∧ mempool_used p2 = mempool_used p1 := by
  have h : mempool_available p2 = mempool_available p1 := by
    unfold mempool_available
    rw [hf]
  refine ⟨h, ?_⟩
  unfold mempool_used
  rw [h, hc]

/-! ## Pointers inside a block -/

/-- Without wrap-around, every address inside block `i` resolves to `i`. -/
theorem free_index_interior_no_overflow (pool : mempool_t) (i p : Nat)
    (hm : pool.memory_area ≠ NULL) (hn : no_overflow pool) (hi : i < pool.block_count)
    (h1 : block_ptr pool i ≤ p) (h2 : p < block_ptr pool i + pool.block_size) :
    free_index pool p = some i := by
  obtain ⟨n1, n2⟩ := hn
  have hle : (i + 1) * pool.block_size ≤ pool.block_count * pool.block_size :=
    Nat.mul_le_mul_right _ (by omega)
  rw [Nat.add_mul, Nat.one_mul, Nat.mul_comm pool.block_count] at hle
  have hib : i * pool.block_size < SIZE_MOD := by omega
  have hp : block_ptr pool i = pool.memory_area + i * pool.block_size := by
    unfold block_ptr; rw [Nat.mod_eq_of_lt hib]
  rw [hp] at h1 h2
  have hoff : (p - pool.memory_area) % SIZE_MOD = p - pool.memory_area :=
    Nat.mod_eq_of_lt (by omega)
  have hdiv : (p - pool.memory_area) / pool.block_size = i := by
    apply Nat.div_eq_of_lt_le
    · omega
    · rw [Nat.add_mul, Nat.one_mul]; omega
  unfold free_index
  simp only [NULL] at hm ⊢
  rw [if_neg (by omega), Nat.mod_eq_of_lt n2, if_neg (by omega), hoff, hdiv,
    if_neg (by omega)]

/-- Without wrap-around, `mempool_free` of any address inside an allocated block `i`
sets free bit `i`, clears hw-owned bit `i` and changes no other bit. -/
theorem free_interior_no_overflow (pool : mempool_t) (i p : Nat) (hr : Reachable pool)
    (hn : no_overflow pool) (hi : i < pool.block_count)
    (hb : get_bit pool.free_bitmap i = false)
    (h1 : block_ptr pool i ≤ p) (h2 : p < block_ptr pool i + pool.block_size) :
    (∀ j, get_bit (mempool_free pool p).free_bitmap j
      = (get_bit pool.free_bitmap j || decide (j = i))) ∧
    (∀ j, get_bit (mempool_free pool p).hw_owned_bitmap j
      = (get_bit pool.hw_owned_bitmap j && decide (j ≠ i))) ∧
    mempool_available (mempool_free pool p) = mempool_available pool + 1 :=
  free_effect pool p i hr.wf
    (free_index_interior_no_overflow pool i p hr.wf.2.2.2.2 hn hi h1 h2) hb

/-- Without wrap-around, `mempool_alloc` followed by `mempool_free` of the returned
pointer gives back every bit of both bitmaps. -/
theorem alloc_free_restores_no_overflow (pool : mempool_t) (for_hw : Bool)
    (hr : Reachable pool) (hn : no_overflow pool)
    (h : (mempool_alloc pool for_hw).1 ≠ NULL) (j : Nat) :
    get_bit (mempool_free (mempool_alloc pool for_hw).2
        (mempool_alloc pool for_hw).1).free_bitmap j = get_bit pool.free_bitmap j ∧
    get_bit (mempool_free (mempool_alloc pool for_hw).2
        (mempool_alloc pool for_hw).1).hw_owned_bitmap j = get_bit pool.hw_owned_bitmap j := by
  rcases mempool_alloc_cases pool for_hw with ⟨a1, _⟩ | ⟨i, _, a2, a3, _, a5⟩
  · rw [a1] at h; exact absurd rfl h
  · have hr2 : Reachable (mempool_alloc pool for_hw).2 := Reachable.alloc pool for_hw hr
    have hbits := fun k => alloc_result_bits pool for_hw i k hr.wf a2
    have hhw : get_bit pool.hw_owned_bitmap i = false := by
      rcases hh : get_bit pool.hw_owned_bitmap i with _ | _
      · rfl
      · exact absurd ⟨a3, hh⟩ (hr.exclusive i)
    rw [a5] at hr2 ⊢
    have hn2 : no_overflow (alloc_result pool for_hw i) := hn
    have hptr : block_ptr pool i = block_ptr (alloc_result pool for_hw i) i := rfl
    have hclr : get_bit (alloc_result pool for_hw i).free_bitmap i = false := by
      rw [(hbits i).1]; simp
    rw [hptr]
    obtain ⟨e1, e2, _⟩ := free_block_no_overflow (alloc_result pool for_hw i) i hr2 hn2 a2 hclr
    rw [e1 j, e2 j, (hbits j).1, (hbits j).2]
    by_cases hj : j = i
    · subst hj
      simp [a3, hhw]
    · simp [hj]

/-! ## The lowest free block -/

theorem alloc_lowest (pool : mempool_t) (for_hw : Bool) (i : Nat) (h1 : i < 256)
    (h2 : i < pool.block_count) (h3 : get_bit pool.free_bitmap i = true)
    (h4 : ∀ j, j < i → get_bit pool.free_bitmap j = false) :
    mempool_alloc pool for_hw = (block_ptr pool i, alloc_result pool for_hw i) := by
  rcases mempool_alloc_cases pool for_hw with ⟨_, a2⟩ | ⟨k, _, _, a3, a4, a5⟩
  · rw [a2 i h1 h2] at h3
    exact absurd h3 Bool.false_ne_true
  · have e : k = i := by
      rcases Nat.lt_trichotomy k i with h | h | h
      · rw [h4 k h] at a3; exact absurd a3 Bool.false_ne_true
      · exact h
      · rw [a4 i h] at h3; exact absurd h3 Bool.false_ne_true
    rw [a5, e]

/-- Freeing a block that a queue still holds sets its free bit, and a following
`mempool_alloc` returns that block when no lower one is free. -/
theorem free_enqueued_block (pool : mempool_t) (queue : mempool_queue_t) (i : Nat)
    (hr : Reachable pool) (hq : queue_wf pool queue)
    (hi : i ∈ (q_entries queue).map Prod.fst) (hb : get_bit pool.free_bitmap i = false) :
    get_bit (mempool_free pool (block_ptr pool i)).free_bitmap i = true ∧
    mempool_available (mempool_free pool (block_ptr pool i)) = mempool_available pool + 1 ∧
    ((∀ j, j < i → get_bit pool.free_bitmap j = false) → ∀ for_hw,
      (mempool_alloc (mempool_free pool (block_ptr pool i)) for_hw).1 = block_ptr pool i) := by
  have hgeo := hq.2.2.2.2.2.2.2.2.2.2.2 i hi
  have hlt := hq.2.2.2.2.2.2.2.2.2.2.1 i hi
  have hc := hr.wf.2.2.2.1
  have hidx := free_index_block_ptr pool i hr.wf.2.2.2.2 hgeo
  obtain ⟨e1, _, e3⟩ := free_effect pool (block_ptr pool i) i hr.wf hidx hb
  refine ⟨by rw [e1 i]; simp, e3, fun hlow for_hw => ?_⟩
  have hbc := (block_count_free pool (block_ptr pool i))
  rw [alloc_lowest (mempool_free pool (block_ptr pool i)) for_hw i (by omega)
    (by rw [hbc.1]; exact hlt) (by rw [e1 i]; simp)
    (fun j hj => by
      rw [e1 j, hlow j hj]
      have : j ≠ i := by omega
      simp [this])]
  have e : ∀ q : mempool_t, q.block_size = pool.block_size →
      q.memory_area = pool.memory_area → block_ptr q i = block_ptr pool i := by
    intro q c1 c2
    unfold block_ptr
    rw [c1, c2]
  exact e _ hbc.2.1 hbc.2.2

/-! ## What successive dequeues return -/

theorem dequeue_repeat_entries (pool : mempool_t) (hp : pool_wf pool) :
    ∀ (n : Nat) (queue : mempool_queue_t), queue_wf pool queue → n ≤ queue.count →
      (dequeue_repeat pool n queue).1 = (q_ptrs pool queue).take n := by
  intro n
  induction n with
  | zero => intro queue _ _; rfl
  | succ n ih =>
    intro queue hq hn
    have hc : 0 < queue.count := by omega
    have hd : mempool_queue_dequeue_with_length pool queue = do_dequeue pool queue := by
      unfold mempool_queue_dequeue_with_length
      rw [if_neg (by omega)]
    have he := q_entries_do_dequeue pool queue hq.2.2.2.2.1 hc
    have hq2 := queue_wf_do_dequeue pool queue hp hq hc
    have hcnt := count_do_dequeue pool queue hc
    have hrec := ih (do_dequeue pool queue).2.2 hq2 (by omega)
    have h1 : (do_dequeue pool queue).1 = block_ptr pool (word queue.block_indices queue.head) := by
      rw [do_dequeue_eq]
    have h2 : (do_dequeue pool queue).2.1 = word queue.data_lengths queue.head := by
      rw [do_dequeue_eq]
    simp only [dequeue_repeat]
    rw [hd, hrec, h1, h2]
    unfold q_ptrs
    rw [he, List.map_cons, List.take_succ_cons]

/-- A pointer anywhere inside the arena is treated by the enqueue as the start of the
block that contains it. -/
theorem enqueue_interior (pool : mempool_t) (queue : mempool_queue_t) (p data_length : Nat)
    (hr : Reachable pool) (ha : arena_ok pool) (h1 : pool.memory_area ≤ p)
    (h2 : p < pool.memory_area + (pool.block_size * pool.block_count) % SIZE_MOD) :
    get_block_index pool p = some ((p - pool.memory_area) / pool.block_size) ∧
    block_ptr pool ((p - pool.memory_area) / pool.block_size)
      = pool.memory_area + (p - pool.memory_area) / pool.block_size * pool.block_size ∧
    (p - pool.memory_area) / pool.block_size * pool.block_size
      < (pool.block_size * pool.block_count) % SIZE_MOD ∧
    mempool_queue_enqueue_with_length pool queue p data_length
      = mempool_queue_enqueue_with_length pool queue
          (block_ptr pool ((p - pool.memory_area) / pool.block_size)) data_length := by
  have hm := hr.wf.2.2.2.2
  have hmlt := hr.area_lt
  have hM : 0 < SIZE_MOD := by norm_num [SIZE_MOD]
  have hmod : (pool.block_size * pool.block_count) % SIZE_MOD < SIZE_MOD := Nat.mod_lt _ hM
  unfold arena_ok at ha
  have hp : p < SIZE_MOD := by omega
  have hpn : p ≠ NULL := by simp only [NULL] at hm ⊢; omega
  have hg := get_block_index_eq pool p hr ha hp
  rw [if_pos ⟨hpn, h1, h2⟩] at hg
  have hle : (p - pool.memory_area) / pool.block_size * pool.block_size ≤ p - pool.memory_area :=
    Nat.div_mul_le_self _ _
  have hgeo : (p - pool.memory_area) / pool.block_size * pool.block_size
      < (pool.block_size * pool.block_count) % SIZE_MOD := by omega
  have hbp : block_ptr pool ((p - pool.memory_area) / pool.block_size)
      = pool.memory_area + (p - pool.memory_area) / pool.block_size * pool.block_size := by
    unfold block_ptr
    rw [Nat.mod_eq_of_lt (by omega)]
  have hg2 := get_block_index_block_ptr pool _ hm hmlt hr.wf.2.2.2.1 hgeo
  have hbn := block_ptr_ne_null pool ((p - pool.memory_area) / pool.block_size) hm
  refine ⟨hg, hbp, hgeo, ?_⟩
  have hv : validate_queue_and_buffer pool queue p
      = validate_queue_and_buffer pool queue
          (block_ptr pool ((p - pool.memory_area) / pool.block_size)) := by
    rw [validate_eq, validate_eq, hg, hg2]
    by_cases hfull : queue.count ≥ queue.capacity
    · rw [if_pos (Or.inr hfull), if_pos (Or.inr hfull)]
    · rw [if_neg (by rintro (c | c); exact hpn c; exact hfull c),
        if_neg (by rintro (c | c); exact hbn c; exact hfull c)]
  unfold mempool_queue_enqueue_with_length
  rw [hv]

/-- After an accepted enqueue the new entry is the last one, and `count + 1` dequeues
return the old entries followed by the new one. -/
theorem enqueue_then_dequeue_all (pool : mempool_t) (queue : mempool_queue_t)
    (p data_length : Nat) (hp : pool_wf pool) (hq : queue_wf pool queue)
    (h : (mempool_queue_enqueue_with_length pool queue p data_length).1 = 0) :
    ∃ idx, get_block_index pool p = some idx ∧
      (dequeue_repeat pool (queue.count + 1)
        (mempool_queue_enqueue_with_length pool queue p data_length).2).1
        = q_ptrs pool queue ++ [(block_ptr pool idx, data_length)] := by
  have hq2 := queue_wf_enqueue pool queue p data_length hp hq
  cases hv : validate_queue_and_buffer pool queue p with
  | none =>
    unfold mempool_queue_enqueue_with_length at h
    rw [hv] at h
    exact absurd h (by show (-1 : Int) ≠ 0; decide)
  | some idx =>
    obtain ⟨_, v2, v3, v4, _⟩ := validate_some _ _ _ _ hv
    have he : mempool_queue_enqueue_with_length pool queue p data_length
        = (0, do_enqueue queue idx data_length) := by
      unfold mempool_queue_enqueue_with_length
      rw [hv]
    rw [he] at hq2 ⊢
    obtain ⟨q1, q2, _, q4, q5, _, q7, _⟩ := hq
    have hc := hp.2.2.2.1
    have hcap : queue.capacity < SIZE_MOD := by
      have : (256 : Nat) < SIZE_MOD := by norm_num [SIZE_MOD]
      omega
    have hent := q_entries_do_enqueue queue idx data_length q1 q2 q5 v2 q7 hcap
      (by have : (256 : Nat) < 2 ^ 16 := by norm_num
          omega)
    have hcnt : (do_enqueue queue idx data_length).count = queue.count + 1 := by
      rw [do_enqueue_eq]
      exact Nat.mod_eq_of_lt (by omega)
    refine ⟨idx, v3, ?_⟩
    rw [dequeue_repeat_entries pool hp _ _ hq2 (by rw [hcnt])]
    have hlen : (q_ptrs pool (do_enqueue queue idx data_length)).length = queue.count + 1 := by
      unfold q_ptrs
      rw [List.length_map, length_q_entries, hcnt]
    rw [← hlen, List.take_length]
    unfold q_ptrs
    rw [hent, List.map_append, List.map_cons, List.map_nil]

/-! ## Index ranges -/

theorem find_first_set_bit_lowest (w b : Nat) (hb : b < 64) (h1 : w.testBit b = true)
    (h2 : ∀ j, j < b → w.testBit j = false) : find_first_set_bit w = some b := by
  cases hf : find_first_set_bit w with
  | none =>
    rw [find_first_set_bit_none w hf b hb] at h1
    exact absurd h1 Bool.false_ne_true
  | some c =>
    obtain ⟨_, c2, c3⟩ := find_first_set_bit_some w c hf
    rcases Nat.lt_trichotomy c b with h | h | h
    · rw [h2 c h] at c2; exact absurd c2 Bool.false_ne_true
    · rw [h]
    · rw [c3 b h] at h1; exact absurd h1 Bool.false_ne_true

/-- The word and the bit that a successful `mempool_alloc` updates. -/
theorem alloc_word_and_bit (pool : mempool_t) (for_hw : Bool)
    (h : (mempool_alloc pool for_hw).1 ≠ NULL) :
    ∃ i bit_pos, i < BITMAP_WORDS ∧ bit_pos < MEMPOOL_BITMAP_EACH_NUM ∧
      find_first_set_bit (word pool.free_bitmap i) = some bit_pos ∧
      i * MEMPOOL_BITMAP_EACH_NUM + bit_pos < pool.block_count ∧
      (mempool_alloc pool for_hw).1
        = block_ptr pool (i * MEMPOOL_BITMAP_EACH_NUM + bit_pos) := by
  rcases mempool_alloc_cases pool for_hw with ⟨a1, _⟩ | ⟨idx, a1, a2, a3, a4, a5⟩
  · rw [a1] at h; exact absurd rfl h
  · have e : idx / 64 * 64 + idx % 64 = idx := by omega
    refine ⟨idx / 64, idx % 64, by simp only [BITMAP_WORDS]; omega,
      by simp only [MEMPOOL_BITMAP_EACH_NUM]; omega, ?_, ?_, ?_⟩
    · apply find_first_set_bit_lowest _ _ (by omega) a3
      intro j hj
      have := a4 (idx / 64 * 64 + j) (by omega)
      unfold get_bit at this
      rw [show (idx / 64 * 64 + j) / 64 = idx / 64 by omega,
        show (idx / 64 * 64 + j) % 64 = j by omega] at this
      exact this
    · simp only [MEMPOOL_BITMAP_EACH_NUM]; rw [e]; exact a2
    · simp only [MEMPOOL_BITMAP_EACH_NUM]; rw [e, a5]

theorem index_in_range (idx : Nat) (h : idx < 256) :
    idx / MEMPOOL_BITMAP_EACH_NUM < BITMAP_WORDS ∧
    idx % MEMPOOL_BITMAP_EACH_NUM < MEMPOOL_BITMAP_EACH_NUM ∧
    idx >>> LOG2_MEMPOOL_BITMAP_EACH_NUM < BITMAP_WORDS ∧
    idx &&& (MEMPOOL_BITMAP_EACH_NUM - 1) < MEMPOOL_BITMAP_EACH_NUM ∧
    idx % 2 ^ 16 = idx := by
  rw [(shift_and_eq idx).1, (shift_and_eq idx).2]
  simp only [MEMPOOL_BITMAP_EACH_NUM, BITMAP_WORDS]
  omega

theorem head_entry_mem (pool : mempool_t) (queue : mempool_queue_t)
    (hq : queue_wf pool queue) (hc : 0 < queue.count) :
    word queue.block_indices queue.head ∈ (q_entries queue).map Prod.fst := by
  rw [q_entries_do_dequeue pool queue hq.2.2.2.2.1 hc]
  simp

/-! ## Pool creation -/

theorem and_not64_63 (n : Nat) (h : n < 2 ^ 64) : n &&& not64 63 = n / 64 * 64 := by
  apply Nat.eq_of_testBit_eq
  intro i
  have e1 : n / 64 * 64 = (n >>> 6) <<< 6 := by
    rw [Nat.shiftLeft_eq, Nat.shiftRight_eq_div_pow]
  have e2 : (63 : Nat) = 2 ^ 6 - 1 := by norm_num
  rw [e1, not64, SIZE_MOD, Nat.testBit_and, Nat.testBit_xor, Nat.testBit_two_pow_sub_one, e2,
    Nat.testBit_two_pow_sub_one, Nat.testBit_shiftLeft, Nat.testBit_shiftRight]
  by_cases h1 : i < 6
  · have h2 : i < 64 := by omega
    have h3 : ¬ i ≥ 6 := by omega
    simp [h1, h2, h3]
  · have h3 : i ≥ 6 := by omega
    have h4 : 6 + (i - 6) = i := by omega
    by_cases h2 : i < 64
    · simp [h1, h2, h3, h4]
    · have : n.testBit i = false :=
        Nat.testBit_lt_two_pow (lt_of_lt_of_le h (Nat.pow_le_pow_right (by decide) (by omega)))
      simp [h1, h2, h3, h4, this]

/-- Without wrap-around of `data_size + 63` the block size is `data_size` rounded up to
the next multiple of `MEMPOOL_ALIGNMENT`. -/
theorem block_size_round_up (data_size num_blocks : Nat) (pool_mem : Bool) (area : Nat)
    (pool : mempool_t) (h : mempool_create data_size num_blocks pool_mem area = some pool)
    (hsz : data_size + 63 < SIZE_MOD) :
    mempool_block_size pool = (data_size + 63) / 64 * 64 ∧
    mempool_block_size pool % MEMPOOL_ALIGNMENT = 0 ∧
    data_size ≤ mempool_block_size pool ∧ mempool_block_size pool < data_size + 64 := by
  obtain ⟨_, _, _, _, _, _, _, h8, _, _, _⟩ := mempool_create_some _ _ _ _ _ h
  have e : mempool_block_size pool = (data_size + 63) / 64 * 64 := by
    unfold mempool_block_size
    rw [h8, Nat.mod_eq_of_lt hsz]
    exact and_not64_63 _ hsz
  refine ⟨e, ?_, ?_, ?_⟩ <;> rw [e] <;> (try unfold MEMPOOL_ALIGNMENT) <;> omega

theorem mempool_create_none_iff (data_size num_blocks area : Nat) (ha : area ≠ NULL) :
    mempool_create data_size num_blocks true area = none ↔
      (data_size = 0 ∨ num_blocks = 0 ∨ num_blocks > MEMPOOL_MAX_BLOCKS) := by
  unfold mempool_create
  by_cases h : data_size = 0 ∨ num_blocks = 0 ∨ num_blocks > MEMPOOL_MAX_BLOCKS
  · rw [if_pos h]; simp [h]
  · rw [if_neg h]
    simp [h, ha]

theorem length_alloc_seq : ∀ (fs : List Bool) (pool : mempool_t),
    (alloc_seq pool fs).1.length = fs.length := by
  intro fs
  induction fs with
  | nil => intro pool; rfl
  | cons f fs ih => intro pool; simp [alloc_seq, ih]

/-! ## The claims -/

/-- C1 (fails on the code): a pool created with `N` blocks is claimed to report
`mempool_available = N`, and `N - k` after `k` allocations.  For `mempool_create(64, 10)`
the code reports `202`, and `199` after three allocations: creation clears the surplus
bits of the last used bitmap word only, and the three words above it stay all ones. -/
theorem C1_available_counts_unmasked_words :
    (mempool_create 64 10 true 4096).map mempool_available = some 202 ∧
    (mempool_create 64 10 true 4096).map
      (fun pool => mempool_available (alloc_seq pool [false, true, false]).2) = some 199 := by
  decide

/-- C2: from a freshly created pool of `N` blocks (`1 ≤ N ≤ 256`, any `data_size > 0`,
allocations of the host succeeding) the first `N` calls of `mempool_alloc`, with any
`for_hw` arguments and no free in between, each return a non-null pointer, and call
`N + 1` returns `NULL`. -/
theorem C2_alloc_succeeds_exactly_N_times (data_size N area : Nat) (fs : List Bool) (f : Bool)
    (hd : 0 < data_size) (hN1 : 1 ≤ N) (hN2 : N ≤ MEMPOOL_MAX_BLOCKS) (ha : area ≠ NULL)
    (hlen : fs.length = N) :
    ∃ pool, mempool_create data_size N true area = some pool ∧
      (alloc_seq pool fs).1.length = N ∧
      (∀ p ∈ (alloc_seq pool fs).1, p ≠ NULL) ∧
      (mempool_alloc (alloc_seq pool fs).2 f).1 = NULL := by
  cases hc : mempool_create data_size N true area with
  | none =>
    rw [mempool_create_none_iff _ _ _ ha] at hc
    omega
  | some pool =>
    refine ⟨pool, rfl, by rw [length_alloc_seq, hlen], ?_⟩
    have hwf := pool_wf_create _ _ _ _ _ hc
    have hcnt := free_count_create _ _ _ _ _ hc
    obtain ⟨h1, h2, h3⟩ := alloc_seq_exhaust fs pool hwf (by rw [hcnt, hlen])
    refine ⟨h1, ?_⟩
    rcases mempool_alloc_count (alloc_seq pool fs).2 f h2 with ⟨_, h5⟩ | ⟨h4, _⟩
    · rw [h5]
    · omega

/-- Witness of C2: a pool of two blocks. -/
theorem C2_witness :
    (0 < 64 ∧ 1 ≤ 2 ∧ 2 ≤ MEMPOOL_MAX_BLOCKS ∧ (4096 : Nat) ≠ NULL ∧
      [true, false].length = 2) ∧
    ∃ pool, mempool_create 64 2 true 4096 = some pool ∧
      (alloc_seq pool [true, false]).1.length = 2 ∧
      (∀ p ∈ (alloc_seq pool [true, false]).1, p ≠ NULL) ∧
      (mempool_alloc (alloc_seq pool [true, false]).2 false).1 = NULL :=
  ⟨by decide,
    C2_alloc_succeeds_exactly_N_times 64 2 4096 [true, false] false (by decide) (by decide)
      (by decide) (by decide) rfl⟩

/-- C3 (fails on the code): two blocks that are allocated at the same time are claimed
to occupy disjoint byte ranges of at least `data_size` bytes.  In the pool of
`mempool_create(2^63 + 64, 4)` the third block starts at `4224`, inside the range of
`2^63 + 64` bytes of the first block at `4096`; in the pool of `mempool_create(2^63, 4)`
the first and the third block are handed out at the same address; in the pool of
`mempool_create(2^64 - 1, 2)` the block size is `0` and both blocks are at the arena
base. -/
theorem C3_blocks_alias_after_size_overflow :
    (mempool_create (2 ^ 63 + 64) 4 true 4096).map
      (fun pool => ((alloc_seq pool [false, false, false]).1, mempool_block_size pool))
      = some ([4096, 4096 + (2 ^ 63 + 64), 4224], 2 ^ 63 + 64) ∧
    (mempool_create (2 ^ 63) 4 true 4096).map
      (fun pool => ((alloc_seq pool [false, false, false]).1, mempool_block_size pool))
      = some ([4096, 4096 + 2 ^ 63, 4096], 2 ^ 63) ∧
    (mempool_create (2 ^ 64 - 1) 2 true 4096).map
      (fun pool => ((alloc_seq pool [false, false]).1, mempool_block_size pool))
      = some ([4096, 4096], 0) := by
  decide

/-- C4: in every reachable pool state and for every pointer `p`, a second
`mempool_free(pool, p)` changes nothing: the pool after two calls is the pool after one
call, so `free_bitmap`, `hw_owned_bitmap` and `mempool_available` are the same. -/
theorem C4_double_free_is_single_free (pool : mempool_t) (p : Nat) (h : Reachable pool) :
    mempool_free (mempool_free pool p) p = mempool_free pool p ∧
    (mempool_free (mempool_free pool p) p).free_bitmap = (mempool_free pool p).free_bitmap ∧
    (mempool_free (mempool_free pool p) p).hw_owned_bitmap
      = (mempool_free pool p).hw_owned_bitmap ∧
    mempool_available (mempool_free (mempool_free pool p) p)
      = mempool_available (mempool_free pool p) := by
  have e := mempool_free_idem pool p h.wf
  refine ⟨e, ?_, ?_, ?_⟩ <;> rw [e]

/-- Witness of C4: freeing twice the block handed out by the first allocation. -/
theorem C4_witness :
    Reachable (mempool_alloc demo_pool true).2 ∧
    mempool_free (mempool_free (mempool_alloc demo_pool true).2 4096) 4096
      = mempool_free (mempool_alloc demo_pool true).2 4096 ∧
    mempool_free (mempool_alloc demo_pool true).2 4096 ≠ (mempool_alloc demo_pool true).2 :=
  ⟨Reachable.alloc demo_pool true demo_pool_reachable,
    (C4_double_free_is_single_free (mempool_alloc demo_pool true).2 4096
      (Reachable.alloc demo_pool true demo_pool_reachable)).1,
    by decide⟩

/-- C5 (fails on the code): converting a block index to its pointer and back is claimed
to give the index again in every created pool with a positive block size.  In the pool
of `mempool_create(2^63 + 64, 4)` the pointer of block 2 is `4224`, which
`get_block_index` and the index computation of `mempool_free` both resolve to block 0;
in the pool of `mempool_create(2^63, 4)` the pointer of block 2 is the arena base,
`get_block_index` rejects it, `mempool_free` returns at its range check, and the
quotient `offset / block_size` is `0`. -/
theorem C5_round_trip_fails_after_size_overflow :
    (mempool_create (2 ^ 63 + 64) 4 true 4096).map
      (fun pool => (block_ptr pool 2, get_block_index pool (block_ptr pool 2),
        free_index pool (block_ptr pool 2)))
      = some (4224, some 0, some 0) ∧
    (mempool_create (2 ^ 63) 4 true 4096).map
      (fun pool => (block_ptr pool 2, get_block_index pool (block_ptr pool 2),
        free_index pool (block_ptr pool 2),
        (block_ptr pool 2 - pool.memory_area) / pool.block_size))
      = some (4096, none, none, 0) := by
  decide

/-- C6 (fails on the code): the successful dequeues are claimed to return the pointers
of the successful enqueues.  In the pool of `mempool_create(2^63 + 64, 4)` the third
allocated block is at `4224`; enqueuing it with length 7 succeeds, and the dequeue
returns `4096`, the pointer of another block. -/
theorem C6_dequeue_returns_other_pointer_after_size_overflow :
    ((mempool_create (2 ^ 63 + 64) 4 true 4096).bind fun pool =>
      (mempool_queue_create (some pool) 2 true (some [0, 0]) (some [0, 0])).map fun queue =>
        ((alloc_seq pool [false, false, false]).1,
          (mempool_queue_enqueue_with_length (alloc_seq pool [false, false, false]).2
            queue 4224 7).1,
          (mempool_queue_dequeue_with_length (alloc_seq pool [false, false, false]).2
            (mempool_queue_enqueue_with_length (alloc_seq pool [false, false, false]).2
              queue 4224 7).2).1,
          (mempool_queue_dequeue_with_length (alloc_seq pool [false, false, false]).2
            (mempool_queue_enqueue_with_length (alloc_seq pool [false, false, false]).2
              queue 4224 7).2).2.1))
      = some ([4096, 4096 + (2 ^ 63 + 64), 4224], 0, 4096, 7) := by
  decide

/-- C7: in every reachable state of a pool and a queue on it, enqueuing a pointer of a
block that has a live entry in the queue (the block's own address, or any pointer that
`get_block_index` resolves to the block) returns `-1` and leaves the whole queue state
unchanged, whether or not the queue is full; this holds for `mempool_queue_enqueue` and
for `mempool_queue_enqueue_with_length`. -/
theorem C7_duplicate_enqueue_rejected (s : System) (idx buffer data_length : Nat)
    (hs : SysReachable s) (hlive : idx ∈ (q_entries s.queue).map Prod.fst)
    (hbuf : buffer = block_ptr s.pool idx ∨ get_block_index s.pool buffer = some idx) :
    mempool_queue_enqueue_with_length s.pool s.queue buffer data_length = (-1, s.queue) ∧
    mempool_queue_enqueue s.pool s.queue buffer = (-1, s.queue) := by
  obtain ⟨hr, hq⟩ := hs.inv
  obtain ⟨_, _, _, _, _, _, _, _, q9, _, _, q12⟩ := hq
  have hres : get_block_index s.pool buffer = some idx := by
    rcases hbuf with h | h
    · rw [h]
      exact get_block_index_block_ptr s.pool idx hr.wf.2.2.2.2 hr.area_lt hr.wf.2.2.2.1
        (q12 idx hlive)
    · exact h
  have hbit : get_bit s.queue.queue_bitmap idx = true := (q9 idx).2 hlive
  have hv : validate_queue_and_buffer s.pool s.queue buffer = none := by
    rw [validate_eq]
    split
    · rfl
    · rw [hres]
      dsimp only
      rw [if_pos hbit]
      split <;> rfl
  have : ∀ len, mempool_queue_enqueue_with_length s.pool s.queue buffer len = (-1, s.queue) := by
    intro len
    unfold mempool_queue_enqueue_with_length
    rw [hv]
  exact ⟨this data_length, this 0⟩

/-- Witness of C7: block 0 is allocated and enqueued, then enqueued again. -/
theorem C7_witness :
    (SysReachable demo_live ∧ 0 ∈ (q_entries demo_live.queue).map Prod.fst ∧
      get_block_index demo_live.pool 4096 = some 0) ∧
    mempool_queue_enqueue_with_length demo_live.pool demo_live.queue 4096 9
      = (-1, demo_live.queue) ∧
    mempool_queue_enqueue demo_live.pool demo_live.queue 4096 = (-1, demo_live.queue) :=
  ⟨⟨demo_live_reachable, by decide, by decide⟩,
    C7_duplicate_enqueue_rejected demo_live 0 4096 9 demo_live_reachable (by decide)
      (Or.inr (by decide))⟩

/-- C8 (fails on the code): in every reachable pool state `mempool_available` is claimed
to be at most `block_count`, so that `mempool_used` is the number of allocated blocks and
never wraps.  For `mempool_create(64, 10)` the code reports 202 available blocks out of
10 and `mempool_used` wraps around to `2^64 - 192`. -/
theorem C8_used_wraps_around :
    (mempool_create 64 10 true 4096).map
      (fun pool => (mempool_available pool, mempool_used pool, pool.block_count))
      = some (202, 2 ^ 64 - 192, 10) := by
  decide

/-- C9: when the allocations of the host succeed, `mempool_create(data_size, num_blocks)`
returns `NULL` exactly when `data_size == 0`, `num_blocks == 0` or
`num_blocks > MEMPOOL_MAX_BLOCKS`. -/
theorem C9_create_fails_iff_bad_arguments (data_size num_blocks area : Nat)
    (ha : area ≠ NULL) :
    mempool_create data_size num_blocks true area = none ↔
      (data_size = 0 ∨ num_blocks = 0 ∨ num_blocks > MEMPOOL_MAX_BLOCKS) :=
  mempool_create_none_iff data_size num_blocks area ha

/-- Witness of C9: 257 blocks are refused. -/
theorem C9_witness :
    (4096 : Nat) ≠ NULL ∧
    (mempool_create 64 257 true 4096 = none ↔
      ((64 : Nat) = 0 ∨ (257 : Nat) = 0 ∨ 257 > MEMPOOL_MAX_BLOCKS)) :=
  ⟨by decide, C9_create_fails_iff_bad_arguments 64 257 4096 (by decide)⟩

/-- C10 (fails on the code): the block size is claimed to be `data_size` rounded up to a
multiple of 64, hence at least `data_size`.  `mempool_create(2^64 - 1, 1)` is accepted
and `data_size + 63` wraps around in `size_t`: the block size of the pool is `0`. -/
theorem C10_block_size_zero_after_wrap :
    (mempool_create (2 ^ 64 - 1) 1 true 4096).map mempool_block_size = some 0 ∧
    (mempool_create (2 ^ 64 - 1) 1 true 4096).map (fun pool => pool.block_size_unaligned)
      = some (2 ^ 64 - 1) := by
  decide

/-- C11 (fails on the code): `mempool_free` of the pointer of an allocated block `i` is
claimed to set free bit `i` and clear hw-owned bit `i`.  In the pool of
`mempool_create(2^63 + 64, 4)` the three allocations return `4096`, `4096 + 2^63 + 64`
and `4224`; freeing `4224`, the pointer of block 2, leaves free bit 2 clear and hw-owned
bit 2 set, and sets free bit 0 and clears hw-owned bit 0 instead. -/
theorem C11_free_acts_on_other_block_after_size_overflow :
    (mempool_create (2 ^ 63 + 64) 4 true 4096).map
      (fun pool =>
        ((alloc_seq pool [true, true, true]).1,
          get_bit (alloc_seq pool [true, true, true]).2.free_bitmap 2,
          get_bit (mempool_free (alloc_seq pool [true, true, true]).2 4224).free_bitmap 2,
          get_bit (mempool_free (alloc_seq pool [true, true, true]).2 4224).hw_owned_bitmap 2,
          get_bit (mempool_free (alloc_seq pool [true, true, true]).2 4224).free_bitmap 0,
          get_bit (mempool_free (alloc_seq pool [true, true, true]).2 4224).hw_owned_bitmap 0))
      = some ([4096, 4096 + (2 ^ 63 + 64), 4224], false, false, true, true, false) := by
  decide

/-- C12: for every pool state and every pointer `p` outside
`[memory_area, memory_area + block_size * block_count)`, the address one past the end
included and whether the product is taken exactly or in `size_t`, `mempool_free` returns
the pool unchanged, so neither `free_bitmap` nor `hw_owned_bitmap` changes. -/
theorem C12_free_outside_arena_changes_nothing (pool : mempool_t) (p : Nat)
    (h : p < pool.memory_area ∨
      p ≥ pool.memory_area + pool.block_size * pool.block_count ∨
      p ≥ pool.memory_area + (pool.block_size * pool.block_count) % SIZE_MOD) :
    mempool_free pool p = pool ∧
    (mempool_free pool p).free_bitmap = pool.free_bitmap ∧
    (mempool_free pool p).hw_owned_bitmap = pool.hw_owned_bitmap := by
  have hout : p < pool.memory_area ∨
      p ≥ pool.memory_area + (pool.block_size * pool.block_count) % SIZE_MOD := by
    have := Nat.mod_le (pool.block_size * pool.block_count) SIZE_MOD
    omega
  have e : mempool_free pool p = pool := by
    unfold mempool_free
    by_cases h0 : p = NULL
    · rw [if_pos h0]
    · rw [if_neg h0, if_pos hout]
  exact ⟨e, by rw [e], by rw [e]⟩

/-- Witness of C12: the address one past the end of the arena of a pool with one
allocated block. -/
theorem C12_witness :
    ((4096 + 128 : Nat) < (mempool_alloc demo_pool true).2.memory_area ∨
      4096 + 128 ≥ (mempool_alloc demo_pool true).2.memory_area
        + (mempool_alloc demo_pool true).2.block_size
          * (mempool_alloc demo_pool true).2.block_count ∨
      4096 + 128 ≥ (mempool_alloc demo_pool true).2.memory_area
        + ((mempool_alloc demo_pool true).2.block_size
          * (mempool_alloc demo_pool true).2.block_count) % SIZE_MOD) ∧
    mempool_free (mempool_alloc demo_pool true).2 (4096 + 128) = (mempool_alloc demo_pool true).2 :=
  ⟨by decide,
    (C12_free_outside_arena_changes_nothing (mempool_alloc demo_pool true).2 (4096 + 128)
      (by decide)).1⟩

/-- C13: for a reachable pool whose arena lies in the address space, any queue state
and any 64-bit pointer `p`, `mempool_queue_enqueue_with_length` returns `0` exactly
when the queue is not full, `p` is non-null and inside
`[memory_area, memory_area + block_size * block_count)` (the `size_t` product that
`get_block_index` computes), and the membership bit of the block index
`(p - memory_area) / block_size` is clear; in every other case it returns `-1` and the
queue is unchanged. -/
theorem C13_enqueue_succeeds_iff (pool : mempool_t) (queue : mempool_queue_t)
    (p data_length : Nat) (hr : Reachable pool) (ha : arena_ok pool) (hp : p < SIZE_MOD) :
    ((mempool_queue_enqueue_with_length pool queue p data_length).1 = 0 ↔
      (queue.count < queue.capacity ∧ p ≠ NULL ∧ pool.memory_area ≤ p ∧
        p < pool.memory_area + (pool.block_size * pool.block_count) % SIZE_MOD ∧
        get_bit queue.queue_bitmap ((p - pool.memory_area) / pool.block_size) = false)) ∧
    ((mempool_queue_enqueue_with_length pool queue p data_length).1 ≠ 0 →
      mempool_queue_enqueue_with_length pool queue p data_length = (-1, queue)) := by
  have hg := get_block_index_eq pool p hr ha hp
  have hv := validate_eq pool queue p
  have eneg : validate_queue_and_buffer pool queue p = none →
      mempool_queue_enqueue_with_length pool queue p data_length = (-1, queue) := by
    intro h; unfold mempool_queue_enqueue_with_length; rw [h]
  have epos : ∀ idx, validate_queue_and_buffer pool queue p = some idx →
      mempool_queue_enqueue_with_length pool queue p data_length
        = (0, do_enqueue queue idx data_length) := by
    intro idx h; unfold mempool_queue_enqueue_with_length; rw [h]
  have hm1 : ((-1 : Int), queue).1 ≠ 0 := by
    show (-1 : Int) ≠ 0
    decide
  by_cases h1 : p = NULL ∨ queue.count ≥ queue.capacity
  · rw [if_pos h1] at hv
    rw [eneg hv]
    refine ⟨⟨fun h => absurd h hm1, fun h => ?_⟩, fun _ => rfl⟩
    rcases h1 with h1 | h1
    · exact absurd h1 h.2.1
    · omega
  rw [if_neg h1] at hv
  by_cases h2 : p ≠ NULL ∧ pool.memory_area ≤ p ∧
      p < pool.memory_area + (pool.block_size * pool.block_count) % SIZE_MOD
  · rw [if_pos h2] at hg
    rw [hg] at hv
    dsimp only at hv
    have hlt : (p - pool.memory_area) / pool.block_size < pool.block_count := by
      have h3 : p - pool.memory_area < (pool.block_size * pool.block_count) % SIZE_MOD := by
        omega
      exact Nat.div_lt_of_lt_mul
        (lt_of_lt_of_le h3 (Nat.mod_le (pool.block_size * pool.block_count) SIZE_MOD))
    rw [if_neg (by omega)] at hv
    by_cases h4 : get_bit queue.queue_bitmap ((p - pool.memory_area) / pool.block_size) = true
    · rw [if_pos h4] at hv
      rw [eneg hv]
      refine ⟨⟨fun h => absurd h hm1, fun h => ?_⟩, fun _ => rfl⟩
      rw [h.2.2.2.2] at h4
      exact absurd h4 Bool.false_ne_true
    · rw [if_neg h4] at hv
      rw [epos _ hv]
      refine ⟨⟨fun _ => ⟨by omega, h2.1, h2.2.1, h2.2.2, by simpa using h4⟩, fun _ => rfl⟩,
        fun h => absurd rfl h⟩
  · rw [if_neg h2] at hg
    rw [hg] at hv
    rw [eneg hv]
    refine ⟨⟨fun h => absurd h hm1, fun h => ?_⟩, fun _ => rfl⟩
    exact absurd ⟨h.2.1, h.2.2.1, h.2.2.2.1⟩ h2

/-- Witness of C13: enqueuing block 0 of the demo pool on the empty demo queue. -/
theorem C13_witness :
    (Reachable demo_pool ∧ arena_ok demo_pool ∧ (4096 : Nat) < SIZE_MOD) ∧
    (mempool_queue_enqueue_with_length demo_pool demo_queue 4096 5).1 = 0 :=
  ⟨⟨demo_pool_reachable, demo_pool_arena_ok, by decide⟩,
    ((C13_enqueue_succeeds_iff demo_pool demo_queue 4096 5 demo_pool_reachable
      demo_pool_arena_ok (by decide)).1).2 (by decide)⟩

/-- C14: on a queue with `count == capacity`, `mempool_queue_enqueue` and
`mempool_queue_enqueue_with_length` return `-1` for every pointer, a valid allocated
block that is not in the queue included, and leave the whole queue state (count, head,
tail, entries, membership bitmap) unchanged. -/
theorem C14_enqueue_on_full_queue_rejected (pool : mempool_t) (queue : mempool_queue_t)
    (p data_length : Nat) (h : queue.count = queue.capacity) :
    mempool_queue_enqueue_with_length pool queue p data_length = (-1, queue) ∧
    mempool_queue_enqueue pool queue p = (-1, queue) := by
  have hv : validate_queue_and_buffer pool queue p = none := by
    unfold validate_queue_and_buffer
    rw [if_pos (Or.inr (by omega))]
  have : ∀ len, mempool_queue_enqueue_with_length pool queue p len = (-1, queue) := by
    intro len
    unfold mempool_queue_enqueue_with_length
    rw [hv]
  exact ⟨this data_length, this 0⟩

/-- Witness of C14: the queue of capacity 1 holds block 0; block 1 is allocated, is not
in the queue, and is refused. -/
theorem C14_witness :
    (demo_full.queue.count = demo_full.queue.capacity ∧
      get_block_index demo_full.pool 4160 = some 1 ∧
      get_bit demo_full.pool.free_bitmap 1 = false ∧
      get_bit demo_full.queue.queue_bitmap 1 = false) ∧
    mempool_queue_enqueue_with_length demo_full.pool demo_full.queue 4160 3
      = (-1, demo_full.queue) ∧
    mempool_queue_enqueue demo_full.pool demo_full.queue 4160 = (-1, demo_full.queue) :=
  ⟨by decide,
    C14_enqueue_on_full_queue_rejected demo_full.pool demo_full.queue 4160 3 (by decide)⟩

/-- C15: on a queue with `count == 0`, `mempool_queue_dequeue_with_length` returns
`NULL` and stores length `0`, `mempool_queue_dequeue` returns `NULL`, both leave the
queue state unchanged, and `mempool_queue_is_empty` reports true. -/
theorem C15_dequeue_on_empty_queue (pool : mempool_t) (queue : mempool_queue_t)
    (h : queue.count = 0) :
    mempool_queue_dequeue_with_length pool queue = (NULL, 0, queue) ∧
    mempool_queue_dequeue pool queue = (NULL, queue) ∧
    mempool_queue_is_empty queue = true := by
  have e : mempool_queue_dequeue_with_length pool queue = (NULL, 0, queue) := by
    unfold mempool_queue_dequeue_with_length
    rw [if_pos h]
  refine ⟨e, ?_, ?_⟩
  · unfold mempool_queue_dequeue
    rw [e]
  · unfold mempool_queue_is_empty
    simp [h]

/-- Witness of C15: the freshly created demo queue. -/
theorem C15_witness :
    demo_queue.count = 0 ∧
    mempool_queue_dequeue_with_length demo_pool demo_queue = (NULL, 0, demo_queue) ∧
    mempool_queue_dequeue demo_pool demo_queue = (NULL, demo_queue) ∧
    mempool_queue_is_empty demo_queue = true :=
  ⟨rfl, C15_dequeue_on_empty_queue demo_pool demo_queue rfl⟩

/-- C16: for every queue state (reachable or not), every non-null output array and
every `max_count > 0`, `mempool_queue_dequeue_batch_with_length` returns
`min(count, max_count)`, writes that many entries and reduces `count` by that amount;
when `max_count >= count` it returns `count` and leaves the queue empty. -/
theorem C16_batch_dequeue_count (pool : mempool_t) (queue : mempool_queue_t)
    (buffers max_count : Nat) (hb : buffers ≠ NULL) (hm : 0 < max_count) :
    (mempool_queue_dequeue_batch_with_length pool queue buffers max_count).1
      = min queue.count max_count ∧
    (mempool_queue_dequeue_batch_with_length pool queue buffers max_count).2.1.length
      = min queue.count max_count ∧
    (mempool_queue_dequeue_batch_with_length pool queue buffers max_count).2.2.count
      = queue.count - min queue.count max_count ∧
    (max_count ≥ queue.count →
      (mempool_queue_dequeue_batch_with_length pool queue buffers max_count).1 = queue.count ∧
      (mempool_queue_dequeue_batch_with_length pool queue buffers max_count).2.2.count = 0 ∧
      mempool_queue_is_empty
        (mempool_queue_dequeue_batch_with_length pool queue buffers max_count).2.2 = true) := by
  have hmin : (if queue.count < max_count then queue.count else max_count)
      = min queue.count max_count := by
    split <;> omega
  have e : mempool_queue_dequeue_batch_with_length pool queue buffers max_count
      = (min queue.count max_count, dequeue_loop pool (min queue.count max_count) queue) := by
    unfold mempool_queue_dequeue_batch_with_length
    rw [if_neg (by omega)]
    dsimp only
    rw [hmin]
  obtain ⟨h1, h2⟩ := dequeue_loop_count pool (min queue.count max_count) queue
    (Nat.min_le_left _ _)
  rw [e]
  refine ⟨rfl, h2, h1, fun hge => ?_⟩
  have hmin2 : min queue.count max_count = queue.count := Nat.min_eq_left hge
  dsimp only
  refine ⟨hmin2, by rw [h1, hmin2]; omega, ?_⟩
  unfold mempool_queue_is_empty
  rw [h1, hmin2]
  simp

/-- Witness of C16: a batch of up to 5 on the demo queue holding one entry. -/
theorem C16_witness :
    ((8192 : Nat) ≠ NULL ∧ 0 < 5) ∧
    (mempool_queue_dequeue_batch_with_length demo_live.pool demo_live.queue 8192 5).1
      = min demo_live.queue.count 5 :=
  ⟨by decide,
    (C16_batch_dequeue_count demo_live.pool demo_live.queue 8192 5 (by decide) (by decide)).1⟩

/-- C17: when the three allocations of the host succeed, `mempool_queue_create` returns
`NULL` exactly when the pool handle is null, `capacity == 0` or
`capacity > pool->block_count`. -/
theorem C17_queue_create_fails_iff (pool : Option mempool_t) (capacity : Nat)
    (indices_mem lengths_mem : List Nat) :
    mempool_queue_create pool capacity true (some indices_mem) (some lengths_mem) = none ↔
      (pool = none ∨ capacity = 0 ∨ ∃ p, pool = some p ∧ capacity > p.block_count) := by
  cases pool with
  | none => simp [mempool_queue_create]
  | some p =>
    unfold mempool_queue_create
    dsimp only
    by_cases h : capacity = 0 ∨ capacity > p.block_count
    · rw [if_pos h]
      simp only [true_iff]
      rcases h with h | h
      · exact Or.inr (Or.inl h)
      · exact Or.inr (Or.inr ⟨p, rfl, h⟩)
    · rw [if_neg h]
      simp only [Bool.true_eq_false, if_false]
      constructor
      · intro h0
        exact absurd h0 (by simp)
      · rintro (h1 | h1 | ⟨q, hq, h1⟩)
        · exact absurd h1 (by simp)
        · exact absurd (Or.inl h1) h
        · rw [Option.some.inj hq] at h
          exact absurd (Or.inr h1) h

/-- C18: `mempool_queue_peek` writes no field of the queue (it only returns a pointer).
In every reachable state with a non-empty queue it returns the pointer that the next
`mempool_queue_dequeue` returns, which is the non-null address of the block of the
oldest live entry; on an empty queue it returns `NULL`. -/
theorem C18_peek_is_next_dequeue (s : System) (hs : SysReachable s) :
    (s.queue.count ≠ 0 →
      mempool_queue_peek s.pool s.queue = (mempool_queue_dequeue s.pool s.queue).1 ∧
      mempool_queue_peek s.pool s.queue
        = (mempool_queue_dequeue_with_length s.pool s.queue).1 ∧
      mempool_queue_peek s.pool s.queue ≠ NULL ∧
      ∃ e rest, q_entries s.queue = e :: rest ∧
        mempool_queue_peek s.pool s.queue = block_ptr s.pool e.1) ∧
    (s.queue.count = 0 → mempool_queue_peek s.pool s.queue = NULL) := by
  obtain ⟨hr, hq⟩ := hs.inv
  constructor
  · intro hc
    have e1 : mempool_queue_peek s.pool s.queue
        = block_ptr s.pool (word s.queue.block_indices s.queue.head) := by
      unfold mempool_queue_peek block_ptr
      rw [if_neg hc]
    have e2 : (mempool_queue_dequeue_with_length s.pool s.queue).1
        = block_ptr s.pool (word s.queue.block_indices s.queue.head) := by
      unfold mempool_queue_dequeue_with_length
      rw [if_neg hc, do_dequeue_eq]
    refine ⟨?_, by rw [e1, e2], ?_, ?_⟩
    · unfold mempool_queue_dequeue
      rw [e1, e2]
    · rw [e1]
      exact block_ptr_ne_null s.pool _ hr.wf.2.2.2.2
    · exact ⟨_, _, q_entries_do_dequeue s.pool s.queue hq.2.2.2.2.1 (by omega), e1⟩
  · intro hc
    unfold mempool_queue_peek
    rw [if_pos hc]

/-- Witness of C18: the demo queue holding block 0. -/
theorem C18_witness :
    SysReachable demo_live ∧ demo_live.queue.count ≠ 0 ∧
    mempool_queue_peek demo_live.pool demo_live.queue
      = (mempool_queue_dequeue demo_live.pool demo_live.queue).1 :=
  ⟨demo_live_reachable, by decide,
    ((C18_peek_is_next_dequeue demo_live demo_live_reachable).1 (by decide)).1⟩

/-- C19: in every state reached by a run with `e` accepted enqueues and `d` entries
handed back by dequeues, `mempool_queue_count` returns `e - d`, the number of entries
enqueued and not yet dequeued, which is also the number of live ring entries;
`mempool_queue_is_empty` is true exactly when that number is `0` and
`mempool_queue_is_full` exactly when it equals the capacity. -/
theorem C19_count_is_live_entries (s : System) (e d : Nat) (h : SysTrace s e d) :
    d ≤ e ∧ mempool_queue_count s.queue = e - d ∧
    (q_entries s.queue).length = e - d ∧
    (mempool_queue_is_empty s.queue = true ↔ e - d = 0) ∧
    (mempool_queue_is_full s.queue = true ↔ e - d = s.queue.capacity) := by
  have hc := h.count_eq
  have hle := h.reachable.inv.2.2.2.2.2.2.1
  have hcount : s.queue.count = e - d := by omega
  refine ⟨by omega, hcount, ?_, ?_, ?_⟩
  · unfold q_entries
    rw [List.length_map, List.length_range, hcount]
  · unfold mempool_queue_is_empty
    rw [hcount]
    simp
  · unfold mempool_queue_is_full
    rw [← hcount]
    simp only [ge_iff_le, decide_eq_true_eq]
    omega

/-- Witness of C19: one accepted enqueue and no dequeue. -/
theorem C19_witness :
    SysTrace demo_live 1 0 ∧ mempool_queue_count demo_live.queue = 1 - 0 :=
  ⟨demo_live_trace, (C19_count_is_live_entries demo_live 1 0 demo_live_trace).2.1⟩

/-- C20 as stated fails: with a null handle `mempool_free` returns (and nothing is
freed), and `mempool_available`, `mempool_used` and `mempool_block_size` return `0`;
none of them aborts. -/
theorem C20_null_handle_returns :
    mempool_free_handle none 4096 = Outcome.returned none ∧
    mempool_free_handle none 4096 ≠ Outcome.aborted ∧
    mempool_available_handle none = Outcome.returned 0 ∧
    mempool_available_handle none ≠ Outcome.aborted ∧
    mempool_used_handle none = Outcome.returned 0 ∧
    mempool_used_handle none ≠ Outcome.aborted ∧
    mempool_block_size_handle none = Outcome.returned 0 ∧
    mempool_block_size_handle none ≠ Outcome.aborted := by
  decide

/-- C20 as amended: with a null handle `mempool_alloc` aborts on its assertion, while
`mempool_free` returns without effect and `mempool_available`, `mempool_used` and
`mempool_block_size` return `0`; with a non-null handle each of the five returns what
its body computes. -/
theorem C20_null_handle_behaviour (pool : mempool_t) (for_hw : Bool) (ptr : Nat) :
    mempool_alloc_handle none for_hw = Outcome.aborted ∧
    mempool_free_handle none ptr = Outcome.returned none ∧
    mempool_available_handle none = Outcome.returned 0 ∧
    mempool_used_handle none = Outcome.returned 0 ∧
    mempool_block_size_handle none = Outcome.returned 0 ∧
    mempool_alloc_handle (some pool) for_hw = Outcome.returned (mempool_alloc pool for_hw) ∧
    mempool_free_handle (some pool) ptr = Outcome.returned (some (mempool_free pool ptr)) ∧
    mempool_available_handle (some pool) = Outcome.returned (mempool_available pool) ∧
    mempool_used_handle (some pool) = Outcome.returned (mempool_used pool) ∧
    mempool_block_size_handle (some pool) = Outcome.returned (mempool_block_size pool) :=
  ⟨rfl, rfl, rfl, rfl, rfl, rfl, rfl, rfl, rfl, rfl⟩

/-- C21 fails in the code: `mempool_queue_dequeue_with_length` tests `queue->count == 0`
before it takes the pool lock, so the test that guards the mutation of `do_dequeue` is
outside the lock.  On a queue holding one entry (block 0 at `4096`, length 5), two
threads that both pass the test before either takes the lock each run `do_dequeue`: both
receive the pointer `4096`, and `count` wraps from `0` to `2^64 - 1`, above `capacity`.
Each call is the unlocked test followed by the locked region, and two calls one after
the other return the entry and then `NULL` and leave `count = 0`. -/
theorem C21_dequeue_count_check_outside_lock :
    (∀ pool queue, mempool_queue_dequeue_with_length pool queue =
      if dequeue_unlocked_check queue = true then (NULL, 0, queue)
      else do_dequeue pool queue) ∧
    demo_live.queue.count = 1 ∧ demo_live.queue.capacity = 2 ∧
    (dequeue_race demo_live.pool demo_live.queue).1 = (4096, 5) ∧
    (dequeue_race demo_live.pool demo_live.queue).2.1 = (4096, 0) ∧
    (dequeue_race demo_live.pool demo_live.queue).2.2.count = 2 ^ 64 - 1 ∧
    (dequeue_race demo_live.pool demo_live.queue).2.2.capacity
      < (dequeue_race demo_live.pool demo_live.queue).2.2.count ∧
    (dequeue_repeat demo_live.pool 2 demo_live.queue).1 = [(4096, 5), (NULL, 0)] ∧
    (dequeue_repeat demo_live.pool 2 demo_live.queue).2.count = 0 :=
  ⟨dequeue_split, by decide, by decide, by decide, by decide, by decide, by decide,
    by decide, by decide⟩

/-- C22 fails in the code: after `mempool_create(64, 10)` the free bitmap is
`[1023, 2^64 - 1, 2^64 - 1, 2^64 - 1]`: bits 0..9 are set and bits 10..63 are clear, but
bits 64..255 are set although they are not below `N = 10`.  The hw-owned bitmap is all
clear, as claimed. -/
theorem C22_bits_above_last_word_stay_set :
    (mempool_create 64 10 true 4096).map (fun pool => pool.free_bitmap)
      = some [1023, 2 ^ 64 - 1, 2 ^ 64 - 1, 2 ^ 64 - 1] ∧
    (mempool_create 64 10 true 4096).map (fun pool => pool.hw_owned_bitmap)
      = some [0, 0, 0, 0] ∧
    (mempool_create 64 10 true 4096).map (fun pool =>
        (get_bit pool.free_bitmap 9, get_bit pool.free_bitmap 10,
          get_bit pool.free_bitmap 63, get_bit pool.free_bitmap 64,
          get_bit pool.free_bitmap 255))
      = some (true, false, false, true, true) := by
  decide

/-- C23: for every pool state whose arena pointer is non-null and whose free bitmap has
its `BITMAP_WORDS = 4` words (no reachability assumed, any `block_count`, any bitmap
contents) and either `for_hw`, `mempool_alloc` returns `NULL` exactly when no index
below `block_count` has its free bit set, and then the pool state is unchanged; when it
does not return `NULL`, the block handed out has an index below `block_count` whose free
bit was set, so set bits at indices `>= block_count` neither produce a block nor hide
one. -/
theorem C23_alloc_null_iff_no_free_block_in_range (pool : mempool_t) (for_hw : Bool)
    (hm : pool.memory_area ≠ NULL) (hl : pool.free_bitmap.length = 4) :
    ((mempool_alloc pool for_hw).1 = NULL ↔
      ∀ i, i < pool.block_count → get_bit pool.free_bitmap i = false) ∧
    ((mempool_alloc pool for_hw).1 = NULL → (mempool_alloc pool for_hw).2 = pool) ∧
    ((mempool_alloc pool for_hw).1 ≠ NULL →
      ∃ i, i < pool.block_count ∧ get_bit pool.free_bitmap i = true ∧
        (mempool_alloc pool for_hw).1 = block_ptr pool i) := by
  rcases mempool_alloc_cases pool for_hw with ⟨h1, h2⟩ | ⟨idx, _, h2, h3, _, h5⟩
  · rw [h1]
    refine ⟨⟨fun _ i hi => ?_, fun _ => rfl⟩, fun _ => rfl, fun h => absurd rfl h⟩
    rcases Nat.lt_or_ge i 256 with c | c
    · exact h2 i c hi
    · exact get_bit_out_of_range _ _ (by omega) c
  · rw [h5]
    have hn : block_ptr pool idx ≠ NULL := block_ptr_ne_null pool idx hm
    refine ⟨⟨fun h => absurd h hn, fun h => ?_⟩, fun h => absurd h hn,
      fun _ => ⟨idx, h2, h3, rfl⟩⟩
    rw [h idx h2] at h3
    exact absurd h3 Bool.false_ne_true

/-- Witness of C23: both blocks of the demo pool are handed out; free bit 64 of that
state is still set, and `mempool_alloc` returns `NULL` and changes nothing. -/
theorem C23_witness :
    (demo_full.pool.memory_area ≠ NULL ∧ demo_full.pool.free_bitmap.length = 4 ∧
      get_bit demo_full.pool.free_bitmap 64 = true ∧
      (mempool_alloc demo_full.pool true).1 = NULL) ∧
    (mempool_alloc demo_full.pool true).2 = demo_full.pool :=
  ⟨by decide,
    (C23_alloc_null_iff_no_free_block_in_range demo_full.pool true (by decide)
      (by decide)).2.1 (by decide)⟩

/-- C24: whenever `mempool_alloc` does not return `NULL`, the returned pointer is
`memory_area + i * block_size` (the product as the code computes it, in `size_t`) where
`i` is the smallest index whose free bit was set before the call, and `i` is below
`block_count`; and on a pool fresh from `mempool_create(data_size, N)` a run of up to
`N` calls returns the pointers of blocks `0, 1, 2, ...` in that order. -/
theorem C24_alloc_returns_lowest_free_block (pool : mempool_t) (for_hw : Bool) :
    ((mempool_alloc pool for_hw).1 ≠ NULL →
      ∃ i, i < pool.block_count ∧ get_bit pool.free_bitmap i = true ∧
        (∀ j, j < i → get_bit pool.free_bitmap j = false) ∧
        (mempool_alloc pool for_hw).1
          = pool.memory_area + (i * pool.block_size) % SIZE_MOD) ∧
    (∀ (data_size num_blocks : Nat) (pool_mem : Bool) (area : Nat) (fs : List Bool),
      mempool_create data_size num_blocks pool_mem area = some pool →
      fs.length ≤ num_blocks →
      (alloc_seq pool fs).1 = (List.range fs.length).map (fun i =>
        pool.memory_area + (i * pool.block_size) % SIZE_MOD)) := by
  constructor
  · intro h
    rcases mempool_alloc_cases pool for_hw with ⟨h1, _⟩ | ⟨idx, _, h2, h3, h4, h5⟩
    · rw [h1] at h; exact absurd rfl h
    · exact ⟨idx, h2, h3, h4, by rw [h5]; rfl⟩
  · intro data_size num_blocks pool_mem area fs hc hfs
    exact fresh_alloc_order data_size num_blocks pool_mem area pool hc fs hfs

/-- Witness of C24: block 0 of the demo pool is out, block 1 is the lowest free one and
the next call returns its pointer `4096 + 64`; the fresh demo pool hands out `4096` and
then `4160`. -/
theorem C24_witness :
    ((mempool_alloc demo_live.pool false).1 ≠ NULL ∧
      mempool_create 64 2 true 4096 = some demo_pool) ∧
    (∃ i, i < demo_live.pool.block_count ∧ get_bit demo_live.pool.free_bitmap i = true ∧
        (∀ j, j < i → get_bit demo_live.pool.free_bitmap j = false) ∧
        (mempool_alloc demo_live.pool false).1
          = demo_live.pool.memory_area + (i * demo_live.pool.block_size) % SIZE_MOD) ∧
    (alloc_seq demo_pool [false, true]).1 = [4096, 4160] :=
  ⟨⟨by decide, by decide⟩,
    (C24_alloc_returns_lowest_free_block demo_live.pool false).1 (by decide),
    (C24_alloc_returns_lowest_free_block demo_pool false).2 64 2 true 4096 [false, true]
      (by decide) (by decide)⟩

/-- C25 fails in the code: `mempool_create(2^63 + 64, 4)` succeeds with `block_size =
2^63 + 64` and an arena of `(block_size * 4) mod 2^64 = 256` bytes at `4096`.  The
second `mempool_alloc` returns block index 1, which is below `block_count`, at offset
`2^63 + 64` from `memory_area`: the block starts and ends beyond the end of the arena,
`4096 + 256`. -/
theorem C25_block_outside_arena_after_size_overflow :
    (mempool_create (2 ^ 63 + 64) 4 true 4096).map (fun pool =>
        (pool.block_size, (pool.block_size * pool.block_count) % SIZE_MOD,
          (alloc_seq pool [false, false]).1,
          decide (pool.memory_area + (pool.block_size * pool.block_count) % SIZE_MOD
            < (mempool_alloc (mempool_alloc pool false).2 false).1)))
      = some (2 ^ 63 + 64, 256, [4096, 4096 + (2 ^ 63 + 64)], true) := by
  decide

/-- C26: in every pool state reachable from `mempool_create` through `mempool_alloc`
and `mempool_free`, no block index has both its free bit and its hw-owned bit set, so
every index is in exactly one of the three states free (free bit set, hw-owned bit
clear), allocated-plain (both clear) and allocated-hw-owned (free bit clear, hw-owned
bit set). -/
theorem C26_free_and_hw_owned_exclusive (pool : mempool_t) (hr : Reachable pool) (i : Nat) :
    ¬ (get_bit pool.free_bitmap i = true ∧ get_bit pool.hw_owned_bitmap i = true) ∧
    ((get_bit pool.free_bitmap i = true ∧ get_bit pool.hw_owned_bitmap i = false) ∨
      (get_bit pool.free_bitmap i = false ∧ get_bit pool.hw_owned_bitmap i = false) ∨
      (get_bit pool.free_bitmap i = false ∧ get_bit pool.hw_owned_bitmap i = true)) := by
  have h := hr.exclusive i
  refine ⟨h, ?_⟩
  rcases hf : get_bit pool.free_bitmap i with _ | _ <;>
    rcases hh : get_bit pool.hw_owned_bitmap i with _ | _
  · exact Or.inr (Or.inl ⟨rfl, rfl⟩)
  · exact Or.inr (Or.inr ⟨rfl, rfl⟩)
  · exact Or.inl ⟨rfl, rfl⟩
  · exact absurd ⟨hf, hh⟩ h

/-- Witness of C26: the demo pool after a hardware allocation of block 0: block 0 is
allocated-hw-owned and block 1 is free. -/
theorem C26_witness :
    Reachable (mempool_alloc demo_pool true).2 ∧
    get_bit (mempool_alloc demo_pool true).2.hw_owned_bitmap 0 = true ∧
    ¬ (get_bit (mempool_alloc demo_pool true).2.free_bitmap 0 = true ∧
      get_bit (mempool_alloc demo_pool true).2.hw_owned_bitmap 0 = true) :=
  ⟨Reachable.alloc demo_pool true demo_pool_reachable, by decide,
    (C26_free_and_hw_owned_exclusive (mempool_alloc demo_pool true).2
      (Reachable.alloc demo_pool true demo_pool_reachable) 0).1⟩

/-- C27: on a reachable pool, a `mempool_alloc(pool, for_hw)` that does not return
`NULL` returns the pointer of a block `i` below `block_count` whose free bit was set;
afterwards free bit `i` is clear, hw-owned bit `i` is the old bit or-ed with `for_hw`,
which is `for_hw` itself, every other bit of both bitmaps is unchanged, and so are
`block_size`, `block_count`, `block_size_unaligned` and `memory_area`. -/
theorem C27_alloc_frame (pool : mempool_t) (for_hw : Bool) (hr : Reachable pool)
    (h : (mempool_alloc pool for_hw).1 ≠ NULL) :
    ∃ i, i < pool.block_count ∧ (mempool_alloc pool for_hw).1 = block_ptr pool i ∧
      get_bit pool.free_bitmap i = true ∧
      get_bit (mempool_alloc pool for_hw).2.free_bitmap i = false ∧
      get_bit (mempool_alloc pool for_hw).2.hw_owned_bitmap i
        = (get_bit pool.hw_owned_bitmap i || for_hw) ∧
      get_bit (mempool_alloc pool for_hw).2.hw_owned_bitmap i = for_hw ∧
      (∀ j, j ≠ i →
        get_bit (mempool_alloc pool for_hw).2.free_bitmap j = get_bit pool.free_bitmap j ∧
        get_bit (mempool_alloc pool for_hw).2.hw_owned_bitmap j
          = get_bit pool.hw_owned_bitmap j) ∧
      (mempool_alloc pool for_hw).2.block_size = pool.block_size ∧
      (mempool_alloc pool for_hw).2.block_count = pool.block_count ∧
      (mempool_alloc pool for_hw).2.block_size_unaligned = pool.block_size_unaligned ∧
      (mempool_alloc pool for_hw).2.memory_area = pool.memory_area := by
  rcases mempool_alloc_cases pool for_hw with ⟨h1, _⟩ | ⟨idx, _, h2, h3, _, h5⟩
  · rw [h1] at h; exact absurd rfl h
  · rw [h5]
    have hb := fun j => alloc_result_bits pool for_hw idx j hr.wf h2
    have hhw : get_bit pool.hw_owned_bitmap idx = false := by
      rcases hh : get_bit pool.hw_owned_bitmap idx with _ | _
      · rfl
      · exact absurd ⟨h3, hh⟩ (hr.exclusive idx)
    refine ⟨idx, h2, rfl, h3, ?_, ?_, ?_, ?_, rfl, rfl, rfl, rfl⟩
    · rw [(hb idx).1]; simp
    · rw [(hb idx).2]; simp
    · rw [(hb idx).2, hhw]; simp
    · intro j hj
      rw [(hb j).1, (hb j).2]
      simp [hj]

/-- Witness of C27: a hardware allocation on the demo pool, of which block 0 is already
out: block 1 is returned and bit 0 of both bitmaps keeps its value. -/
theorem C27_witness :
    (Reachable demo_live.pool ∧ (mempool_alloc demo_live.pool true).1 ≠ NULL) ∧
    ∃ i, i < demo_live.pool.block_count ∧
      (mempool_alloc demo_live.pool true).1 = block_ptr demo_live.pool i ∧
      get_bit demo_live.pool.free_bitmap i = true ∧
      get_bit (mempool_alloc demo_live.pool true).2.free_bitmap i = false ∧
      get_bit (mempool_alloc demo_live.pool true).2.hw_owned_bitmap i
        = (get_bit demo_live.pool.hw_owned_bitmap i || true) ∧
      get_bit (mempool_alloc demo_live.pool true).2.hw_owned_bitmap i = true ∧
      (∀ j, j ≠ i →
        get_bit (mempool_alloc demo_live.pool true).2.free_bitmap j
          = get_bit demo_live.pool.free_bitmap j ∧
        get_bit (mempool_alloc demo_live.pool true).2.hw_owned_bitmap j
          = get_bit demo_live.pool.hw_owned_bitmap j) ∧
      (mempool_alloc demo_live.pool true).2.block_size = demo_live.pool.block_size ∧
      (mempool_alloc demo_live.pool true).2.block_count = demo_live.pool.block_count ∧
      (mempool_alloc demo_live.pool true).2.block_size_unaligned
        = demo_live.pool.block_size_unaligned ∧
      (mempool_alloc demo_live.pool true).2.memory_area = demo_live.pool.memory_area :=
  ⟨⟨demo_live_reachable.inv.1, by decide⟩,
    C27_alloc_frame demo_live.pool true demo_live_reachable.inv.1 (by decide)⟩

/-- C28: in every state reachable from `mempool_queue_create` through enqueue, dequeue
and batch dequeue (with allocations and frees on the pool in between; peek does not
change the state), `count <= capacity`, `head < capacity`, `tail < capacity` and
`tail == (head + count) mod capacity`. -/
theorem C28_ring_cursors_in_range (s : System) (h : SysReachable s) :
    s.queue.count ≤ s.queue.capacity ∧ s.queue.head < s.queue.capacity ∧
    s.queue.tail < s.queue.capacity ∧
    s.queue.tail = (s.queue.head + s.queue.count) % s.queue.capacity := by
  obtain ⟨_, _, q3, _, q5, q6, q7, _⟩ := h.inv.2
  refine ⟨q6, q5, ?_, q7⟩
  rw [q7]
  exact Nat.mod_lt _ q3

/-- Witness of C28: the full queue of capacity 1, whose tail has wrapped to 0. -/
theorem C28_witness :
    SysReachable demo_full ∧
    (demo_full.queue.count = 1 ∧ demo_full.queue.capacity = 1 ∧ demo_full.queue.tail = 0) ∧
    demo_full.queue.count ≤ demo_full.queue.capacity ∧
    demo_full.queue.head < demo_full.queue.capacity ∧
    demo_full.queue.tail < demo_full.queue.capacity ∧
    demo_full.queue.tail
      = (demo_full.queue.head + demo_full.queue.count) % demo_full.queue.capacity :=
  ⟨demo_full_reachable, by decide, C28_ring_cursors_in_range demo_full demo_full_reachable⟩

/-- C29: in every reachable state of a pool and a queue on it, membership bit `i` is
set exactly when `i` is the block index of one of the `count` live entries starting at
`head`, no block index occurs twice among them, the number of set membership bits is
`count`, and when the queue is not empty the pointer returned by a dequeue is accepted
by an enqueue that follows it. -/
theorem C29_membership_bitmap_matches_entries (s : System) (h : SysReachable s) :
    (∀ i, get_bit s.queue.queue_bitmap i = true ↔
      ∃ k, k < s.queue.count ∧
        word s.queue.block_indices ((s.queue.head + k) % s.queue.capacity) = i) ∧
    ((q_entries s.queue).map Prod.fst).Nodup ∧
    (∀ k1 k2, k1 < s.queue.count → k2 < s.queue.count →
      word s.queue.block_indices ((s.queue.head + k1) % s.queue.capacity)
        = word s.queue.block_indices ((s.queue.head + k2) % s.queue.capacity) → k1 = k2) ∧
    bitmap_count s.queue.queue_bitmap = s.queue.count ∧
    (0 < s.queue.count → ∀ data_length,
      (mempool_queue_enqueue_with_length s.pool
        (mempool_queue_dequeue_with_length s.pool s.queue).2.2
        (mempool_queue_dequeue_with_length s.pool s.queue).1 data_length).1 = 0) := by
  obtain ⟨hr, hq⟩ := h.inv
  have q9 := hq.2.2.2.2.2.2.2.2.1
  have q10 := hq.2.2.2.2.2.2.2.2.2.1
  have hmap : (q_entries s.queue).map Prod.fst = (List.range s.queue.count).map (fun k =>
      word s.queue.block_indices ((s.queue.head + k) % s.queue.capacity)) := by
    simp [q_entries, Function.comp_def]
  refine ⟨fun i => ?_, q10, ?_, bitmap_count_queue s.pool s.queue hr.wf hq, ?_⟩
  · rw [q9 i, hmap, List.mem_map]
    constructor
    · rintro ⟨k, hk, rfl⟩
      exact ⟨k, List.mem_range.1 hk, rfl⟩
    · rintro ⟨k, hk, rfl⟩
      exact ⟨k, List.mem_range.2 hk, rfl⟩
  · intro k1 k2 hk1 hk2 heq
    rw [hmap] at q10
    exact List.inj_on_of_nodup_map q10 (List.mem_range.2 hk1) (List.mem_range.2 hk2) heq
  · intro hc data_length
    rw [reenqueue_after_dequeue s.pool s.queue data_length hr hq hc]

/-- Witness of C29: the demo queue holds block 0: membership bit 0 is the one set bit,
and after a dequeue the pointer `4096` is accepted again. -/
theorem C29_witness :
    (SysReachable demo_live ∧ 0 < demo_live.queue.count) ∧
    bitmap_count demo_live.queue.queue_bitmap = demo_live.queue.count ∧
    (mempool_queue_enqueue_with_length demo_live.pool
      (mempool_queue_dequeue_with_length demo_live.pool demo_live.queue).2.2
      (mempool_queue_dequeue_with_length demo_live.pool demo_live.queue).1 7).1 = 0 :=
  ⟨⟨demo_live_reachable, by decide⟩,
    (C29_membership_bitmap_matches_entries demo_live demo_live_reachable).2.2.2.1,
    (C29_membership_bitmap_matches_entries demo_live demo_live_reachable).2.2.2.2
      (by decide) 7⟩

/-- C30: for every queue, every non-null output array and every `max_count`,
`mempool_queue_dequeue_batch_with_length` returns `n = min(count, max_count)` and
yields the same `(pointer, length)` pairs in the same order and the same final queue
state as `n` successive calls of `mempool_queue_dequeue_with_length`. -/
theorem C30_batch_is_repeated_dequeue (pool : mempool_t) (queue : mempool_queue_t)
    (buffers max_count : Nat) (hb : buffers ≠ NULL) :
    (mempool_queue_dequeue_batch_with_length pool queue buffers max_count).1
      = min queue.count max_count ∧
    (mempool_queue_dequeue_batch_with_length pool queue buffers max_count).2
      = dequeue_repeat pool (min queue.count max_count) queue := by
  unfold mempool_queue_dequeue_batch_with_length
  by_cases hm : max_count = 0
  · subst hm
    rw [if_pos (Or.inr rfl), Nat.min_zero]
    exact ⟨rfl, rfl⟩
  · rw [if_neg (by rintro (c | c); exact hb c; exact hm c)]
    dsimp only
    by_cases hlt : queue.count < max_count
    · rw [if_pos hlt, Nat.min_eq_left (by omega)]
      exact ⟨rfl, dequeue_loop_eq_repeat pool _ queue (le_refl _)⟩
    · rw [if_neg hlt, Nat.min_eq_right (by omega)]
      exact ⟨rfl, dequeue_loop_eq_repeat pool _ queue (by omega)⟩

/-- Witness of C30: a batch of up to 3 on the demo queue holding one entry yields that
entry, as one single dequeue does. -/
theorem C30_witness :
    (8192 : Nat) ≠ NULL ∧
    (mempool_queue_dequeue_batch_with_length demo_live.pool demo_live.queue 8192 3).1 = 1 ∧
    (mempool_queue_dequeue_batch_with_length demo_live.pool demo_live.queue 8192 3).2.1
      = [(4096, 5)] ∧
    (mempool_queue_dequeue_batch_with_length demo_live.pool demo_live.queue 8192 3).2
      = dequeue_repeat demo_live.pool 1 demo_live.queue :=
  ⟨by decide, by decide, by decide,
    (C30_batch_is_repeated_dequeue demo_live.pool demo_live.queue 8192 3 (by decide)).2⟩

/-- The block size of every reachable pool is a multiple of `MEMPOOL_ALIGNMENT`, also
when `data_size + 63` wraps around. -/
theorem block_size_aligned {pool : mempool_t} (h : Reachable pool) :
    pool.block_size % 64 = 0 := by
  induction h with
  | create data_size num_blocks pool_mem area pool _ _ hc =>
    have h8 := (mempool_create_some _ _ _ _ _ hc).2.2.2.2.2.2.2.1
    have hM : 0 < SIZE_MOD := by norm_num [SIZE_MOD]
    rw [h8, and_not64_63 _ (by
      have := Nat.mod_lt (data_size + 63) hM
      simpa [SIZE_MOD] using this)]
    exact Nat.mul_mod_left _ _
  | alloc pool for_hw _ ih => rw [(block_count_alloc pool for_hw).2.1]; exact ih
  | free pool ptr _ ih => rw [(block_count_free pool ptr).2.1]; exact ih

/-- C31: for every pool reachable from `mempool_create`, the block size is a multiple
of `MEMPOOL_ALIGNMENT = 64`, and every pointer that `mempool_alloc` returns lies at an
offset from `memory_area` that is a multiple of 64 (also when the offset
`index * block_size` wraps around in `size_t`), so it is 64-byte aligned whenever
`memory_area` is. -/
theorem C31_alloc_pointer_aligned (pool : mempool_t) (for_hw : Bool) (hr : Reachable pool)
    (h : (mempool_alloc pool for_hw).1 ≠ NULL) :
    pool.block_size % MEMPOOL_ALIGNMENT = 0 ∧
    pool.memory_area ≤ (mempool_alloc pool for_hw).1 ∧
    ((mempool_alloc pool for_hw).1 - pool.memory_area) % MEMPOOL_ALIGNMENT = 0 ∧
    (pool.memory_area % MEMPOOL_ALIGNMENT = 0 →
      (mempool_alloc pool for_hw).1 % MEMPOOL_ALIGNMENT = 0) := by
  have hb := block_size_aligned hr
  rcases mempool_alloc_cases pool for_hw with ⟨a1, _⟩ | ⟨idx, _, _, _, _, a5⟩
  · rw [a1] at h; exact absurd rfl h
  · rw [a5]
    simp only [MEMPOOL_ALIGNMENT, block_ptr]
    have hoff : (idx * pool.block_size) % SIZE_MOD % 64 = 0 := by
      rw [Nat.mod_mod_of_dvd _ (by norm_num [SIZE_MOD] : 64 ∣ SIZE_MOD), Nat.mul_mod, hb]
      simp
    refine ⟨hb, by omega, by rw [Nat.add_sub_cancel_left]; exact hoff, fun hm => ?_⟩
    omega

/-- Witness of C31: the second block of the demo pool, whose arena starts at the
aligned address `4096`, is at `4160`. -/
theorem C31_witness :
    (Reachable demo_live.pool ∧ (mempool_alloc demo_live.pool false).1 ≠ NULL ∧
      (mempool_alloc demo_live.pool false).1 = 4160) ∧
    demo_live.pool.block_size % MEMPOOL_ALIGNMENT = 0 ∧
    demo_live.pool.memory_area ≤ (mempool_alloc demo_live.pool false).1 ∧
    ((mempool_alloc demo_live.pool false).1 - demo_live.pool.memory_area)
      % MEMPOOL_ALIGNMENT = 0 ∧
    (demo_live.pool.memory_area % MEMPOOL_ALIGNMENT = 0 →
      (mempool_alloc demo_live.pool false).1 % MEMPOOL_ALIGNMENT = 0) :=
  ⟨⟨demo_live_reachable.inv.1, by decide, by decide⟩,
    C31_alloc_pointer_aligned demo_live.pool false demo_live_reachable.inv.1 (by decide)⟩

/-- C32: a queue call (enqueue, dequeue, batch dequeue, peek) leaves `free_bitmap` and
`hw_owned_bitmap` of the pool as they were, so `mempool_available` is the same before
and after; and what an enqueue returns and does to the queue is the same for any other
pool state with the same arena, block size and block count, whatever its bitmaps say
about the block. -/
theorem C32_queue_calls_leave_pool_bitmaps (s t : System) (h : QueueStep s t) :
    t.pool.free_bitmap = s.pool.free_bitmap ∧
    t.pool.hw_owned_bitmap = s.pool.hw_owned_bitmap ∧
    mempool_available t.pool = mempool_available s.pool ∧
    mempool_used t.pool = mempool_used s.pool ∧
    (∀ (free hw : List Nat) (buffer data_length : Nat),
      mempool_queue_enqueue_with_length
          { s.pool with free_bitmap := free, hw_owned_bitmap := hw } s.queue buffer data_length
        = mempool_queue_enqueue_with_length s.pool s.queue buffer data_length) := by
  have hind : ∀ (free hw : List Nat) (buffer data_length : Nat),
      mempool_queue_enqueue_with_length
          { s.pool with free_bitmap := free, hw_owned_bitmap := hw } s.queue buffer data_length
        = mempool_queue_enqueue_with_length s.pool s.queue buffer data_length := by
    intro free hw buffer data_length
    rfl
  cases h with
  | enqueue buffer data_length => exact ⟨rfl, rfl, rfl, rfl, hind⟩
  | dequeue => exact ⟨rfl, rfl, rfl, rfl, hind⟩
  | dequeue_batch buffers max_count => exact ⟨rfl, rfl, rfl, rfl, hind⟩
  | peek => exact ⟨rfl, rfl, rfl, rfl, hind⟩

/-- Witness of C32: dequeuing block 0 from the demo queue leaves it allocated (free bit
0 stays clear), and on the fresh demo pool the enqueue of the pointer of block 0, which
was never allocated, is accepted. -/
theorem C32_witness :
    (QueueStep demo_live
        ⟨demo_live.pool,
          (mempool_queue_dequeue_with_length demo_live.pool demo_live.queue).2.2⟩ ∧
      (mempool_queue_dequeue_with_length demo_live.pool demo_live.queue).1 = 4096 ∧
      get_bit demo_live.pool.free_bitmap 0 = false ∧
      get_bit demo_pool.free_bitmap 0 = true ∧
      (mempool_queue_enqueue_with_length demo_pool demo_queue 4096 5).1 = 0) ∧
    mempool_available
        (System.mk demo_live.pool
          (mempool_queue_dequeue_with_length demo_live.pool demo_live.queue).2.2).pool
      = mempool_available demo_live.pool :=
  ⟨⟨QueueStep.dequeue demo_live, by decide, by decide, by decide, by decide⟩,
    (C32_queue_calls_leave_pool_bitmaps demo_live _ (QueueStep.dequeue demo_live)).2.2.1⟩

/-- C33: the hw-owned bitmap never influences allocation.  For every pool state,
`mempool_alloc(pool, true)` and `mempool_alloc(pool, false)` return the same pointer
and leave the same `free_bitmap`; and for every other contents `hw` of
`hw_owned_bitmap`, `mempool_alloc`, `mempool_free`, `mempool_available` and
`mempool_used` return the same results and leave the same `free_bitmap`. -/
theorem C33_hw_owned_bitmap_has_no_influence (pool : mempool_t) (hw : List Nat)
    (for_hw : Bool) (ptr : Nat) :
    (mempool_alloc pool true).1 = (mempool_alloc pool false).1 ∧
    (mempool_alloc pool true).2.free_bitmap = (mempool_alloc pool false).2.free_bitmap ∧
    (mempool_alloc { pool with hw_owned_bitmap := hw } for_hw).1
      = (mempool_alloc pool for_hw).1 ∧
    (mempool_alloc { pool with hw_owned_bitmap := hw } for_hw).2.free_bitmap
      = (mempool_alloc pool for_hw).2.free_bitmap ∧
    (mempool_free { pool with hw_owned_bitmap := hw } ptr).free_bitmap
      = (mempool_free pool ptr).free_bitmap ∧
    mempool_available { pool with hw_owned_bitmap := hw } = mempool_available pool ∧
    mempool_used { pool with hw_owned_bitmap := hw } = mempool_used pool := by
  obtain ⟨a1, a2⟩ := alloc_hw_independent pool pool false true rfl rfl rfl rfl
  obtain ⟨b1, b2⟩ := alloc_hw_independent pool { pool with hw_owned_bitmap := hw }
    for_hw for_hw rfl rfl rfl rfl
  obtain ⟨c1, c2⟩ := available_hw_independent pool { pool with hw_owned_bitmap := hw } rfl rfl
  exact ⟨a1, a2, b1, b2,
    free_hw_independent pool { pool with hw_owned_bitmap := hw } ptr rfl rfl rfl rfl, c1, c2⟩

/-- C34 fails in the code: in the pool of `mempool_create(2^63 + 64, 4)` (arena of
`256` bytes at `4096`) with blocks 0 and 1 allocated, block 1 starts at
`4096 + 2^63 + 64`; `mempool_free` of that address, or of the address 5 bytes into the
block, fails the range check against `memory_area + 256` and changes nothing: free bit
1 stays clear. -/
theorem C34_free_inside_block_rejected_after_size_overflow :
    (mempool_create (2 ^ 63 + 64) 4 true 4096).map (fun pool =>
        (block_ptr pool 1,
          get_bit (alloc_seq pool [false, false]).2.free_bitmap 1,
          decide (mempool_free (alloc_seq pool [false, false]).2 (4096 + (2 ^ 63 + 64) + 5)
            = (alloc_seq pool [false, false]).2),
          decide (mempool_free (alloc_seq pool [false, false]).2 (4096 + (2 ^ 63 + 64))
            = (alloc_seq pool [false, false]).2),
          get_bit (mempool_free (alloc_seq pool [false, false]).2
            (4096 + (2 ^ 63 + 64) + 5)).free_bitmap 1))
      = some (4096 + (2 ^ 63 + 64), false, true, true, false) := by
  decide

/-- C35: `mempool_free` takes the pool and a pointer and no queue.  In every reachable
state, freeing the pointer of a block `i` that is allocated and has a live entry in the
queue sets free bit `i` and raises `mempool_available` by one; the state after the free
has the queue as it was, with the entry of `i` and membership bit `i` still there; and
when no lower block is free the next `mempool_alloc` returns the pointer of `i`, a
block that is still enqueued. -/
theorem C35_free_ignores_queue (s : System) (h : SysReachable s) (i : Nat)
    (hi : i ∈ (q_entries s.queue).map Prod.fst)
    (hb : get_bit s.pool.free_bitmap i = false) :
    get_bit (mempool_free s.pool (block_ptr s.pool i)).free_bitmap i = true ∧
    mempool_available (mempool_free s.pool (block_ptr s.pool i))
      = mempool_available s.pool + 1 ∧
    SysReachable ⟨mempool_free s.pool (block_ptr s.pool i), s.queue⟩ ∧
    get_bit s.queue.queue_bitmap i = true ∧
    ((∀ j, j < i → get_bit s.pool.free_bitmap j = false) → ∀ for_hw,
      (mempool_alloc (mempool_free s.pool (block_ptr s.pool i)) for_hw).1
        = block_ptr s.pool i) := by
  obtain ⟨hr, hq⟩ := h.inv
  obtain ⟨e1, e2, e3⟩ := free_enqueued_block s.pool s.queue i hr hq hi hb
  exact ⟨e1, e2, SysReachable.free s (block_ptr s.pool i) h,
    (hq.2.2.2.2.2.2.2.2.1 i).2 hi, e3⟩

/-- Witness of C35: block 0 of the demo pool is allocated and enqueued; after
`mempool_free` of its pointer `4096` the queue still holds it and `mempool_alloc`
returns `4096` again. -/
theorem C35_witness :
    (SysReachable demo_live ∧ q_entries demo_live.queue = [(0, 5)] ∧
      get_bit demo_live.pool.free_bitmap 0 = false ∧ block_ptr demo_live.pool 0 = 4096) ∧
    get_bit (mempool_free demo_live.pool (block_ptr demo_live.pool 0)).free_bitmap 0 = true ∧
    (mempool_alloc (mempool_free demo_live.pool (block_ptr demo_live.pool 0)) false).1
      = block_ptr demo_live.pool 0 :=
  ⟨⟨demo_live_reachable, by decide, by decide, by decide⟩,
    (C35_free_ignores_queue demo_live demo_live_reachable 0 (by decide) (by decide)).1,
    (C35_free_ignores_queue demo_live demo_live_reachable 0 (by decide) (by decide)).2.2.2.2
      (fun j hj => absurd hj (Nat.not_lt_zero j)) false⟩

/-- C36 fails in the code: in the pool of `mempool_create(2^63 + 64, 4)` with block 0
allocated for hardware (a reachable state with three free blocks), `mempool_alloc(pool,
true)` returns block 1 at `4096 + 2^63 + 64`, and `mempool_free` of that pointer fails
the range check against the `256`-byte arena: the bitmaps stay `[12, ..]` and
`[3, 0, 0, 0]` instead of going back to `[14, ..]` and `[1, 0, 0, 0]`. -/
theorem C36_alloc_free_not_restored_after_size_overflow :
    (mempool_create (2 ^ 63 + 64) 4 true 4096).map (fun pool =>
        ((mempool_alloc pool true).2.free_bitmap,
          (mempool_alloc pool true).2.hw_owned_bitmap,
          (mempool_alloc (mempool_alloc pool true).2 true).1,
          (mempool_free (mempool_alloc (mempool_alloc pool true).2 true).2
            (mempool_alloc (mempool_alloc pool true).2 true).1).free_bitmap,
          (mempool_free (mempool_alloc (mempool_alloc pool true).2 true).2
            (mempool_alloc (mempool_alloc pool true).2 true).1).hw_owned_bitmap))
      = some ([14, 2 ^ 64 - 1, 2 ^ 64 - 1, 2 ^ 64 - 1], [1, 0, 0, 0],
          4096 + (2 ^ 63 + 64),
          [12, 2 ^ 64 - 1, 2 ^ 64 - 1, 2 ^ 64 - 1], [3, 0, 0, 0]) := by
  decide

/-- C37: in every reachable state whose arena lies in the address space, for every
pointer `p` inside `[memory_area, memory_area + block_size * block_count)` (the
product in `size_t`), `mempool_queue_enqueue_with_length` returns the same code and
leaves the same queue for `p` as for `memory_area + ((p - memory_area) / block_size) *
block_size`, the start of the block that contains `p`; and when the enqueue is accepted,
`count + 1` dequeues return the entries that were waiting followed by that block start
with the enqueued length, not `p`. -/
theorem C37_enqueue_inside_block_is_block_start (s : System) (h : SysReachable s)
    (ha : arena_ok s.pool) (p data_length : Nat) (h1 : s.pool.memory_area ≤ p)
    (h2 : p < s.pool.memory_area + (s.pool.block_size * s.pool.block_count) % SIZE_MOD) :
    mempool_queue_enqueue_with_length s.pool s.queue p data_length
      = mempool_queue_enqueue_with_length s.pool s.queue
          (s.pool.memory_area + (p - s.pool.memory_area) / s.pool.block_size
            * s.pool.block_size) data_length ∧
    ((mempool_queue_enqueue_with_length s.pool s.queue p data_length).1 = 0 →
      (dequeue_repeat s.pool (s.queue.count + 1)
        (mempool_queue_enqueue_with_length s.pool s.queue p data_length).2).1
        = q_ptrs s.pool s.queue ++
          [(s.pool.memory_area + (p - s.pool.memory_area) / s.pool.block_size
            * s.pool.block_size, data_length)]) := by
  obtain ⟨hr, hq⟩ := h.inv
  obtain ⟨e1, e2, _, e4⟩ := enqueue_interior s.pool s.queue p data_length hr ha h1 h2
  refine ⟨by rw [← e2]; exact e4, fun hacc => ?_⟩
  obtain ⟨idx, g1, g2⟩ := enqueue_then_dequeue_all s.pool s.queue p data_length hr.wf hq hacc
  rw [e1] at g1
  have hidx : (p - s.pool.memory_area) / s.pool.block_size = idx := Option.some.inj g1
  rw [g2, ← hidx, e2]

/-- Witness of C37: block 0 of the demo pool starts at `4096`; the pointer `4101` is
accepted on the empty demo queue and the dequeue returns `4096`. -/
theorem C37_witness :
    (SysReachable demo_sys ∧ arena_ok demo_sys.pool ∧ demo_sys.pool.memory_area ≤ 4101 ∧
      (mempool_queue_enqueue_with_length demo_sys.pool demo_sys.queue 4101 9).1 = 0) ∧
    (dequeue_repeat demo_sys.pool (demo_sys.queue.count + 1)
        (mempool_queue_enqueue_with_length demo_sys.pool demo_sys.queue 4101 9).2).1
      = q_ptrs demo_sys.pool demo_sys.queue ++
          [(demo_sys.pool.memory_area + (4101 - demo_sys.pool.memory_area)
            / demo_sys.pool.block_size * demo_sys.pool.block_size, 9)] ∧
    (dequeue_repeat demo_sys.pool 1
        (mempool_queue_enqueue_with_length demo_sys.pool demo_sys.queue 4101 9).2).1
      = [(4096, 9)] :=
  ⟨⟨demo_sys_reachable, by decide, by decide, by decide⟩,
    (C37_enqueue_inside_block_is_block_start demo_sys demo_sys_reachable (by decide) 4101 9
      (by decide) (by decide)).2 (by decide),
    by decide⟩

/-- C38: `mempool_free` and `get_block_index` never divide by zero.  For every pool
state, pointer and buffer, the versions with a fallible division return what the
functions return; with `block_size == 0`, a state that `mempool_create(2^64 - 1, 1)`
produces, the bound `block_size * block_count` is `0`, so `mempool_free` returns at its
range check without a change and `get_block_index` returns `-1`. -/
theorem C38_no_division_by_zero (pool : mempool_t) (ptr buffer : Nat) :
    mempool_free_checked pool ptr = some (mempool_free pool ptr) ∧
    get_block_index_checked pool buffer = some (get_block_index pool buffer) ∧
    (pool.block_size = 0 →
      mempool_free pool ptr = pool ∧ get_block_index pool buffer = none) ∧
    (mempool_create (2 ^ 64 - 1) 1 true 4096).map (fun p => p.block_size) = some 0 := by
  refine ⟨mempool_free_checked_eq pool ptr, get_block_index_checked_eq pool buffer,
    fun h0 => ⟨?_, ?_⟩, by decide⟩
  · unfold mempool_free
    by_cases h1 : ptr = NULL
    · rw [if_pos h1]
    · rw [if_neg h1, if_pos (by rw [h0, Nat.zero_mul, Nat.zero_mod]; omega)]
  · unfold get_block_index
    by_cases h1 : buffer = NULL
    · rw [if_pos h1]
    · rw [if_neg h1]
      dsimp only
      rw [if_pos (by rw [h0, Nat.zero_mul, Nat.zero_mod]; exact Nat.zero_le _)]

/-- Witness of C38: the demo pool with its block size set to `0`: `mempool_free` of the
arena base changes nothing and `get_block_index` of it returns `-1`. -/
theorem C38_witness :
    ({ demo_pool with block_size := 0 } : mempool_t).block_size = 0 ∧
    mempool_free { demo_pool with block_size := 0 } 4096 = { demo_pool with block_size := 0 } ∧
    get_block_index { demo_pool with block_size := 0 } 4096 = none :=
  ⟨rfl, (C38_no_division_by_zero { demo_pool with block_size := 0 } 4096 4096).2.2.1 rfl⟩

/-- C39: in every state reachable from `mempool_create` and `mempool_queue_create`,
`block_count <= 256`; a successful `mempool_alloc` updates word `i < BITMAP_WORDS` at
the bit `find_first_set_bit` found, which is `< 64`; the block index that
`mempool_free` computes has word index `< BITMAP_WORDS` and bit position `< 64`; so
has every index from `get_block_index` that passes the check against `block_count` in
`validate_queue_and_buffer`, which is the index `do_enqueue` gets and stores unchanged
by the cast to `uint16_t`; every live entry is `< block_count`; and on a non-empty
queue the index `do_dequeue` reads at `head` is `< block_count` with word index
`< BITMAP_WORDS` and bit position `< 64`. -/
theorem C39_bitmap_indices_in_range (s : System) (h : SysReachable s) :
    s.pool.block_count ≤ MEMPOOL_MAX_BLOCKS ∧
    (∀ for_hw, (mempool_alloc s.pool for_hw).1 ≠ NULL →
      ∃ i bit_pos, i < BITMAP_WORDS ∧ bit_pos < MEMPOOL_BITMAP_EACH_NUM ∧
        find_first_set_bit (word s.pool.free_bitmap i) = some bit_pos ∧
        i * MEMPOOL_BITMAP_EACH_NUM + bit_pos < s.pool.block_count ∧
        (mempool_alloc s.pool for_hw).1
          = block_ptr s.pool (i * MEMPOOL_BITMAP_EACH_NUM + bit_pos)) ∧
    (∀ ptr idx, free_index s.pool ptr = some idx →
      idx / MEMPOOL_BITMAP_EACH_NUM < BITMAP_WORDS ∧
      idx % MEMPOOL_BITMAP_EACH_NUM < MEMPOOL_BITMAP_EACH_NUM) ∧
    (∀ buffer idx, get_block_index s.pool buffer = some idx → idx < s.pool.block_count →
      idx >>> LOG2_MEMPOOL_BITMAP_EACH_NUM < BITMAP_WORDS ∧
      idx &&& (MEMPOOL_BITMAP_EACH_NUM - 1) < MEMPOOL_BITMAP_EACH_NUM ∧
      idx % 2 ^ 16 = idx) ∧
    (∀ buffer idx, validate_queue_and_buffer s.pool s.queue buffer = some idx →
      idx < s.pool.block_count ∧
      idx >>> LOG2_MEMPOOL_BITMAP_EACH_NUM < BITMAP_WORDS ∧
      idx &&& (MEMPOOL_BITMAP_EACH_NUM - 1) < MEMPOOL_BITMAP_EACH_NUM ∧
      idx % 2 ^ 16 = idx) ∧
    (∀ i ∈ (q_entries s.queue).map Prod.fst, i < s.pool.block_count) ∧
    (0 < s.queue.count →
      word s.queue.block_indices s.queue.head < s.pool.block_count ∧
      word s.queue.block_indices s.queue.head >>> LOG2_MEMPOOL_BITMAP_EACH_NUM
        < BITMAP_WORDS ∧
      word s.queue.block_indices s.queue.head &&& (MEMPOOL_BITMAP_EACH_NUM - 1)
        < MEMPOOL_BITMAP_EACH_NUM) := by
  obtain ⟨hr, hq⟩ := h.inv
  have hc : s.pool.block_count ≤ 256 := hr.wf.2.2.2.1
  have q11 := hq.2.2.2.2.2.2.2.2.2.2.1
  refine ⟨hc, fun for_hw hne => alloc_word_and_bit s.pool for_hw hne, ?_, ?_, ?_, q11, ?_⟩
  · intro ptr idx hidx
    have hlt := free_index_lt s.pool ptr idx hidx
    have r := index_in_range idx (by omega)
    exact ⟨r.1, r.2.1⟩
  · intro buffer idx _ hlt
    have r := index_in_range idx (by omega)
    exact ⟨r.2.2.1, r.2.2.2.1, r.2.2.2.2⟩
  · intro buffer idx hv
    have hlt := (validate_some _ _ _ _ hv).2.2.2.1
    have r := index_in_range idx (by omega)
    exact ⟨hlt, r.2.2.1, r.2.2.2.1, r.2.2.2.2⟩
  · intro hcount
    have hlt := q11 _ (head_entry_mem s.pool s.queue hq hcount)
    have r := index_in_range (word s.queue.block_indices s.queue.head) (by omega)
    exact ⟨hlt, r.2.2.1, r.2.2.2.1⟩

/-- Witness of C39: the demo state with block 0 allocated and enqueued. -/
theorem C39_witness :
    (SysReachable demo_live ∧ 0 < demo_live.queue.count) ∧
    demo_live.pool.block_count ≤ MEMPOOL_MAX_BLOCKS ∧
    (word demo_live.queue.block_indices demo_live.queue.head < demo_live.pool.block_count ∧
      word demo_live.queue.block_indices demo_live.queue.head >>> LOG2_MEMPOOL_BITMAP_EACH_NUM
        < BITMAP_WORDS ∧
      word demo_live.queue.block_indices demo_live.queue.head &&& (MEMPOOL_BITMAP_EACH_NUM - 1)
        < MEMPOOL_BITMAP_EACH_NUM) :=
  ⟨⟨demo_live_reachable, by decide⟩,
    (C39_bitmap_indices_in_range demo_live demo_live_reachable).1,
    (C39_bitmap_indices_in_range demo_live demo_live_reachable).2.2.2.2.2.2 (by decide)⟩

/-- C40: for every 64-bit word `x`, `popcount_ll_generic(x)` is the number of set bits
of `x`, the value of `POPCOUNT_LL` that `mempool_available` sums. -/
theorem C40_popcount_generic_counts_set_bits (x : Nat) (hx : x < SIZE_MOD) :
    popcount_ll_generic x
      = (((List.range 64).countP (fun b => x.testBit b) : Nat) : Int) ∧
    popcount_ll_generic x = ((POPCOUNT_LL x : Nat) : Int) :=
  ⟨popcount_ll_generic_eq x hx, popcount_ll_generic_eq x hx⟩

/-- Witness of C40: the word `0xF0F0` has 8 set bits. -/
theorem C40_witness :
    ((0xF0F0 : Nat) < SIZE_MOD ∧ popcount_ll_generic 0xF0F0 = 8) ∧
    popcount_ll_generic 0xF0F0 = ((POPCOUNT_LL 0xF0F0 : Nat) : Int) :=
  ⟨⟨by decide, by decide⟩,
    (C40_popcount_generic_counts_set_bits 0xF0F0 (by decide)).2⟩

end Mempool
